import Mathlib

/-!
# libintern: intern tables and intern lists

A shallow embedding of `intern.c` / `intern.h`.

* The C heap of `struct bucket` cells is a list of buckets; a pointer is the
  index of a cell, `NULL` is `none`.  `malloc` appends a cell.
* `malloc` does not clear the memory it hands out.  The contents a fresh cell
  happens to hold are an explicit argument of every function that allocates a
  cell without initialising all of its fields (`addbucket`, and through it
  `internstring`).
* `int` is a 32-bit two's complement integer: `wrap32` is applied where the
  source increments or doubles an `int`.
* The `do ... while` loops carry a fuel argument.  A walk is a deterministic
  function of the current bucket, so a walk of more steps than there are
  cells never ends; running out of fuel stands for that, and a `NULL`
  dereference, a failed `assert` and an out-of-bounds access are `none` as
  well.
* Allocation is taken to succeed, except where the size requested cannot be
  served at all (a negative `int` converted to `size_t`).
* A callback (`tableitr`, `internlistitr`, `pfDestroy`) is represented by the
  list of the arguments it is called with.
-/

namespace Intern

/-- A C string: the `char` values before the terminating NUL, each as the
`int` the source reads it into. -/
abbrev CString := List Int

/-- The number of hash buckets. -/
def BUCKET_COUNT : Nat := 13

/-- The invalid intern key. -/
def SIINVALID : Int := -1

/-- The code that indicates the intern table is full. -/
def SITABFULL : Int := -2

/-- A value of type `int` after an arithmetic step, reduced to 32 bits. -/
def wrap32 (x : Int) : Int := (x + 2147483648) % 4294967296 - 2147483648

/-- Conversion of an `int` to `unsigned long` (64 bits). -/
def toULong (x : Int) : Nat := (x % 18446744073709551616).toNat

/-- The loop of `hashstring`: `hash = ((hash << 5) + hash) + c` for each
character, in `unsigned long` arithmetic. -/
def hashstringLoop (hash : Nat) : CString → Nat
  | [] => hash
  | c :: val =>
    hashstringLoop
      ((((hash * 32) % 18446744073709551616 + hash) % 18446744073709551616
        + toULong c) % 18446744073709551616) val

/-- Convert a string to a hashcode (DJB2K33). -/
def hashstring (val : CString) : Nat := hashstringLoop 5381 val

/-- Convert an integer to a hashcode. -/
def hashkey (val : Int) : Nat := toULong val

/-- A bucket in the intern table. -/
structure Bucket where
  val : Option CString
  key : Int
  next : Option Nat
  prev : Option Nat
  deriving DecidableEq, Repr

/-- The heap of buckets; a bucket pointer is an index into it. -/
abbrev Heap := List Bucket

/-- Definition of an intern table. -/
structure InternTab where
  nextkey : Int
  strings : List Nat
  keys : List Nat
  heap : Heap
  deriving DecidableEq, Repr

/-- A store through a bucket pointer: `p->field = ...`. -/
def upd (h : Heap) (p : Nat) (f : Bucket → Bucket) : Option Heap :=
  match h[p]? with
  | none => none
  | some b => some (h.set p (f b))

/-- One round of the initialisation loop of `makeinterntab`. -/
def makeinterntabStep (tab : InternTab) : InternTab :=
  let s := tab.heap.length
  let heap := tab.heap ++ [⟨none, SIINVALID, none, none⟩]
  let k := heap.length
  let heap := heap ++ [⟨none, SIINVALID, none, none⟩]
  { tab with strings := tab.strings ++ [s], keys := tab.keys ++ [k], heap := heap }

/-- Allocate/initialize an intern table. -/
def makeinterntab : InternTab :=
  (List.range BUCKET_COUNT).foldl (fun tab _ => makeinterntabStep tab)
    { nextkey := 1, strings := [], keys := [], heap := [] }

/-- Add a bucket to a bucket chain.  `fresh` is what the cell returned by
`malloc` holds; only its `next` and `prev` are assigned. -/
def addbucket (h : Heap) (bucket : Nat) (fresh : Bucket) : Option Heap :=
  let nbucket := h.length
  let h := h ++ [fresh]
  match h[bucket]? with
  | none => none
  | some b =>
    match b.next with
    | none =>
      (upd h bucket (fun c => { c with next := some nbucket })).bind fun h =>
      (upd h bucket (fun c => { c with prev := some nbucket })).bind fun h =>
      (upd h nbucket (fun c => { c with next := some bucket })).bind fun h =>
      upd h nbucket (fun c => { c with prev := some bucket })
    | some nextbucket =>
      (upd h bucket (fun c => { c with next := some nbucket })).bind fun h =>
      (upd h nextbucket (fun c => { c with prev := some nbucket })).bind fun h =>
      (upd h nbucket (fun c => { c with next := some nextbucket })).bind fun h =>
      upd h nbucket (fun c => { c with prev := some bucket })

/-- The `do ... while` walk of `lookupstring`, entered at `sbucket`. -/
def lookupstringLoop (h : Heap) (string : CString) (fkey : Int) :
    Nat → Nat → Option Int
  | 0, _ => none
  | fuel + 1, sbucket =>
    match h[sbucket]? with
    | none => none
    | some b =>
      if b.val ≠ none ∧ b.val = some string then some b.key
      else
        match b.next with
        | none => none
        | some nxt =>
          match h[nxt]? with
          | none => none
          | some nb =>
            if nb.key ≠ fkey ∧ nb.key ≠ SIINVALID then
              lookupstringLoop h string fkey fuel nxt
            else some SIINVALID

/-- Lookup a interned key for a string. -/
def lookupstring (table : InternTab) (string : CString) : Option Int :=
  let shash := hashstring string % BUCKET_COUNT
  match table.strings[shash]? with
  | none => none
  | some sbucket =>
    match table.heap[sbucket]? with
    | none => none
    | some b =>
      let fkey := b.key
      if b.key = SIINVALID then some SIINVALID
      else lookupstringLoop table.heap string fkey (table.heap.length + 1) sbucket

/-- Intern a string.  `fs` and `fk` are the contents of the two cells that
`addbucket` obtains from `malloc`.  The result is the returned key and the
table after the call. -/
def internstring (table : InternTab) (string : CString) (fs fk : Bucket) :
    Option (Int × InternTab) :=
  match lookupstring table string with
  | none => none
  | some found =>
    if found ≠ SIINVALID then some (found, table)
    else
      let key := table.nextkey
      let table := { table with nextkey := wrap32 (table.nextkey + 1) }
      if key < 0 then some (SITABFULL, table)
      else if key = SIINVALID then none
      else
        let strang := string
        let shash := hashstring strang % BUCKET_COUNT
        let khash := hashkey key % BUCKET_COUNT
        match table.strings[shash]?, table.keys[khash]? with
        | some sbucket, some kbucket =>
          match table.heap[sbucket]?, table.heap[kbucket]? with
          | some sb, some kb =>
            match (if sb.key ≠ SIINVALID then sb.prev else some sbucket),
                  (if kb.key ≠ SIINVALID then kb.prev else some kbucket) with
            | some sbucket, some kbucket =>
              ((upd table.heap sbucket (fun c => { c with val := some strang })).bind fun h =>
               (upd h kbucket (fun c => { c with val := some strang })).bind fun h =>
               (upd h sbucket (fun c => { c with key := key })).bind fun h =>
               (upd h kbucket (fun c => { c with key := key })).bind fun h =>
               (addbucket h sbucket fs).bind fun h =>
               addbucket h kbucket fk).map fun h => (key, { table with heap := h })
            | _, _ => none
          | _, _ => none
        | _, _ => none

/-- The `do ... while` walk of `lookupkey`, entered at `kbucket`. -/
def lookupkeyLoop (h : Heap) (key : Int) (fkey : Int) :
    Nat → Nat → Option (Option CString)
  | 0, _ => none
  | fuel + 1, kbucket =>
    match h[kbucket]? with
    | none => none
    | some b =>
      if key = b.key then some b.val
      else
        match b.next with
        | none => none
        | some nxt =>
          match h[nxt]? with
          | none => none
          | some nb =>
            if nb.key ≠ fkey ∧ nb.key ≠ SIINVALID then
              lookupkeyLoop h key fkey fuel nxt
            else some none

/-- Lookup the string for an interned key; the inner `none` is `NULL`. -/
def lookupkey (table : InternTab) (key : Int) : Option (Option CString) :=
  if table.nextkey < key then some none
  else
    let khash := hashkey key % BUCKET_COUNT
    match table.keys[khash]? with
    | none => none
    | some kbucket =>
      match table.heap[kbucket]? with
      | none => none
      | some b =>
        let fkey := b.key
        if fkey = SIINVALID then some none
        else lookupkeyLoop table.heap key fkey (table.heap.length + 1) kbucket

/-- The `do ... while` of `foreachintern` for one slot.  `buck` is never
reassigned in the body; `calls` collects the arguments given to the
iterator. -/
def foreachinternLoop (h : Heap) (kFirst : Int)
    (calls : List (Option CString × Int)) :
    Nat → Nat → Option (List (Option CString × Int))
  | 0, _ => none
  | fuel + 1, buck =>
    match h[buck]? with
    | none => none
    | some b =>
      let calls := calls ++ [(b.val, b.key)]
      if b.key ≠ kFirst ∧ b.key ≠ SIINVALID then
        foreachinternLoop h kFirst calls fuel buck
      else some calls

/-- The `for` loop of `foreachintern` over the slots listed in `is`. -/
def foreachinternSlots (table : InternTab) :
    List Nat → List (Option CString × Int) → Option (List (Option CString × Int))
  | [], calls => some calls
  | i :: is, calls =>
    match table.keys[i]? with
    | none => none
    | some buck =>
      match table.heap[buck]? with
      | none => none
      | some b =>
        let kFirst := b.key
        if kFirst = SIINVALID then foreachinternSlots table is calls
        else
          match foreachinternLoop table.heap kFirst calls (table.heap.length + 1) buck with
          | none => none
          | some calls => foreachinternSlots table is calls

/-- Execute an action for every key in a table: the sequence of
`(string, key)` arguments the iterator is called with. -/
def foreachintern (table : InternTab) : Option (List (Option CString × Int)) :=
  foreachinternSlots table (List.range BUCKET_COUNT) []

/-- Definition of an intern list.  A `void *` item is a number, `0` being
`NULL`.  `pfDestroyCalls` records, in order, the arguments the destructor
`pfDestroy` has been called with. -/
structure InternList where
  paData : List Nat
  dataspace : Int
  datausage : Int
  ptKeys : InternTab
  pfDestroyCalls : List Nat
  deriving DecidableEq, Repr

/-- The read `paData[i]`; an index outside the array is `none`. -/
def readData (paData : List Nat) (i : Int) : Option Nat :=
  if i < 0 then none else paData[i.toNat]?

/-- Create an intern list.  `calloc` returns zeroed memory; a negative
`initcap` converts to a size no `calloc` can serve and fails the
`assert`. -/
def makeinternlist (initcap : Int) : Option InternList :=
  if initcap < 0 then none
  else some
    { paData := List.replicate initcap.toNat 0
      dataspace := initcap
      datausage := 0
      ptKeys := makeinterntab
      pfDestroyCalls := [] }

/-- The `realloc` of `putinternlist`: the first cells are kept, a cell the
array gains holds whatever `fill` says.  A negative `dataspace` converts to
a size `realloc` cannot serve, and the `assert` fails. -/
def growData (paData : List Nat) (dataspace : Int) (fill : Nat → Nat) :
    Option (List Nat) :=
  if dataspace < 0 then none
  else some (paData.take dataspace.toNat ++
    (List.range (dataspace.toNat - paData.length)).map fun i => fill (paData.length + i))

/-- Insert an item into the list.  `fs`, `fk` are handed to `internstring`,
`fill` to `realloc`. -/
def putinternlist (plList : InternList) (pszKey : CString) (pvData : Nat)
    (fs fk : Bucket) (fill : Nat → Nat) : Option InternList :=
  match internstring plList.ptKeys pszKey fs fk with
  | none => none
  | some (kData, tab) =>
    if ¬ (kData > 0) then none
    else
      let grown : Option (List Nat × Int) :=
        if plList.dataspace = plList.datausage then
          let dataspace := wrap32 (wrap32 (plList.dataspace * 2) + 1)
          (growData plList.paData dataspace fill).map fun d => (d, dataspace)
        else some (plList.paData, plList.dataspace)
      match grown with
      | none => none
      | some (paData, dataspace) =>
        match readData paData (kData - 1) with
        | none => none
        | some old =>
          some
            { paData := paData.set (kData - 1).toNat pvData
              dataspace := dataspace
              datausage := wrap32 (plList.datausage + 1)
              ptKeys := tab
              pfDestroyCalls :=
                if old ≠ 0 then plList.pfDestroyCalls ++ [old] else plList.pfDestroyCalls }

/-- Get an item from an intern list; `0` (`NULL`) if there is no item for
that key. -/
def getinternlist (plList : InternList) (pszKey : CString) : Option Nat :=
  match lookupstring plList.ptKeys pszKey with
  | none => none
  | some kData =>
    if kData = SIINVALID then some 0
    else readData plList.paData (kData - 1)

/-- Delete an item from an intern list. -/
def deleteinternlist (plList : InternList) (pszKey : CString) : Option InternList :=
  match lookupstring plList.ptKeys pszKey with
  | none => none
  | some kData =>
    if kData = SIINVALID then some plList
    else
      match readData plList.paData (kData - 1) with
      | none => none
      | some old =>
        some
          { plList with
            paData := plList.paData.set (kData - 1).toNat 0
            pfDestroyCalls :=
              if old ≠ 0 then plList.pfDestroyCalls ++ [old] else plList.pfDestroyCalls }

/-- Check if an item is in an intern list: `0` if not contained, `1`
otherwise. -/
def containsinternlist (plList : InternList) (pszKey : CString) : Option Int :=
  match lookupstring plList.ptKeys pszKey with
  | none => none
  | some kData =>
    if kData = SIINVALID then some 0
    else
      match readData plList.paData (kData - 1) with
      | none => none
      | some item => some (if item ≠ 0 then 1 else 0)

/-- The destructor loop of `killinternlist`: the arguments `pfDestroy` is
called with for `i = 0 .. datausage - 1`. -/
def killinternlistLoop (paData : List Nat) : List Nat → Option (List Nat)
  | [] => some []
  | i :: is =>
    match paData[i]?, killinternlistLoop paData is with
    | some item, some calls => some (item :: calls)
    | _, _ => none

/-- Destroy an intern list: the destructor calls made so far followed by the
ones the teardown makes. -/
def killinternlist (plList : InternList) : Option (List Nat) :=
  (killinternlistLoop plList.paData (List.range plList.datausage.toNat)).map
    fun calls => plList.pfDestroyCalls ++ calls

/-- Do the work of iterating over a list: the call the action receives for
one `(name, key)` pair of the table, if any. -/
def dointernlistitr (plList : InternList) (pszName : Option CString) :
    Option (List (CString × Nat)) :=
  match pszName with
  | none => none
  | some name =>
    match getinternlist plList name with
    | none => none
    | some pvItem => some (if pvItem ≠ 0 then [(name, pvItem)] else [])

/-- The calls `foreachinternlist` makes to its action, given the calls
`foreachintern` makes to `dointernlistitr`. -/
def foreachinternlistCalls (plList : InternList) :
    List (Option CString × Int) → Option (List (CString × Nat))
  | [] => some []
  | (name, _) :: rest =>
    match dointernlistitr plList name, foreachinternlistCalls plList rest with
    | some c, some cs => some (c ++ cs)
    | _, _ => none

/-- Execute something for every key-value pair in the list. -/
def foreachinternlist (plList : InternList) : Option (List (CString × Nat)) :=
  (foreachintern plList.ptKeys).bind (foreachinternlistCalls plList)

/-! ## Reachable states -/

/-- Tables reachable from `makeinterntab` by `internstring` calls, whatever
the fresh cells hold. -/
inductive Reachable : InternTab → Prop
  | make : Reachable makeinterntab
  | intern {t t' : InternTab} (s : CString) (fs fk : Bucket) (k : Int) :
      Reachable t → internstring t s fs fk = some (k, t') → Reachable t'

/-- Lists reachable from `makeinternlist` by put and delete calls. -/
inductive ListReachable : InternList → Prop
  | make (initcap : Int) (l : InternList) :
      0 ≤ initcap → initcap ≤ 2147483647 → makeinternlist initcap = some l → ListReachable l
  | put {l l' : InternList} (k : CString) (v : Nat) (fs fk : Bucket) (fill : Nat → Nat) :
      ListReachable l → putinternlist l k v fs fk fill = some l' → ListReachable l'
  | delete {l l' : InternList} (k : CString) :
      ListReachable l → deleteinternlist l k = some l' → ListReachable l'

/-! ## The shape of a reachable heap -/

/-- The `val` field of the cell at `x`, if `x` is allocated. -/
def getVal (h : Heap) (x : Nat) : Option (Option CString) := (h[x]?).map Bucket.val

/-- The `key` field of the cell at `x`. -/
def getKey (h : Heap) (x : Nat) : Option Int := (h[x]?).map Bucket.key

/-- The `next` field of the cell at `x`. -/
def getNext (h : Heap) (x : Nat) : Option (Option Nat) := (h[x]?).map Bucket.next

/-- The `prev` field of the cell at `x`. -/
def getPrev (h : Heap) (x : Nat) : Option (Option Nat) := (h[x]?).map Bucket.prev

/-- The cell at `x` is occupied by the entry `e`. -/
def Holds (h : Heap) (x : Nat) (e : CString × Int) : Prop :=
  getVal h x = some (some e.1) ∧ getKey h x = some e.2

/-- The cell at `y` follows the cell at `x`, and both links say so. -/
def Link (h : Heap) (x y : Nat) : Prop :=
  getNext h x = some (some y) ∧ getPrev h y = some (some x)

/-- The cells `x, rest..., z` are linked one to the next. -/
def Seg (h : Heap) : Nat → List Nat → Nat → Prop
  | x, [], z => Link h x z
  | x, y :: ys, z => Link h x y ∧ Seg h y ys z

/-- The chain of the head cell `c`.  With no entry the head is an
initialised empty cell without links.  Otherwise the head and the cells
`mid` hold the entries `occ` in order, one more cell `t` follows them, holding
`g` (whatever `malloc` left there), and the links close the ring
`c, mid..., t, c`.  `rest` lists the cells of the chain after the head. -/
def Slot (h : Heap) (c : Nat) (occ : List (CString × Int))
    (g : Option CString × Int) (rest : List Nat) : Prop :=
  match occ with
  | [] => rest = [] ∧ h[c]? = some ⟨none, SIINVALID, none, none⟩
  | e :: es =>
    ∃ mid t, rest = mid ++ [t] ∧ Holds h c e ∧ List.Forall₂ (Holds h) mid es ∧
      Seg h c rest c ∧ getVal h t = some g.1 ∧ getKey h t = some g.2

/-- The heap of table `t` consists of 26 chains: the chain of head cell `c`
holds the entries `occ c`, ends in a cell holding `g c` and occupies the
cells `c :: rest c`.  Head `2 * i` is `strings[i]`, head `2 * i + 1` is
`keys[i]`. -/
structure TabOK (t : InternTab) (occ : Nat → List (CString × Int))
    (g : Nat → Option CString × Int) (rest : Nat → List Nat) : Prop where
  strings_eq : t.strings = (List.range 13).map fun i => 2 * i
  keys_eq : t.keys = (List.range 13).map fun i => 2 * i + 1
  slot : ∀ c, c < 26 → Slot t.heap c (occ c) (g c) (rest c)
  bound : ∀ c, c < 26 → ∀ x ∈ rest c, 26 ≤ x ∧ x < t.heap.length
  nodup : ∀ c, c < 26 → (rest c).Nodup
  disj : ∀ c, c < 26 → ∀ c', c' < 26 → c ≠ c' → ∀ x ∈ rest c, x ∉ rest c'
  fuel : ∀ c, c < 26 → (rest c).length + 26 ≤ t.heap.length
  nonneg : ∀ c, c < 26 → ∀ e ∈ occ c, 0 ≤ e.2

/-- What the walk of `lookupstring` returns when it stands on a cell holding
`e`, the entries `es` follow, and the last cell of the ring holds `g`. -/
def walkS (s : CString) (fkey : Int) (g : Option CString × Int) :
    CString × Int → List (CString × Int) → Int
  | e, [] =>
    if e.1 = s then e.2
    else if g.2 ≠ fkey ∧ g.2 ≠ SIINVALID then (if g.1 = some s then g.2 else SIINVALID)
    else SIINVALID
  | e, e' :: es =>
    if e.1 = s then e.2
    else if e'.2 ≠ fkey ∧ e'.2 ≠ SIINVALID then walkS s fkey g e' es
    else SIINVALID

/-- What `lookupstring` returns on a chain holding `occ` and ending in `g`. -/
def chainLookupS (occ : List (CString × Int)) (g : Option CString × Int)
    (s : CString) : Int :=
  match occ with
  | [] => SIINVALID
  | e :: es => if e.2 = SIINVALID then SIINVALID else walkS s e.2 g e es

/-- What the walk of `lookupkey` returns when it stands on a cell holding
`e`, the entries `es` follow, and the last cell of the ring holds `g`. -/
def walkK (k : Int) (fkey : Int) (g : Option CString × Int) :
    CString × Int → List (CString × Int) → Option CString
  | e, [] =>
    if k = e.2 then some e.1
    else if g.2 ≠ fkey ∧ g.2 ≠ SIINVALID then (if k = g.2 then g.1 else none)
    else none
  | e, e' :: es =>
    if k = e.2 then some e.1
    else if e'.2 ≠ fkey ∧ e'.2 ≠ SIINVALID then walkK k fkey g e' es
    else none

/-- What the chain walk of `lookupkey` returns on a chain holding `occ` and
ending in `g`. -/
def chainLookupK (occ : List (CString × Int)) (g : Option CString × Int)
    (k : Int) : Option CString :=
  match occ with
  | [] => none
  | e :: es => if e.2 = SIINVALID then none else walkK k e.2 g e es

/-- The head cell of the strings chain a string hashes to. -/
def sslot (s : CString) : Nat := 2 * (hashstring s % BUCKET_COUNT)

/-- The head cell of the keys chain a key hashes to. -/
def kslot (k : Int) : Nat := 2 * (hashkey k % BUCKET_COUNT) + 1

/-- The entries of the chains after `e` has been appended to the chains of
the heads `cs` and `ck`. -/
def occIns (occ : Nat → List (CString × Int)) (cs ck : Nat) (e : CString × Int) :
    Nat → List (CString × Int) :=
  fun c => if c = cs ∨ c = ck then occ c ++ [e] else occ c

/-- The contents of the last cells after the chains of `cs` and `ck` have
received the fresh cells `fs` and `fk`. -/
def gIns (g : Nat → Option CString × Int) (cs ck : Nat) (fs fk : Bucket) :
    Nat → Option CString × Int :=
  fun c => if c = cs then (fs.val, fs.key) else if c = ck then (fk.val, fk.key) else g c

/-- The cells of the chains after the chains of `cs` and `ck` have received
the cells `n` and `n + 1`. -/
def restIns (rest : Nat → List Nat) (cs ck n : Nat) : Nat → List Nat :=
  fun c => if c = cs then rest c ++ [n] else if c = ck then rest c ++ [n + 1] else rest c

/-- The keys held by the chains are the keys `1 .. n`, in increasing order
along every chain. -/
def KeysOK (occ : Nat → List (CString × Int)) (n : Int) : Prop :=
  ∀ c, c < 26 → (∀ e ∈ occ c, 1 ≤ e.2 ∧ e.2 ≤ n) ∧
    (occ c).Pairwise fun a b => a.2 < b.2

/-- A well-shaped table that has issued the keys `1 .. n` and whose counter
has not been advanced by a failed call. -/
def TabInv (t : InternTab) : Prop :=
  ∃ occ g rest n, TabOK t occ g rest ∧ KeysOK occ n ∧ 0 ≤ n ∧ n ≤ 2147483647 ∧
    t.nextkey = wrap32 (n + 1)

/-- A cell as an initialising allocator would hand it out. -/
def cleanCell : Bucket := ⟨none, SIINVALID, none, none⟩

/-- A cell as `malloc` may hand it out: it still holds the string `"n"` and
the key 7 of an earlier use. -/
def staleCell : Bucket := ⟨some [110], 7, none, none⟩

/-- Intern the strings of a list in order, every fresh cell being clean. -/
def internAll : InternTab → List CString → Option InternTab
  | t, [] => some t
  | t, s :: ss =>
    match internstring t s cleanCell cleanCell with
    | none => none
    | some (_, t) => internAll t ss

/-- A run of `internstring` calls from `makeinterntab`: the calls made, each
with the string given and the key returned, the most recent call first, and
the table they leave. -/
inductive Run : List (CString × Int) → InternTab → Prop
  | make : Run [] makeinterntab
  | intern {log : List (CString × Int)} {t t' : InternTab} (s : CString)
      (fs fk : Bucket) (k : Int) :
      Run log t → internstring t s fs fk = some (k, t') → Run ((s, k) :: log) t'

/-- A run in which every cell `malloc` hands to `addbucket` holds a `NULL`
`val` field. -/
inductive CleanRun : List (CString × Int) → InternTab → Prop
  | make : CleanRun [] makeinterntab
  | intern {log : List (CString × Int)} {t t' : InternTab} (s : CString)
      (fs fk : Bucket) (k : Int) :
      fs.val = none → fk.val = none →
      CleanRun log t → internstring t s fs fk = some (k, t') → CleanRun ((s, k) :: log) t'

/-- The number of distinct strings given to the calls of a run. -/
def distinctCount (log : List (CString × Int)) : Nat :=
  ((log.map Prod.fst).dedup).length

/-- A string for every number, different numbers having different strings:
the digits of `i` in base 127, each plus one.  Every number below `2^31` has a
string of at most five characters in `1 .. 127`; the string of 0 is empty. -/
def keyString (i : Nat) : CString := (Nat.digits 127 i).map fun (d : Nat) => (d : Int) + 1

/-- The calls `foreachintern` makes for one keys chain holding `occ`. -/
def slotCalls (occ : List (CString × Int)) : List (Option CString × Int) :=
  match occ with
  | [] => []
  | e :: _ => [(some e.1, e.2)]

/-- A table whose key counter has overflowed to `INT_MIN`. -/
def fullTab : InternTab := { makeinterntab with nextkey := -2147483648 }

/-- The list `makeinternlist(2, destroy)` returns. -/
def demoList0 : InternList :=
  { paData := [0, 0], dataspace := 2, datausage := 0, ptKeys := makeinterntab,
    pfDestroyCalls := [] }

/-- The list after `putinternlist(list, "x", 5)` on `demoList0`. -/
def demoList1 : InternList :=
  { paData := [5, 0], dataspace := 2, datausage := 1,
    ptKeys := ((internstring makeinterntab [120] cleanCell cleanCell).map Prod.snd).getD
      makeinterntab,
    pfDestroyCalls := [] }

/-- The state of a table after a run `log` in which every fresh cell held a
`NULL` string and fewer than `2^31 - 1` distinct strings were given: the
chains hold one entry per distinct string, under the keys `1 .. n` in order
of first appearance, the same entries in the strings chains and in the keys
chains, each in the chain its string or key hashes to. -/
structure CleanInv (log : List (CString × Int)) (t : InternTab)
    (occ : Nat → List (CString × Int)) (g : Nat → Option CString × Int) : Prop where
  keys : KeysOK occ (distinctCount log)
  nextkey : t.nextkey = (distinctCount log : Int) + 1
  clean : ∀ c, (g c).1 = none
  cross : ∀ e, e ∈ occ (sslot e.1) ↔ e ∈ occ (kslot e.2)
  home_s : ∀ i, i < 13 → ∀ e ∈ occ (2 * i), sslot e.1 = 2 * i
  home_k : ∀ j, j < 13 → ∀ e ∈ occ (2 * j + 1), kslot e.2 = 2 * j + 1
  uniq : ∀ e e', e ∈ occ (sslot e.1) → e' ∈ occ (sslot e.1) → e'.1 = e.1 → e' = e
  logged : ∀ e ∈ log, e ∈ occ (sslot e.1)
  seen : ∀ e, e ∈ occ (sslot e.1) → e ∈ log

/-! ## Runs of an intern list -/

/-- A call on an intern list. -/
inductive ListOp where
  | put (k : CString) (v : Nat)
  | delete (k : CString)
  deriving DecidableEq, Repr

/-- A run of put and delete calls on a list from `makeinternlist`: the calls
made, the most recent first, and the list they leave. -/
inductive ListRun : List ListOp → InternList → Prop
  | make (initcap : Int) (l : InternList) :
      0 ≤ initcap → initcap ≤ 2147483647 → makeinternlist initcap = some l → ListRun [] l
  | put {ops : List ListOp} {l l' : InternList} (k : CString) (v : Nat) (fs fk : Bucket)
      (fill : Nat → Nat) :
      ListRun ops l → putinternlist l k v fs fk fill = some l' →
      ListRun (ListOp.put k v :: ops) l'
  | delete {ops : List ListOp} {l l' : InternList} (k : CString) :
      ListRun ops l → deleteinternlist l k = some l' → ListRun (ListOp.delete k :: ops) l'

/-- The number of put calls of a run. -/
def putCount : List ListOp → Nat
  | [] => 0
  | ListOp.put _ _ :: ops => putCount ops + 1
  | ListOp.delete _ :: ops => putCount ops

/-- The keys the counter of a table has handed out: `1 .. nextkey - 1`, and
all of `1 .. INT_MAX` once the counter has overflowed. -/
def issuedKey (t : InternTab) (k : Int) : Prop :=
  1 ≤ k ∧ k ≤ 2147483647 ∧ (k < t.nextkey ∨ t.nextkey < 0)

/-- A well-shaped table that has issued exactly the keys `1 .. n` and whose
counter has not been advanced by a failed call. -/
def TabInvN (t : InternTab) (n : Int) : Prop :=
  ∃ occ g rest, TabOK t occ g rest ∧ KeysOK occ n ∧ 0 ≤ n ∧ n ≤ 2147483647 ∧
    t.nextkey = wrap32 (n + 1)

/-- The bookkeeping of a reachable list: the array has `dataspace` cells,
`datausage` does not exceed `dataspace`, and the embedded table has issued no
more keys than `datausage` says. -/
structure ListInv (l : InternList) : Prop where
  usage_nonneg : 0 ≤ l.datausage
  usage_le : l.datausage ≤ l.dataspace
  space_le : l.dataspace ≤ 2147483647
  length_eq : (l.paData.length : Int) = l.dataspace
  tab : ∃ n, TabInvN l.ptKeys n ∧ n ≤ l.datausage

/-- Put the pairs of a list in order, every fresh cell being clean and every
cell `realloc` adds holding `NULL`. -/
def putAll : InternList → List (CString × Nat) → Option InternList
  | l, [] => some l
  | l, (k, v) :: kvs =>
    match putinternlist l k v cleanCell cleanCell (fun _ => 0) with
    | none => none
    | some l => putAll l kvs

/-- The cells of a ring, from `cur` up to the cell whose `next` is `head`. -/
def ringFrom (h : Heap) (head : Nat) : Nat → Nat → List Nat
  | 0, _ => []
  | fuel + 1, cur =>
    match h[cur]? with
    | none => []
    | some b =>
      cur :: (match b.next with
        | none => []
        | some nxt => if nxt = head then [] else ringFrom h head fuel nxt)

/-- The cells of the chain of a head cell, in ring order. -/
def chainCells (h : Heap) (head : Nat) : List Nat := ringFrom h head h.length head

/-- The `(string, key)` pairs of the buckets of an array of chains that are
not empty, that is, whose key is not `SIINVALID`. -/
def occupiedPairs (h : Heap) (heads : List Nat) : List (Option CString × Int) :=
  (heads.flatMap (chainCells h)).filterMap fun x =>
    match h[x]? with
    | none => none
    | some b => if b.key = SIINVALID then none else some (b.val, b.key)

/-- The key strings of the puts of a run, the most recent first. -/
def putKeys : List ListOp → List CString
  | [] => []
  | ListOp.put k _ :: ops => k :: putKeys ops
  | ListOp.delete _ :: ops => putKeys ops

/-- The number of distinct key strings put in a run. -/
def keyCount (ops : List ListOp) : Nat := ((putKeys ops).dedup).length

/-- The item a run leaves under a key: the item of the most recent put of
the key, unless a delete of the key came after it; `0` (`NULL`) if there is
none. -/
def currentItem (k : CString) : List ListOp → Nat
  | [] => 0
  | ListOp.put k1 v :: ops => if k1 = k then v else currentItem k ops
  | ListOp.delete k1 :: ops => if k1 = k then 0 else currentItem k ops

/-- A run of put and delete calls in which every bucket `malloc` hands to
`addbucket` holds a `NULL` `val` field and every cell `realloc` adds to the
array holds `NULL`. -/
inductive CleanListRun : List ListOp → InternList → Prop
  | make (initcap : Int) (l : InternList) :
      0 ≤ initcap → initcap ≤ 2147483647 → makeinternlist initcap = some l →
      CleanListRun [] l
  | put {ops : List ListOp} {l l' : InternList} (k : CString) (v : Nat) (fs fk : Bucket)
      (fill : Nat → Nat) :
      fs.val = none → fk.val = none → (∀ i, fill i = 0) →
      CleanListRun ops l → putinternlist l k v fs fk fill = some l' →
      CleanListRun (ListOp.put k v :: ops) l'
  | delete {ops : List ListOp} {l l' : InternList} (k : CString) :
      CleanListRun ops l → deleteinternlist l k = some l' →
      CleanListRun (ListOp.delete k :: ops) l'

/-- The items given to the puts of a run, the most recent first. -/
def putValues : List ListOp → List Nat
  | [] => []
  | ListOp.put _ v :: ops => v :: putValues ops
  | ListOp.delete _ :: ops => putValues ops


/-! ## Stores into the heap -/

theorem upd_some {h : Heap} {p : Nat} (f : Bucket → Bucket) (hp : p < h.length) :
    ∃ h', upd h p f = some h' := by
  simp [upd, List.getElem?_eq_getElem hp]

theorem upd_length {h h' : Heap} {p : Nat} {f : Bucket → Bucket}
    (e : upd h p f = some h') : h'.length = h.length := by
  unfold upd at e
  cases hb : h[p]? with
  | none => simp [hb] at e
  | some b => simp [hb] at e; subst e; simp

theorem upd_inb {h h' : Heap} {p : Nat} {f : Bucket → Bucket}
    (e : upd h p f = some h') : ∃ b, h[p]? = some b := by
  unfold upd at e
  cases hb : h[p]? with
  | none => simp [hb] at e
  | some b => exact ⟨b, rfl⟩

theorem upd_get {h h' : Heap} {p : Nat} {f : Bucket → Bucket}
    (e : upd h p f = some h') (x : Nat) :
    h'[x]? = if x = p then (h[x]?).map f else h[x]? := by
  unfold upd at e
  cases hb : h[p]? with
  | none => simp [hb] at e
  | some b =>
    simp [hb] at e; subst e
    by_cases hx : x = p
    · subst hx
      have : x < h.length := by
        rcases Nat.lt_or_ge x h.length with h1 | h1
        · exact h1
        · simp [List.getElem?_eq_none h1] at hb
      simp [hb, List.getElem?_set_self this]
    · simp [hx, List.getElem?_set_ne (Ne.symm hx)]

theorem upd_val_spec {h h' : Heap} {p : Nat} {v : Option CString}
    (e : upd h p (fun c => { c with val := v }) = some h') :
    (∀ x, getVal h' x = if x = p then some v else getVal h x) ∧
    (∀ x, getKey h' x = getKey h x) ∧ (∀ x, getNext h' x = getNext h x) ∧
    (∀ x, getPrev h' x = getPrev h x) := by
  obtain ⟨b, hb⟩ := upd_inb e
  refine ⟨?_, ?_, ?_, ?_⟩ <;> intro x <;> have hg := upd_get e x <;>
    by_cases hx : x = p <;>
    first
      | (subst hx; simp [getVal, getKey, getNext, getPrev, hg, hb])
      | (simp [getVal, getKey, getNext, getPrev, hg, hx])

theorem upd_key_spec {h h' : Heap} {p : Nat} {v : Int}
    (e : upd h p (fun c => { c with key := v }) = some h') :
    (∀ x, getVal h' x = getVal h x) ∧
    (∀ x, getKey h' x = if x = p then some v else getKey h x) ∧
    (∀ x, getNext h' x = getNext h x) ∧ (∀ x, getPrev h' x = getPrev h x) := by
  obtain ⟨b, hb⟩ := upd_inb e
  refine ⟨?_, ?_, ?_, ?_⟩ <;> intro x <;> have hg := upd_get e x <;>
    by_cases hx : x = p <;>
    first
      | (subst hx; simp [getVal, getKey, getNext, getPrev, hg, hb])
      | (simp [getVal, getKey, getNext, getPrev, hg, hx])

theorem upd_next_spec {h h' : Heap} {p : Nat} {v : Option Nat}
    (e : upd h p (fun c => { c with next := v }) = some h') :
    (∀ x, getVal h' x = getVal h x) ∧ (∀ x, getKey h' x = getKey h x) ∧
    (∀ x, getNext h' x = if x = p then some v else getNext h x) ∧
    (∀ x, getPrev h' x = getPrev h x) := by
  obtain ⟨b, hb⟩ := upd_inb e
  refine ⟨?_, ?_, ?_, ?_⟩ <;> intro x <;> have hg := upd_get e x <;>
    by_cases hx : x = p <;>
    first
      | (subst hx; simp [getVal, getKey, getNext, getPrev, hg, hb])
      | (simp [getVal, getKey, getNext, getPrev, hg, hx])

theorem upd_prev_spec {h h' : Heap} {p : Nat} {v : Option Nat}
    (e : upd h p (fun c => { c with prev := v }) = some h') :
    (∀ x, getVal h' x = getVal h x) ∧ (∀ x, getKey h' x = getKey h x) ∧
    (∀ x, getNext h' x = getNext h x) ∧
    (∀ x, getPrev h' x = if x = p then some v else getPrev h x) := by
  obtain ⟨b, hb⟩ := upd_inb e
  refine ⟨?_, ?_, ?_, ?_⟩ <;> intro x <;> have hg := upd_get e x <;>
    by_cases hx : x = p <;>
    first
      | (subst hx; simp [getVal, getKey, getNext, getPrev, hg, hb])
      | (simp [getVal, getKey, getNext, getPrev, hg, hx])

/-- The effect of `addbucket` on a cell `bucket` whose ring successor is `z`
(the cell itself when it has no links yet). -/
theorem addbucket_spec (h : Heap) (bucket : Nat) (fresh : Bucket) {nx : Option Nat}
    (hb : bucket < h.length) (hn : getNext h bucket = some nx)
    (hz : nx.getD bucket < h.length) :
    ∃ h', addbucket h bucket fresh = some h' ∧ h'.length = h.length + 1 ∧
      (∀ x, getVal h' x = if x = h.length then some fresh.val else getVal h x) ∧
      (∀ x, getKey h' x = if x = h.length then some fresh.key else getKey h x) ∧
      (∀ x, getNext h' x = if x = h.length then some (some (nx.getD bucket))
        else if x = bucket then some (some h.length) else getNext h x) ∧
      (∀ x, getPrev h' x = if x = h.length then some (some bucket)
        else if x = nx.getD bucket then some (some h.length) else getPrev h x) := by
  have hlen : (h ++ [fresh]).length = h.length + 1 := by simp
  have hget : ∀ x, (h ++ [fresh])[x]? = if x = h.length then some fresh else h[x]? := by
    intro x
    by_cases hx : x = h.length
    · subst hx; simp
    · rcases Nat.lt_or_ge x h.length with h1 | h1
      · simp [hx, List.getElem?_append_left h1]
      · have h2 : h.length + 1 ≤ x := by omega
        simp [hx, List.getElem?_eq_none h1, List.getElem?_eq_none (l := h ++ [fresh]) (by simpa using h2)]
  obtain ⟨B, hB⟩ : ∃ B, h[bucket]? = some B := ⟨h[bucket], List.getElem?_eq_getElem hb⟩
  have hBn : B.next = nx := by simpa [getNext, hB] using hn
  have hB' : (h ++ [fresh])[bucket]? = some B := by
    rw [hget]; simp [Nat.ne_of_lt hb, hB]
  -- the four stores
  obtain ⟨h1, e1⟩ := upd_some (h := h ++ [fresh]) (p := bucket)
    (fun c => { c with next := some h.length }) (by omega)
  have l1 := upd_length e1
  obtain ⟨h2, e2⟩ := upd_some (h := h1) (p := nx.getD bucket)
    (fun c => { c with prev := some h.length }) (by omega)
  have l2 := upd_length e2
  obtain ⟨h3, e3⟩ := upd_some (h := h2) (p := h.length)
    (fun c => { c with next := some (nx.getD bucket) }) (by omega)
  have l3 := upd_length e3
  obtain ⟨h4, e4⟩ := upd_some (h := h3) (p := h.length)
    (fun c => { c with prev := some bucket }) (by omega)
  have l4 := upd_length e4
  obtain ⟨a1, b1, c1, d1⟩ := upd_next_spec e1
  obtain ⟨a2, b2, c2, d2⟩ := upd_prev_spec e2
  obtain ⟨a3, b3, c3, d3⟩ := upd_next_spec e3
  obtain ⟨a4, b4, c4, d4⟩ := upd_prev_spec e4
  have gv : ∀ x, getVal (h ++ [fresh]) x = if x = h.length then some fresh.val else getVal h x := by
    intro x; simp only [getVal, hget]; split_ifs <;> simp
  have gk : ∀ x, getKey (h ++ [fresh]) x = if x = h.length then some fresh.key else getKey h x := by
    intro x; simp only [getKey, hget]; split_ifs <;> simp
  have gn : ∀ x, getNext (h ++ [fresh]) x = if x = h.length then some fresh.next else getNext h x := by
    intro x; simp only [getNext, hget]; split_ifs <;> simp
  have gp : ∀ x, getPrev (h ++ [fresh]) x = if x = h.length then some fresh.prev else getPrev h x := by
    intro x; simp only [getPrev, hget]; split_ifs <;> simp
  refine ⟨h4, ?_, by omega, ?_, ?_, ?_, ?_⟩
  · unfold addbucket
    simp only [hB']
    cases hnx : nx with
    | none =>
      subst hBn
      simp only [hnx, Option.getD_none] at e2 e3 ⊢
      simp [hnx, e1, e2, e3, e4]
    | some z =>
      subst hBn
      simp only [hnx, Option.getD_some] at e2 e3 ⊢
      simp [hnx, e1, e2, e3, e4]
  · intro x; rw [a4, a3, a2, a1, gv]
  · intro x; rw [b4, b3, b2, b1, gk]
  · intro x; rw [c4, c3, c2, c1, gn]
    by_cases hx : x = h.length
    · simp [hx]
    · simp [hx]
  · intro x; rw [d4, d3, d2, d1, gp]
    by_cases hx : x = h.length
    · simp [hx]
    · simp [hx]

/-! ## The walks over a ring -/

theorem cell_of_val_key {h : Heap} {x : Nat} {v : Option CString} {k : Int}
    (hv : getVal h x = some v) (hk : getKey h x = some k) :
    ∃ b, h[x]? = some b ∧ b.val = v ∧ b.key = k := by
  cases hx : h[x]? with
  | none => simp [getVal, hx] at hv
  | some b =>
    refine ⟨b, rfl, ?_, ?_⟩
    · simpa [getVal, hx] using hv
    · simpa [getKey, hx] using hk

theorem next_of_cell {h : Heap} {x : Nat} {b : Bucket} {y : Option Nat}
    (hx : h[x]? = some b) (hn : getNext h x = some y) : b.next = y := by
  simpa [getNext, hx] using hn

/-- The walk of `lookupstring` over a ring, from a cell holding an entry. -/
theorem lookupstringLoop_walk (h : Heap) (s : CString) (fkey : Int)
    (g : Option CString × Int) (c t : Nat)
    (hgv : getVal h t = some g.1) (hgk : getKey h t = some g.2)
    (hck : getKey h c = some fkey) :
    ∀ (mid : List Nat) (es : List (CString × Int)) (x : Nat) (e : CString × Int)
      (fuel : Nat),
      Holds h x e → List.Forall₂ (Holds h) mid es → Seg h x (mid ++ [t]) c →
      mid.length + 2 ≤ fuel →
      lookupstringLoop h s fkey fuel x = some (walkS s fkey g e es) := by
  intro mid
  induction mid with
  | nil =>
    intro es x e fuel hx hF hS hfuel
    cases hF
    obtain ⟨bx, hbx, hbv, hbk⟩ := cell_of_val_key hx.1 hx.2
    obtain ⟨bt, hbt, htv, htk⟩ := cell_of_val_key hgv hgk
    simp only [List.nil_append, Seg] at hS
    obtain ⟨⟨hxt, _⟩, ⟨htc, _⟩⟩ := hS
    have hxn := next_of_cell hbx hxt
    have htn := next_of_cell hbt htc
    obtain ⟨bc, hbc, hbck⟩ : ∃ b, h[c]? = some b ∧ b.key = fkey := by
      cases hc : h[c]? with
      | none => simp [getKey, hc] at hck
      | some b => exact ⟨b, rfl, by simpa [getKey, hc] using hck⟩
    obtain ⟨f, rfl⟩ : ∃ f, fuel = f + 2 := ⟨fuel - 2, by simp at hfuel; omega⟩
    unfold lookupstringLoop
    simp only [hbx, hbv, hxn, hbt, htk]
    unfold walkS
    by_cases h1 : e.1 = s
    · simp [h1, hbk]
    · have h1' : ¬ (some e.1 = some s) := by simpa using h1
      rw [if_neg (fun hh => h1' hh.2), if_neg h1]
      by_cases h2 : g.2 ≠ fkey ∧ g.2 ≠ SIINVALID
      · rw [if_pos h2, if_pos h2]
        unfold lookupstringLoop
        simp only [hbt, htv, htn, hbc, hbck]
        by_cases h3 : g.1 = some s
        · simp [h3, htk]
        · have : ¬ (g.1 ≠ none ∧ g.1 = some s) := fun hh => h3 hh.2
          simp [this, h3]
      · rw [if_neg h2, if_neg h2]
  | cons y mid ih =>
    intro es x e fuel hx hF hS hfuel
    cases hF with
    | cons hy hF' =>
      rename_i e' es'
      obtain ⟨bx, hbx, hbv, hbk⟩ := cell_of_val_key hx.1 hx.2
      obtain ⟨by', hby, hyv, hyk⟩ := cell_of_val_key hy.1 hy.2
      simp only [List.cons_append, Seg] at hS
      obtain ⟨⟨hxy, _⟩, hS'⟩ := hS
      have hxn := next_of_cell hbx hxy
      obtain ⟨f, rfl⟩ : ∃ f, fuel = f + 1 := ⟨fuel - 1, by simp at hfuel; omega⟩
      unfold lookupstringLoop
      simp only [hbx, hbv, hxn, hby, hyk]
      unfold walkS
      by_cases h1 : e.1 = s
      · simp [h1, hbk]
      · have h1' : ¬ (some e.1 = some s) := by simpa using h1
        rw [if_neg (fun hh => h1' hh.2), if_neg h1]
        by_cases h2 : e'.2 ≠ fkey ∧ e'.2 ≠ SIINVALID
        · rw [if_pos h2, if_pos h2]
          exact ih es' y e' f hy hF' hS' (by simp at hfuel; omega)
        · rw [if_neg h2, if_neg h2]

/-- The walk of `lookupkey` over a ring, from a cell holding an entry. -/
theorem lookupkeyLoop_walk (h : Heap) (k : Int) (fkey : Int)
    (g : Option CString × Int) (c t : Nat)
    (hgv : getVal h t = some g.1) (hgk : getKey h t = some g.2)
    (hck : getKey h c = some fkey) :
    ∀ (mid : List Nat) (es : List (CString × Int)) (x : Nat) (e : CString × Int)
      (fuel : Nat),
      Holds h x e → List.Forall₂ (Holds h) mid es → Seg h x (mid ++ [t]) c →
      mid.length + 2 ≤ fuel →
      lookupkeyLoop h k fkey fuel x = some (walkK k fkey g e es) := by
  intro mid
  induction mid with
  | nil =>
    intro es x e fuel hx hF hS hfuel
    cases hF
    obtain ⟨bx, hbx, hbv, hbk⟩ := cell_of_val_key hx.1 hx.2
    obtain ⟨bt, hbt, htv, htk⟩ := cell_of_val_key hgv hgk
    simp only [List.nil_append, Seg] at hS
    obtain ⟨⟨hxt, _⟩, ⟨htc, _⟩⟩ := hS
    have hxn := next_of_cell hbx hxt
    have htn := next_of_cell hbt htc
    obtain ⟨bc, hbc, hbck⟩ : ∃ b, h[c]? = some b ∧ b.key = fkey := by
      cases hc : h[c]? with
      | none => simp [getKey, hc] at hck
      | some b => exact ⟨b, rfl, by simpa [getKey, hc] using hck⟩
    obtain ⟨f, rfl⟩ : ∃ f, fuel = f + 2 := ⟨fuel - 2, by simp at hfuel; omega⟩
    unfold lookupkeyLoop
    simp only [hbx, hbk, hxn, hbt, htk]
    unfold walkK
    by_cases h1 : k = e.2
    · simp [h1, hbv]
    · rw [if_neg h1, if_neg h1]
      by_cases h2 : g.2 ≠ fkey ∧ g.2 ≠ SIINVALID
      · rw [if_pos h2, if_pos h2]
        unfold lookupkeyLoop
        simp only [hbt, htv, htk, htn, hbc, hbck]
        by_cases h3 : k = g.2
        · simp [h3]
        · simp [h3]
      · rw [if_neg h2, if_neg h2]
  | cons y mid ih =>
    intro es x e fuel hx hF hS hfuel
    cases hF with
    | cons hy hF' =>
      rename_i e' es'
      obtain ⟨bx, hbx, hbv, hbk⟩ := cell_of_val_key hx.1 hx.2
      obtain ⟨by', hby, hyv, hyk⟩ := cell_of_val_key hy.1 hy.2
      simp only [List.cons_append, Seg] at hS
      obtain ⟨⟨hxy, _⟩, hS'⟩ := hS
      have hxn := next_of_cell hbx hxy
      obtain ⟨f, rfl⟩ : ∃ f, fuel = f + 1 := ⟨fuel - 1, by simp at hfuel; omega⟩
      unfold lookupkeyLoop
      simp only [hbx, hbk, hxn, hby, hyk]
      unfold walkK
      by_cases h1 : k = e.2
      · simp [h1, hbv]
      · rw [if_neg h1, if_neg h1]
        by_cases h2 : e'.2 ≠ fkey ∧ e'.2 ≠ SIINVALID
        · rw [if_pos h2, if_pos h2]
          exact ih es' y e' f hy hF' hS' (by simp at hfuel; omega)
        · rw [if_neg h2, if_neg h2]

/-! ## The lookups on a well-shaped table -/

theorem sslot_lt (s : CString) : sslot s < 26 := by
  have := Nat.mod_lt (hashstring s) (show 0 < BUCKET_COUNT by decide)
  unfold sslot BUCKET_COUNT at *; omega

theorem kslot_lt (k : Int) : kslot k < 26 := by
  have := Nat.mod_lt (hashkey k) (show 0 < BUCKET_COUNT by decide)
  unfold kslot BUCKET_COUNT at *; omega

theorem strings_get {t : InternTab} {occ g rest} (ok : TabOK t occ g rest) (s : CString) :
    t.strings[hashstring s % BUCKET_COUNT]? = some (sslot s) := by
  have := Nat.mod_lt (hashstring s) (show 0 < BUCKET_COUNT by decide)
  rw [ok.strings_eq]
  simp only [BUCKET_COUNT] at this
  simp [sslot, BUCKET_COUNT, List.getElem?_range this, this]

theorem keys_get {t : InternTab} {occ g rest} (ok : TabOK t occ g rest) (k : Int) :
    t.keys[hashkey k % BUCKET_COUNT]? = some (kslot k) := by
  have := Nat.mod_lt (hashkey k) (show 0 < BUCKET_COUNT by decide)
  rw [ok.keys_eq]
  simp only [BUCKET_COUNT] at this
  simp [kslot, BUCKET_COUNT, List.getElem?_range this, this]

/-- `lookupstring` on a well-shaped table is the abstract chain lookup. -/
theorem lookupstring_spec {t : InternTab} {occ g rest} (ok : TabOK t occ g rest)
    (s : CString) :
    lookupstring t s = some (chainLookupS (occ (sslot s)) (g (sslot s)) s) := by
  have hc := sslot_lt s
  have hslot := ok.slot _ hc
  have hfuel := ok.fuel _ hc
  unfold lookupstring
  simp only [strings_get ok s]
  unfold Slot at hslot
  cases hocc : occ (sslot s) with
  | nil =>
    rw [hocc] at hslot
    simp [hslot.2, chainLookupS]
  | cons e es =>
    rw [hocc] at hslot
    obtain ⟨mid, tl, hrest, hH, hF, hS, hgv, hgk⟩ := hslot
    obtain ⟨b, hb, hbv, hbk⟩ := cell_of_val_key hH.1 hH.2
    simp only [hb, hbk, chainLookupS]
    by_cases h1 : e.2 = SIINVALID
    · simp [h1]
    · rw [if_neg h1, if_neg h1]
      rw [hrest] at hS hfuel
      exact lookupstringLoop_walk t.heap s e.2 (g (sslot s)) (sslot s) tl hgv hgk hH.2
        mid es (sslot s) e _ hH hF hS (by simp at hfuel; omega)

/-- `lookupkey` on a well-shaped table is the fast-path test followed by the
abstract chain lookup. -/
theorem lookupkey_spec {t : InternTab} {occ g rest} (ok : TabOK t occ g rest)
    (k : Int) :
    lookupkey t k = some (if t.nextkey < k then none
      else chainLookupK (occ (kslot k)) (g (kslot k)) k) := by
  have hc := kslot_lt k
  have hslot := ok.slot _ hc
  have hfuel := ok.fuel _ hc
  unfold lookupkey
  by_cases h0 : t.nextkey < k
  · simp [h0]
  · rw [if_neg h0, if_neg h0]
    simp only [keys_get ok k]
    unfold Slot at hslot
    cases hocc : occ (kslot k) with
    | nil =>
      rw [hocc] at hslot
      simp [hslot.2, chainLookupK]
    | cons e es =>
      rw [hocc] at hslot
      obtain ⟨mid, tl, hrest, hH, hF, hS, hgv, hgk⟩ := hslot
      obtain ⟨b, hb, hbv, hbk⟩ := cell_of_val_key hH.1 hH.2
      simp only [hb, hbk, chainLookupK]
      by_cases h1 : e.2 = SIINVALID
      · simp [h1]
      · rw [if_neg h1, if_neg h1]
        rw [hrest] at hS hfuel
        exact lookupkeyLoop_walk t.heap k e.2 (g (kslot k)) (kslot k) tl hgv hgk hH.2
          mid es (kslot k) e _ hH hF hS (by simp at hfuel; omega)

/-! ## Chains under a change of the heap -/

theorem forall₂_holds_frame {h h' : Heap} :
    ∀ {mid : List Nat} {es : List (CString × Int)},
      List.Forall₂ (Holds h) mid es →
      (∀ x ∈ mid, getVal h' x = getVal h x ∧ getKey h' x = getKey h x) →
      List.Forall₂ (Holds h') mid es := by
  intro mid es hF
  induction hF with
  | nil => intro _; exact List.Forall₂.nil
  | cons hx _ ih =>
    intro hfr
    refine List.Forall₂.cons ?_ (ih fun x hx' => hfr x (List.mem_cons_of_mem _ hx'))
    obtain ⟨hv, hk⟩ := hfr _ (List.mem_cons_self _ _)
    exact ⟨by rw [hv]; exact hx.1, by rw [hk]; exact hx.2⟩

theorem seg_frame {h h' : Heap} (z : Nat) :
    ∀ (mid : List Nat) (x : Nat), Seg h x mid z →
      (∀ y, y = x ∨ y ∈ mid → getNext h' y = getNext h y) →
      (∀ y, y ∈ mid ∨ y = z → getPrev h' y = getPrev h y) →
      Seg h' x mid z := by
  intro mid
  induction mid with
  | nil =>
    intro x hS hn hp
    simp only [Seg, Link] at hS ⊢
    rw [hn x (Or.inl rfl), hp z (Or.inr rfl)]
    exact hS
  | cons y mid ih =>
    intro x hS hn hp
    simp only [Seg, Link] at hS ⊢
    rw [hn x (Or.inl rfl), hp y (Or.inl (List.mem_cons_self _ _))]
    refine ⟨hS.1, ih y hS.2 ?_ ?_⟩
    · intro w hw
      rcases hw with hw | hw
      · exact hn w (Or.inr (hw ▸ List.mem_cons_self _ _))
      · exact hn w (Or.inr (List.mem_cons_of_mem _ hw))
    · intro w hw
      rcases hw with hw | hw
      · exact hp w (Or.inl (List.mem_cons_of_mem _ hw))
      · exact hp w (Or.inr hw)

theorem seg_last {h : Heap} (t c : Nat) :
    ∀ (mid : List Nat) (x : Nat), Seg h x (mid ++ [t]) c →
      getNext h t = some (some c) ∧ getPrev h c = some (some t) := by
  intro mid
  induction mid with
  | nil => intro x hS; simp only [List.nil_append, Seg, Link] at hS; exact hS.2
  | cons y mid ih => intro x hS; simp only [List.cons_append, Seg] at hS; exact ih y hS.2

theorem seg_extend {h h' : Heap} (t c n : Nat)
    (hTn : getNext h' t = some (some n)) (hnp : getPrev h' n = some (some t))
    (hnn : getNext h' n = some (some c)) (hcp : getPrev h' c = some (some n)) :
    ∀ (mid : List Nat) (x : Nat), Seg h x (mid ++ [t]) c →
      (∀ y, y = x ∨ y ∈ mid → getNext h' y = getNext h y) →
      (∀ y, y ∈ mid ∨ y = t → getPrev h' y = getPrev h y) →
      Seg h' x (mid ++ [t] ++ [n]) c := by
  intro mid
  induction mid with
  | nil =>
    intro x hS hn hp
    simp only [List.nil_append, List.cons_append, Seg, Link] at hS ⊢
    rw [hn x (Or.inl rfl), hp t (Or.inr rfl)]
    exact ⟨hS.1, ⟨hTn, hnp⟩, hnn, hcp⟩
  | cons y mid ih =>
    intro x hS hn hp
    simp only [List.cons_append, Seg, Link] at hS ⊢
    rw [hn x (Or.inl rfl), hp y (Or.inl (List.mem_cons_self _ _))]
    refine ⟨hS.1, ?_⟩
    have := ih y hS.2 ?_ ?_
    · simpa using this
    · intro w hw
      rcases hw with hw | hw
      · exact hn w (Or.inr (hw ▸ List.mem_cons_self _ _))
      · exact hn w (Or.inr (List.mem_cons_of_mem _ hw))
    · intro w hw
      rcases hw with hw | hw
      · exact hp w (Or.inl (List.mem_cons_of_mem _ hw))
      · exact hp w (Or.inr hw)

/-- A chain none of whose cells changed is still the same chain. -/
theorem slot_frame {h h' : Heap} {c : Nat} {occ : List (CString × Int)}
    {g : Option CString × Int} {rest : List Nat}
    (hs : Slot h c occ g rest) (hfr : ∀ x ∈ c :: rest, h'[x]? = h[x]?) :
    Slot h' c occ g rest := by
  have fv : ∀ x ∈ c :: rest, getVal h' x = getVal h x := fun x hx => by
    simp [getVal, hfr x hx]
  have fk : ∀ x ∈ c :: rest, getKey h' x = getKey h x := fun x hx => by
    simp [getKey, hfr x hx]
  have fn : ∀ x ∈ c :: rest, getNext h' x = getNext h x := fun x hx => by
    simp [getNext, hfr x hx]
  have fp : ∀ x ∈ c :: rest, getPrev h' x = getPrev h x := fun x hx => by
    simp [getPrev, hfr x hx]
  unfold Slot at hs ⊢
  cases occ with
  | nil =>
    simp only at hs ⊢
    exact ⟨hs.1, by rw [hfr c (List.mem_cons_self _ _)]; exact hs.2⟩
  | cons e es =>
    simp only at hs ⊢
    obtain ⟨mid, t, hrest, hH, hF, hS, hgv, hgk⟩ := hs
    have hc : c ∈ c :: rest := List.mem_cons_self _ _
    have ht : t ∈ c :: rest := by rw [hrest]; simp
    refine ⟨mid, t, hrest, ⟨by rw [fv c hc]; exact hH.1, by rw [fk c hc]; exact hH.2⟩,
      ?_, ?_, by rw [fv t ht]; exact hgv, by rw [fk t ht]; exact hgk⟩
    · refine forall₂_holds_frame hF fun x hx => ?_
      have : x ∈ c :: rest := by rw [hrest]; simp [hx]
      exact ⟨fv x this, fk x this⟩
    · refine seg_frame c rest c hS ?_ ?_
      · intro y hy
        rcases hy with hy | hy
        · exact fn y (hy ▸ hc)
        · exact fn y (List.mem_cons_of_mem _ hy)
      · intro y hy
        rcases hy with hy | hy
        · exact fp y (List.mem_cons_of_mem _ hy)
        · exact fp y (hy ▸ hc)

/-- Filling the last cell `T` of a chain with the entry `e` and linking a new
cell `n` behind it extends the chain by `e`. -/
theorem slot_extend {h h' : Heap} {c : Nat} {occ : List (CString × Int)}
    {g : Option CString × Int} {rest : List Nat} (T n : Nat) (e : CString × Int)
    (g' : Option CString × Int)
    (hs : Slot h c occ g rest) (hnd : (c :: rest).Nodup)
    (hT : (occ = [] ∧ T = c) ∨ (occ ≠ [] ∧ ∃ mid, rest = mid ++ [T]))
    (hv : ∀ x ∈ c :: rest, x ≠ T → getVal h' x = getVal h x)
    (hk : ∀ x ∈ c :: rest, x ≠ T → getKey h' x = getKey h x)
    (hnx : ∀ x ∈ c :: rest, x ≠ T → getNext h' x = getNext h x)
    (hpv : ∀ x ∈ c :: rest, x ≠ c → getPrev h' x = getPrev h x)
    (hTv : getVal h' T = some (some e.1)) (hTk : getKey h' T = some e.2)
    (hTn : getNext h' T = some (some n)) (hnp : getPrev h' n = some (some T))
    (hnn : getNext h' n = some (some c)) (hcp : getPrev h' c = some (some n))
    (hgv : getVal h' n = some g'.1) (hgk : getKey h' n = some g'.2) :
    Slot h' c (occ ++ [e]) g' (rest ++ [n]) := by
  unfold Slot at hs
  cases occ with
  | nil =>
    simp only at hs
    obtain ⟨hrest, _⟩ := hs
    rcases hT with ⟨_, hTc⟩ | ⟨hne, _⟩
    · subst hTc; subst hrest
      simp only [List.nil_append, Slot]
      refine ⟨[], n, rfl, ⟨hTv, hTk⟩, List.Forall₂.nil, ?_, hgv, hgk⟩
      simp only [Seg, Link]
      exact ⟨⟨hTn, hnp⟩, hnn, hcp⟩
    · exact absurd rfl hne
  | cons e0 es =>
    simp only at hs
    obtain ⟨mid, t, hrest, hH, hF, hS, _, _⟩ := hs
    rcases hT with ⟨hnil, _⟩ | ⟨_, mid', hrest'⟩
    · exact absurd hnil (by simp)
    · obtain ⟨hmid, hTt⟩ : mid = mid' ∧ t = T := by
        have := hrest.symm.trans hrest'
        have h2 := List.append_inj' this rfl
        exact ⟨h2.1, by simpa using h2.2⟩
      subst hTt; subst hmid
      subst hrest
      have hcn : c ∉ mid ++ [t] := (List.nodup_cons.mp hnd).1
      have hnd' : (mid ++ [t]).Nodup := (List.nodup_cons.mp hnd).2
      have hct : c ≠ t := fun hh => hcn (by simp [hh])
      have hmt : ∀ x ∈ mid, x ≠ t := by
        intro x hx hxt
        have := List.nodup_append.mp hnd'
        exact this.2.2 hx (by simp [hxt])
      have hmc : ∀ x ∈ mid, x ≠ c := by
        intro x hx hxc
        exact hcn (by simp [← hxc, hx])
      simp only [List.cons_append, Slot]
      refine ⟨mid ++ [t], n, rfl, ?_, ?_, ?_, hgv, hgk⟩
      · exact ⟨by rw [hv c (List.mem_cons_self _ _) hct]; exact hH.1,
          by rw [hk c (List.mem_cons_self _ _) hct]; exact hH.2⟩
      · refine List.rel_append (forall₂_holds_frame hF fun x hx => ?_)
          (List.Forall₂.cons ⟨hTv, hTk⟩ List.Forall₂.nil)
        have hx' : x ∈ c :: (mid ++ [t]) := by simp [hx]
        exact ⟨hv x hx' (hmt x hx), hk x hx' (hmt x hx)⟩
      · refine seg_extend t c n hTn hnp hnn hcp mid c hS ?_ ?_
        · intro y hy
          rcases hy with hy | hy
          · subst hy; exact hnx y (List.mem_cons_self _ _) hct
          · exact hnx y (by simp [hy]) (hmt y hy)
        · intro y hy
          rcases hy with hy | hy
          · exact hpv y (by simp [hy]) (hmc y hy)
          · subst hy; exact hpv y (by simp) (Ne.symm hct)

/-- The cell `internstring` writes a new entry of a chain into, and its ring
successor. -/
theorem slot_target {h : Heap} {c : Nat} {occ : List (CString × Int)}
    {g : Option CString × Int} {rest : List Nat}
    (hs : Slot h c occ g rest) (hne : ∀ e ∈ occ, e.2 ≠ SIINVALID) :
    ∃ b T nx, h[c]? = some b ∧
      (if b.key ≠ SIINVALID then b.prev else some c) = some T ∧
      ((occ = [] ∧ T = c) ∨ (occ ≠ [] ∧ ∃ mid, rest = mid ++ [T])) ∧
      getNext h T = some nx ∧ nx.getD T = c ∧ T ∈ c :: rest := by
  unfold Slot at hs
  cases occ with
  | nil =>
    simp only at hs
    refine ⟨_, c, none, hs.2, by simp, Or.inl ⟨rfl, rfl⟩, by simp [getNext, hs.2], rfl,
      List.mem_cons_self _ _⟩
  | cons e es =>
    simp only at hs
    obtain ⟨mid, t, hrest, hH, hF, hS, hgv, hgk⟩ := hs
    obtain ⟨b, hb, hbv, hbk⟩ := cell_of_val_key hH.1 hH.2
    rw [hrest] at hS
    obtain ⟨htn, hcp⟩ := seg_last t c mid c hS
    have hbp : b.prev = some t := by simpa [getPrev, hb] using hcp
    have hk : b.key ≠ SIINVALID := by rw [hbk]; exact hne e (List.mem_cons_self _ _)
    refine ⟨b, t, some c, hb, by simp [hk, hbp], Or.inr ⟨by simp, mid, hrest⟩, htn, rfl, ?_⟩
    rw [hrest]; simp

theorem getNext_lt {h : Heap} {x : Nat} {v} (hv : getNext h x = some v) : x < h.length := by
  rcases Nat.lt_or_ge x h.length with h1 | h1
  · exact h1
  · simp [getNext, List.getElem?_eq_none h1] at hv

theorem sslot_ne_kslot (s : CString) (k : Int) : sslot s ≠ kslot k := by
  unfold sslot kslot; omega

theorem cell_ext {h h' : Heap} {x : Nat}
    (hv : getVal h' x = getVal h x) (hk : getKey h' x = getKey h x)
    (hn : getNext h' x = getNext h x) (hp : getPrev h' x = getPrev h x) :
    h'[x]? = h[x]? := by
  unfold getVal getKey getNext getPrev at *
  cases h1 : h'[x]? with
  | none =>
    cases h2 : h[x]? with
    | none => rfl
    | some b => simp [h1, h2] at hv
  | some b' =>
    cases h2 : h[x]? with
    | none => simp [h1, h2] at hv
    | some b =>
      simp only [h1, h2, Option.map_some', Option.some.injEq] at hv hk hn hp
      cases b; cases b'
      simp_all

theorem cells_apart {t : InternTab} {occ g rest} (ok : TabOK t occ g rest)
    {c c' x y : Nat} (hc : c < 26) (hc' : c' < 26) (hne : c ≠ c')
    (hx : x ∈ c :: rest c) (hy : y ∈ c' :: rest c') : x ≠ y := by
  rcases List.mem_cons.mp hx with hx | hx <;> rcases List.mem_cons.mp hy with hy | hy
  · omega
  · have := (ok.bound c' hc' y hy).1; omega
  · have := (ok.bound c hc x hx).1; omega
  · intro hxy; subst hxy; exact ok.disj c hc c' hc' hne x hx hy

theorem cell_lt {t : InternTab} {occ g rest} (ok : TabOK t occ g rest)
    {c x : Nat} (hc : c < 26) (hx : x ∈ c :: rest c) : x < t.heap.length := by
  rcases List.mem_cons.mp hx with hx | hx
  · have := ok.fuel c hc; omega
  · exact (ok.bound c hc x hx).2

theorem slot_nodup {t : InternTab} {occ g rest} (ok : TabOK t occ g rest)
    {c : Nat} (hc : c < 26) : (c :: rest c).Nodup := by
  refine List.nodup_cons.mpr ⟨fun hm => ?_, ok.nodup c hc⟩
  have := (ok.bound c hc c hm).1; omega

/-! ## Insertion -/

/-- Interning a string that `lookupstring` does not find, with a key counter
that is not negative, appends the entry to both chains. -/
theorem internstring_insert {t : InternTab} {occ g rest} (ok : TabOK t occ g rest)
    (s : CString) (fs fk : Bucket)
    (hlk : chainLookupS (occ (sslot s)) (g (sslot s)) s = SIINVALID)
    (hk : 0 ≤ t.nextkey) :
    ∃ t', internstring t s fs fk = some (t.nextkey, t') ∧
      t'.nextkey = wrap32 (t.nextkey + 1) ∧
      TabOK t' (occIns occ (sslot s) (kslot t.nextkey) (s, t.nextkey))
        (gIns g (sslot s) (kslot t.nextkey) fs fk)
        (restIns rest (sslot s) (kslot t.nextkey) t.heap.length) := by
  have hcs := sslot_lt s
  have hck := kslot_lt t.nextkey
  have hsk := sslot_ne_kslot s t.nextkey
  have hne : ∀ c, c < 26 → ∀ e ∈ occ c, e.2 ≠ SIINVALID := by
    intro c hc e he hh
    have := ok.nonneg c hc e he
    rw [hh] at this; simp [SIINVALID] at this
  obtain ⟨sb, Ts, nxs, hsb, hsT, hsTc, hsn, hsz, hsm⟩ :=
    slot_target (ok.slot _ hcs) (hne _ hcs)
  obtain ⟨kb, Tk, nxk, hkb, hkT, hkTc, hkn, hkz, hkm⟩ :=
    slot_target (ok.slot _ hck) (hne _ hck)
  have hTs := cell_lt ok hcs hsm
  have hTk := cell_lt ok hck hkm
  have hTT : Ts ≠ Tk := cells_apart ok hcs hck hsk hsm hkm
  have hcsl : sslot s < t.heap.length := cell_lt ok hcs (List.mem_cons_self _ _)
  have hckl : kslot t.nextkey < t.heap.length := cell_lt ok hck (List.mem_cons_self _ _)
  -- the six steps
  obtain ⟨h1, e1⟩ := upd_some (h := t.heap) (p := Ts) (fun c => { c with val := some s }) hTs
  have l1 := upd_length e1
  obtain ⟨h2, e2⟩ := upd_some (h := h1) (p := Tk) (fun c => { c with val := some s }) (by omega)
  have l2 := upd_length e2
  obtain ⟨h3, e3⟩ := upd_some (h := h2) (p := Ts) (fun c => { c with key := t.nextkey }) (by omega)
  have l3 := upd_length e3
  obtain ⟨h4, e4⟩ := upd_some (h := h3) (p := Tk) (fun c => { c with key := t.nextkey }) (by omega)
  have l4 := upd_length e4
  obtain ⟨v1, k1, n1, p1⟩ := upd_val_spec e1
  obtain ⟨v2, k2, n2, p2⟩ := upd_val_spec e2
  obtain ⟨v3, k3, n3, p3⟩ := upd_key_spec e3
  obtain ⟨v4, k4, n4, p4⟩ := upd_key_spec e4
  have hn4s : getNext h4 Ts = some nxs := by rw [n4, n3, n2, n1]; exact hsn
  obtain ⟨h5, e5, l5, v5, k5, n5, p5⟩ := addbucket_spec h4 Ts fs
    (by omega) hn4s (by rw [hsz]; omega)
  have hn5k : getNext h5 Tk = some nxk := by
    rw [n5, n4, n3, n2, n1]
    have : Tk ≠ h4.length := by omega
    simp [this, Ne.symm hTT, hkn]
  obtain ⟨h6, e6, l6, v6, k6, n6, p6⟩ := addbucket_spec h5 Tk fk
    (by omega) hn5k (by rw [hkz]; omega)
  rw [hsz] at n5 p5
  rw [hkz] at n6 p6
  have L4 : h4.length = t.heap.length := by omega
  have L5 : h5.length = t.heap.length + 1 := by omega
  have L6 : h6.length = t.heap.length + 2 := by omega
  rw [L5] at v6 k6 n6 p6
  rw [L4] at v5 k5 n5 p5
  -- the final heap, field by field
  have V : ∀ x, getVal h6 x = if x = t.heap.length + 1 then some fk.val
      else if x = t.heap.length then some fs.val
      else if x = Tk then some (some s) else if x = Ts then some (some s)
      else getVal t.heap x := by
    intro x; rw [v6, v5, v4, v3, v2, v1]
  have K : ∀ x, getKey h6 x = if x = t.heap.length + 1 then some fk.key
      else if x = t.heap.length then some fs.key
      else if x = Tk then some t.nextkey else if x = Ts then some t.nextkey
      else getKey t.heap x := by
    intro x; rw [k6, k5, k4, k3, k2, k1]
  have N : ∀ x, getNext h6 x = if x = t.heap.length + 1 then some (some (kslot t.nextkey))
      else if x = Tk then some (some (t.heap.length + 1))
      else if x = t.heap.length then some (some (sslot s))
      else if x = Ts then some (some t.heap.length)
      else getNext t.heap x := by
    intro x; rw [n6, n5, n4, n3, n2, n1]
  have P : ∀ x, getPrev h6 x = if x = t.heap.length + 1 then some (some Tk)
      else if x = kslot t.nextkey then some (some (t.heap.length + 1))
      else if x = t.heap.length then some (some Ts)
      else if x = sslot s then some (some t.heap.length)
      else getPrev t.heap x := by
    intro x; rw [p6, p5, p4, p3, p2, p1]
  refine ⟨{ nextkey := wrap32 (t.nextkey + 1), strings := t.strings, keys := t.keys,
            heap := h6 }, ?_, rfl, ?_⟩
  · -- the code takes these six steps
    have hl := lookupstring_spec ok s
    rw [hlk] at hl
    have hk1 : ¬ t.nextkey < 0 := by omega
    have hk2 : ¬ t.nextkey = SIINVALID := by simp [SIINVALID]; omega
    unfold internstring
    simp only [hl, ne_eq, not_true_eq_false, if_false, hk1, hk2, strings_get ok s,
      keys_get ok t.nextkey, hsb, hkb]
    have hsT' : (if ¬ sb.key = SIINVALID then sb.prev else some (sslot s)) = some Ts := hsT
    have hkT' : (if ¬ kb.key = SIINVALID then kb.prev else some (kslot t.nextkey)) = some Tk := hkT
    simp only [hsT', hkT', e1, e2, e3, e4, e5, e6, Option.some_bind, Option.bind_eq_bind,
      Option.map_some']
  · -- the new heap has the shape claimed
    have far : ∀ c, c < 26 → c ≠ sslot s → c ≠ kslot t.nextkey → ∀ x ∈ c :: rest c,
        x ≠ t.heap.length + 1 ∧ x ≠ t.heap.length ∧ x ≠ Tk ∧ x ≠ Ts ∧
        x ≠ kslot t.nextkey ∧ x ≠ sslot s := by
      intro c hc h1 h2 x hx
      have := cell_lt ok hc hx
      refine ⟨by omega, by omega, cells_apart ok hc hck h2 hx hkm,
        cells_apart ok hc hcs h1 hx hsm,
        cells_apart ok hc hck h2 hx (List.mem_cons_self _ _),
        cells_apart ok hc hcs h1 hx (List.mem_cons_self _ _)⟩
    have inS : ∀ x ∈ sslot s :: rest (sslot s),
        x ≠ t.heap.length + 1 ∧ x ≠ t.heap.length ∧ x ≠ Tk ∧ x ≠ kslot t.nextkey := by
      intro x hx
      have := cell_lt ok hcs hx
      exact ⟨by omega, by omega, cells_apart ok hcs hck hsk hx hkm,
        cells_apart ok hcs hck hsk hx (List.mem_cons_self _ _)⟩
    have inK : ∀ x ∈ kslot t.nextkey :: rest (kslot t.nextkey),
        x ≠ t.heap.length + 1 ∧ x ≠ t.heap.length ∧ x ≠ Ts ∧ x ≠ sslot s := by
      intro x hx
      have := cell_lt ok hck hx
      exact ⟨by omega, by omega, cells_apart ok hck hcs (Ne.symm hsk) hx hsm,
        cells_apart ok hck hcs (Ne.symm hsk) hx (List.mem_cons_self _ _)⟩
    have memR : ∀ c x, x ∈ restIns rest (sslot s) (kslot t.nextkey) t.heap.length c ↔
        x ∈ rest c ∨ (c = sslot s ∧ x = t.heap.length) ∨
          (c = kslot t.nextkey ∧ x = t.heap.length + 1) := by
      intro c x
      unfold restIns
      by_cases h1 : c = sslot s
      · have : c ≠ kslot t.nextkey := by rw [h1]; exact hsk
        simp [h1, hsk]
      · by_cases h2 : c = kslot t.nextkey
        · simp [h1, h2, Ne.symm hsk]
        · simp [h1, h2]
    constructor
    · exact ok.strings_eq
    · exact ok.keys_eq
    · intro c hc
      by_cases h1 : c = sslot s
      · subst h1
        have : occIns occ (sslot s) (kslot t.nextkey) (s, t.nextkey) (sslot s) =
            occ (sslot s) ++ [(s, t.nextkey)] := by simp [occIns]
        rw [this]
        have : gIns g (sslot s) (kslot t.nextkey) fs fk (sslot s) = (fs.val, fs.key) := by
          simp [gIns]
        rw [this]
        have : restIns rest (sslot s) (kslot t.nextkey) t.heap.length (sslot s) =
            rest (sslot s) ++ [t.heap.length] := by simp [restIns]
        rw [this]
        have hTs' := inS Ts hsm
        have hcs' := inS (sslot s) (List.mem_cons_self _ _)
        refine slot_extend Ts t.heap.length (s, t.nextkey) (fs.val, fs.key) (ok.slot _ hcs)
          (slot_nodup ok hcs) hsTc ?_ ?_ ?_ ?_ ?_ ?_ ?_ ?_ ?_ ?_ ?_ ?_
        · intro x hx hxT
          obtain ⟨a1, a2, a3, a4⟩ := inS x hx
          simp [V, a1, a2, a3, hxT]
        · intro x hx hxT
          obtain ⟨a1, a2, a3, a4⟩ := inS x hx
          simp [K, a1, a2, a3, hxT]
        · intro x hx hxT
          obtain ⟨a1, a2, a3, a4⟩ := inS x hx
          simp [N, a1, a2, a3, hxT]
        · intro x hx hxc
          obtain ⟨a1, a2, a3, a4⟩ := inS x hx
          simp [P, a1, a2, a4, hxc]
        · simp [V, hTs'.1, hTs'.2.1, hTs'.2.2.1]
        · simp [K, hTs'.1, hTs'.2.1, hTs'.2.2.1]
        · simp [N, hTs'.1, hTs'.2.1, hTs'.2.2.1]
        · have : t.heap.length ≠ kslot t.nextkey := by omega
          simp [P, this]
        · have : t.heap.length ≠ Tk := by omega
          simp [N, this]
        · simp [P, hcs'.1, hcs'.2.1, hcs'.2.2.2]
        · simp [V]
        · simp [K]
      · by_cases h2 : c = kslot t.nextkey
        · subst h2
          have : occIns occ (sslot s) (kslot t.nextkey) (s, t.nextkey) (kslot t.nextkey) =
              occ (kslot t.nextkey) ++ [(s, t.nextkey)] := by simp [occIns]
          rw [this]
          have : gIns g (sslot s) (kslot t.nextkey) fs fk (kslot t.nextkey) =
              (fk.val, fk.key) := by
            simp [gIns, Ne.symm hsk]
          rw [this]
          have : restIns rest (sslot s) (kslot t.nextkey) t.heap.length (kslot t.nextkey) =
              rest (kslot t.nextkey) ++ [t.heap.length + 1] := by simp [restIns, Ne.symm hsk]
          rw [this]
          have hTk' := inK Tk hkm
          have hck' := inK (kslot t.nextkey) (List.mem_cons_self _ _)
          refine slot_extend Tk (t.heap.length + 1) (s, t.nextkey) (fk.val, fk.key)
            (ok.slot _ hck) (slot_nodup ok hck) hkTc ?_ ?_ ?_ ?_ ?_ ?_ ?_ ?_ ?_ ?_ ?_ ?_
          · intro x hx hxT
            obtain ⟨a1, a2, a3, a4⟩ := inK x hx
            simp [V, a1, a2, a3, hxT]
          · intro x hx hxT
            obtain ⟨a1, a2, a3, a4⟩ := inK x hx
            simp [K, a1, a2, a3, hxT]
          · intro x hx hxT
            obtain ⟨a1, a2, a3, a4⟩ := inK x hx
            simp [N, a1, a2, a3, hxT]
          · intro x hx hxc
            obtain ⟨a1, a2, a3, a4⟩ := inK x hx
            simp [P, a1, a2, a4, hxc]
          · simp [V, hTk'.1, hTk'.2.1]
          · simp [K, hTk'.1, hTk'.2.1]
          · simp [N, hTk'.1]
          · simp [P]
          · simp [N]
          · simp [P, hck'.1]
          · simp [V]
          · simp [K]
        · have e1' : occIns occ (sslot s) (kslot t.nextkey) (s, t.nextkey) c = occ c := by
            simp [occIns, h1, h2]
          have e2' : gIns g (sslot s) (kslot t.nextkey) fs fk c = g c := by
            simp [gIns, h1, h2]
          have e3' : restIns rest (sslot s) (kslot t.nextkey) t.heap.length c = rest c := by
            simp [restIns, h1, h2]
          rw [e1', e2', e3']
          refine slot_frame (ok.slot c hc) fun x hx => ?_
          obtain ⟨a1, a2, a3, a4, a5, a6⟩ := far c hc h1 h2 x hx
          exact cell_ext (by simp [V, a1, a2, a3, a4]) (by simp [K, a1, a2, a3, a4])
            (by simp [N, a1, a2, a3, a4]) (by simp [P, a1, a2, a5, a6])
    · intro c hc x hx
      rcases (memR c x).mp hx with hx | ⟨_, hx⟩ | ⟨_, hx⟩
      · have := ok.bound c hc x hx
        simp only [L6]; omega
      · have := ok.fuel c hc
        simp only [L6]; omega
      · have := ok.fuel c hc
        simp only [L6]; omega
    · intro c hc
      unfold restIns
      by_cases h1 : c = sslot s
      · simp only [h1, if_true]
        refine List.Nodup.append (ok.nodup _ hcs) (List.nodup_singleton _) ?_
        intro x hx hx'
        have := (ok.bound _ hcs x hx).2
        simp at hx'; omega
      · by_cases h2 : c = kslot t.nextkey
        · simp only [h2, Ne.symm hsk, if_false, if_true]
          refine List.Nodup.append (ok.nodup _ hck) (List.nodup_singleton _) ?_
          intro x hx hx'
          have := (ok.bound _ hck x hx).2
          simp at hx'; omega
        · simp only [h1, h2, if_false]
          exact ok.nodup c hc
    · intro c hc c' hc' hcc x hx hx'
      rcases (memR c x).mp hx with hx | ⟨h1, hx⟩ | ⟨h1, hx⟩ <;>
        rcases (memR c' x).mp hx' with hx' | ⟨h2, hx'⟩ | ⟨h2, hx'⟩
      · exact ok.disj c hc c' hc' hcc x hx hx'
      · have := (ok.bound c hc x hx).2; omega
      · have := (ok.bound c hc x hx).2; omega
      · have := (ok.bound c' hc' x hx').2; omega
      · exact hcc (h1.trans h2.symm)
      · omega
      · have := (ok.bound c' hc' x hx').2; omega
      · omega
      · exact hcc (h1.trans h2.symm)
    · intro c hc
      have := ok.fuel c hc
      have hle : (restIns rest (sslot s) (kslot t.nextkey) t.heap.length c).length ≤
          (rest c).length + 1 := by
        unfold restIns; split_ifs <;> simp
      simp only [L6]; omega
    · intro c hc e he
      unfold occIns at he
      split_ifs at he
      · rcases List.mem_append.mp he with he | he
        · exact ok.nonneg c hc e he
        · simp at he; subst he; exact hk
      · exact ok.nonneg c hc e he

/-! ## Every reachable table is well-shaped -/

theorem makeinterntab_eq :
    makeinterntab = ⟨1, (List.range 13).map fun i => 2 * i, (List.range 13).map fun i => 2 * i + 1,
      List.replicate 26 ⟨none, SIINVALID, none, none⟩⟩ := by
  decide

/-- The table `makeinterntab` returns has 26 empty chains. -/
theorem makeinterntab_ok (g : Nat → Option CString × Int) :
    TabOK makeinterntab (fun _ => []) g (fun _ => []) := by
  rw [makeinterntab_eq]
  constructor
  · rfl
  · rfl
  · intro c hc
    simp only [Slot, true_and]
    rw [List.getElem?_replicate]
    simp [hc]
  · intro c _ x hx; simp at hx
  · intro c _; exact List.nodup_nil
  · intro c _ c' _ _ x hx; simp at hx
  · intro c _; simp
  · intro c _ e he; simp at he

/-- What `internstring` does on a well-shaped table: it returns the key
`lookupstring` finds, or fails with `SITABFULL` after advancing the counter,
or appends the entry to both chains. -/
theorem internstring_cases {t : InternTab} {occ g rest} (ok : TabOK t occ g rest)
    (s : CString) (fs fk : Bucket) :
    (chainLookupS (occ (sslot s)) (g (sslot s)) s ≠ SIINVALID ∧
      internstring t s fs fk = some (chainLookupS (occ (sslot s)) (g (sslot s)) s, t)) ∨
    (chainLookupS (occ (sslot s)) (g (sslot s)) s = SIINVALID ∧ t.nextkey < 0 ∧
      internstring t s fs fk =
        some (SITABFULL, { t with nextkey := wrap32 (t.nextkey + 1) })) ∨
    (chainLookupS (occ (sslot s)) (g (sslot s)) s = SIINVALID ∧ 0 ≤ t.nextkey ∧
      ∃ t', internstring t s fs fk = some (t.nextkey, t') ∧
        t'.nextkey = wrap32 (t.nextkey + 1) ∧
        TabOK t' (occIns occ (sslot s) (kslot t.nextkey) (s, t.nextkey))
          (gIns g (sslot s) (kslot t.nextkey) fs fk)
          (restIns rest (sslot s) (kslot t.nextkey) t.heap.length)) := by
  have hl := lookupstring_spec ok s
  by_cases h1 : chainLookupS (occ (sslot s)) (g (sslot s)) s = SIINVALID
  · by_cases h2 : t.nextkey < 0
    · refine Or.inr (Or.inl ⟨h1, h2, ?_⟩)
      rw [h1] at hl
      unfold internstring
      simp [hl, h2]
    · exact Or.inr (Or.inr ⟨h1, by omega, internstring_insert ok s fs fk h1 (by omega)⟩)
  · refine Or.inl ⟨h1, ?_⟩
    unfold internstring
    simp [hl, h1]

/-- A table stays well-shaped, whatever the key counter does. -/
theorem tabOK_nextkey {t : InternTab} {occ g rest} (ok : TabOK t occ g rest) (k : Int) :
    TabOK { t with nextkey := k } occ g rest :=
  ⟨ok.strings_eq, ok.keys_eq, ok.slot, ok.bound, ok.nodup, ok.disj, ok.fuel, ok.nonneg⟩

/-- Every reachable table is well-shaped. -/
theorem reachable_ok {t : InternTab} (hr : Reachable t) :
    ∃ occ g rest, TabOK t occ g rest := by
  induction hr with
  | make => exact ⟨_, fun _ => (none, SIINVALID), _, makeinterntab_ok _⟩
  | intern s fs fk k _ hstep ih =>
    obtain ⟨occ, g, rest, ok⟩ := ih
    rcases internstring_cases ok s fs fk with ⟨_, h⟩ | ⟨_, _, h⟩ | ⟨_, _, t', h, _, ok'⟩
    · rw [h] at hstep; simp only [Option.some.injEq, Prod.mk.injEq] at hstep
      rw [← hstep.2]; exact ⟨occ, g, rest, ok⟩
    · rw [h] at hstep; simp only [Option.some.injEq, Prod.mk.injEq] at hstep
      rw [← hstep.2]; exact ⟨occ, g, rest, tabOK_nextkey ok _⟩
    · rw [h] at hstep; simp only [Option.some.injEq, Prod.mk.injEq] at hstep
      rw [← hstep.2]; exact ⟨_, _, _, ok'⟩

/-! ## Keys issued in order -/

theorem walkS_append_found (s : CString) (fkey k : Int) (g g' : Option CString × Int)
    (hk1 : k ≠ fkey) (hk2 : k ≠ SIINVALID) :
    ∀ (es : List (CString × Int)) (e : CString × Int),
      e.2 ≠ SIINVALID → (∀ e' ∈ es, e'.2 ≠ fkey ∧ e'.2 ≠ SIINVALID) →
      walkS s fkey g e es = SIINVALID →
      walkS s fkey g' e (es ++ [(s, k)]) = k := by
  intro es
  induction es with
  | nil =>
    intro e he _ hw
    simp only [walkS, List.nil_append] at hw ⊢
    by_cases h1 : e.1 = s
    · rw [if_pos h1] at hw; exact absurd hw he
    · rw [if_neg h1, if_pos ⟨hk1, hk2⟩]; simp
  | cons e' es ih =>
    intro e he hes hw
    simp only [walkS, List.cons_append] at hw ⊢
    by_cases h1 : e.1 = s
    · rw [if_pos h1] at hw; exact absurd hw he
    · have h2 := hes e' (List.mem_cons_self _ _)
      rw [if_neg h1, if_pos h2] at hw
      rw [if_neg h1, if_pos h2]
      exact ih e' h2.2 (fun x hx => hes x (List.mem_cons_of_mem _ hx)) hw

/-- A string that was not found is found, with its new key, once its entry
has been appended to the chain. -/
theorem chainLookupS_append_found (occ : List (CString × Int))
    (g g' : Option CString × Int) (s : CString) (k : Int)
    (hk : 0 ≤ k) (hlt : ∀ e ∈ occ, 1 ≤ e.2 ∧ e.2 < k)
    (hp : occ.Pairwise fun a b => a.2 < b.2)
    (hl : chainLookupS occ g s = SIINVALID) :
    chainLookupS (occ ++ [(s, k)]) g' s = k := by
  have hk2 : k ≠ SIINVALID := by simp [SIINVALID]; omega
  cases occ with
  | nil => simp [chainLookupS, walkS, hk2]
  | cons e es =>
    have he := hlt e (List.mem_cons_self _ _)
    have he1 : e.2 ≠ SIINVALID := by simp [SIINVALID]; omega
    simp only [chainLookupS, List.cons_append, if_neg he1] at hl ⊢
    refine walkS_append_found s e.2 k g g' (by omega) hk2 es e he1 ?_ hl
    intro e' he'
    have h1 := (List.pairwise_cons.mp hp).1 e' he'
    have h2 := hlt e' (List.mem_cons_of_mem _ he')
    exact ⟨by omega, by simp [SIINVALID]; omega⟩

theorem wrap32_id {x : Int} (h1 : -2147483648 ≤ x) (h2 : x ≤ 2147483647) : wrap32 x = x := by
  unfold wrap32; omega

theorem wrap32_succ_ne (x : Int) : wrap32 (x + 1) ≠ x := by
  unfold wrap32; omega

/-- A successful `internstring` on a table whose counter was never advanced by
a failed call leaves such a table, on which `lookupstring` finds the string
under the key returned. -/
theorem internstring_then_lookup {t t' : InternTab} (inv : TabInv t) (s : CString)
    (fs fk : Bucket) (k : Int) (h : internstring t s fs fk = some (k, t')) (hk : 0 < k) :
    lookupstring t' s = some k ∧ TabInv t' := by
  obtain ⟨occ, g, rest, n, ok, keys, hn0, hn1, hnk⟩ := inv
  rcases internstring_cases ok s fs fk with ⟨_, h'⟩ | ⟨_, _, h'⟩ | ⟨hl, hk0, t1, h', hnk', ok'⟩
  · rw [h'] at h; simp only [Option.some.injEq, Prod.mk.injEq] at h
    obtain ⟨h1, h2⟩ := h; subst h2
    exact ⟨by rw [lookupstring_spec ok s, h1], occ, g, rest, n, ok, keys, hn0, hn1, hnk⟩
  · rw [h'] at h; simp only [Option.some.injEq, Prod.mk.injEq] at h
    have := h.1; rw [← this] at hk; simp [SITABFULL] at hk
  · rw [h'] at h; simp only [Option.some.injEq, Prod.mk.injEq] at h
    obtain ⟨h1, h2⟩ := h; subst h2
    have hn2 : n + 1 ≤ 2147483647 := by
      by_contra hc
      have : n = 2147483647 := by omega
      rw [hnk, this] at hk0; unfold wrap32 at hk0; omega
    have hkn : t.nextkey = n + 1 := by rw [hnk]; exact wrap32_id (by omega) hn2
    have hocc : occIns occ (sslot s) (kslot t.nextkey) (s, t.nextkey) (sslot s) =
        occ (sslot s) ++ [(s, t.nextkey)] := by simp [occIns]
    refine ⟨?_, _, _, _, n + 1, ok', ?_, by omega, hn2, by rw [hnk', hkn]⟩
    · rw [lookupstring_spec ok' s, hocc, ← h1]
      congr 1
      refine chainLookupS_append_found _ _ _ s _ hk0 ?_ (keys _ (sslot_lt s)).2 hl
      intro e he
      have := (keys _ (sslot_lt s)).1 e he
      omega
    · intro c hc
      obtain ⟨hr, hp⟩ := keys c hc
      unfold occIns
      split_ifs
      · refine ⟨?_, ?_⟩
        · intro e he
          rcases List.mem_append.mp he with he | he
          · have := hr e he; omega
          · simp at he; subst he; simp only; omega
        · refine List.pairwise_append.mpr ⟨hp, List.pairwise_singleton _ _, ?_⟩
          intro a ha b hb
          simp at hb; subst hb
          have := hr a ha; simp only; omega
      · exact ⟨fun e he => by have := hr e he; omega, hp⟩

theorem makeinterntab_inv : TabInv makeinterntab :=
  ⟨_, fun _ => (none, SIINVALID), _, 0, makeinterntab_ok _,
    fun _ _ => ⟨fun e he => by simp at he, List.Pairwise.nil⟩, le_refl _, by norm_num,
    by rw [makeinterntab_eq]; decide⟩

/-! ## Intern lists -/

/-- What a returning `putinternlist` has done. -/
theorem putinternlist_some {l l' : InternList} {k : CString} {v : Nat} {fs fk : Bucket}
    {fill : Nat → Nat} (h : putinternlist l k v fs fk fill = some l') :
    ∃ kData paData old, internstring l.ptKeys k fs fk = some (kData, l'.ptKeys) ∧
      0 < kData ∧ readData paData (kData - 1) = some old ∧
      l'.paData = paData.set (kData - 1).toNat v ∧
      l'.pfDestroyCalls = (if old ≠ 0 then l.pfDestroyCalls ++ [old] else l.pfDestroyCalls) := by
  unfold putinternlist at h
  cases hi : internstring l.ptKeys k fs fk with
  | none => simp [hi] at h
  | some r =>
    obtain ⟨kData, tab⟩ := r
    simp only [hi] at h
    by_cases hk : kData > 0
    · simp only [hk, not_true_eq_false, if_false] at h
      split at h
      · exact absurd h (by simp)
      · rename_i paData dataspace _
        cases hr : readData paData (kData - 1) with
        | none => simp [hr] at h
        | some old =>
          simp only [hr, Option.some.injEq] at h
          subst h
          exact ⟨kData, paData, old, rfl, hk, hr, rfl, rfl⟩
    · simp [hk] at h

theorem readData_set {paData : List Nat} {i : Int} {old : Nat} (v : Nat)
    (h : readData paData i = some old) : readData (paData.set i.toNat v) i = some v := by
  unfold readData at h ⊢
  by_cases hi : i < 0
  · simp [hi] at h
  · rw [if_neg hi] at h; rw [if_neg hi]
    have : i.toNat < paData.length := by
      rcases Nat.lt_or_ge i.toNat paData.length with h1 | h1
      · exact h1
      · simp [List.getElem?_eq_none h1] at h
    simp [List.getElem?_set_self this]

/-- Deleting an item leaves the embedded table alone. -/
theorem deleteinternlist_ptKeys {l l' : InternList} {k : CString}
    (hdel : deleteinternlist l k = some l') : l'.ptKeys = l.ptKeys := by
  unfold deleteinternlist at hdel
  cases hl : lookupstring l.ptKeys k with
  | none => simp [hl] at hdel
  | some kData =>
    simp only [hl] at hdel
    by_cases hk : kData = SIINVALID
    · simp only [hk, if_true, Option.some.injEq] at hdel
      subst hdel; rfl
    · simp only [hk, if_false] at hdel
      cases hrd : readData l.paData (kData - 1) with
      | none => simp [hrd] at hdel
      | some old =>
        simp only [hrd, Option.some.injEq] at hdel
        subst hdel; rfl

/-- The table of a reachable list has never had a failed `internstring`. -/
theorem listReachable_inv {l : InternList} (hr : ListReachable l) : TabInv l.ptKeys := by
  induction hr with
  | make initcap l h0 _ hm =>
    unfold makeinternlist at hm
    have : ¬ initcap < 0 := by omega
    simp only [this, if_false, Option.some.injEq] at hm
    subst hm
    exact makeinterntab_inv
  | put k v fs fk fill _ hput ih =>
    obtain ⟨kData, paData, old, hi, hk, _, _, _⟩ := putinternlist_some hput
    exact (internstring_then_lookup ih k fs fk kData hi hk).2
  | delete k _ hdel ih =>
    rw [deleteinternlist_ptKeys hdel]; exact ih

/-! ## Lookups and appended entries -/

theorem run_reachable {log : List (CString × Int)} {t : InternTab} (h : Run log t) :
    Reachable t := by
  induction h with
  | make => exact Reachable.make
  | intern s fs fk k _ hstep ih => exact Reachable.intern s fs fk k ih hstep

theorem walkS_not_found (s : CString) (fkey : Int) (g : Option CString × Int)
    (hg : g.1 ≠ some s) :
    ∀ (es : List (CString × Int)) (e : CString × Int),
      e.1 ≠ s → (∀ e' ∈ es, e'.1 ≠ s) → walkS s fkey g e es = SIINVALID := by
  intro es
  induction es with
  | nil =>
    intro e he _
    simp only [walkS, if_neg he, if_neg hg]
    split_ifs <;> rfl
  | cons e' es ih =>
    intro e he hes
    simp only [walkS, if_neg he]
    split_ifs
    · exact ih e' (hes e' (List.mem_cons_self _ _)) fun x hx => hes x (List.mem_cons_of_mem _ hx)
    · rfl

/-- A string held by no cell of its chain is not found. -/
theorem chainLookupS_not_found (occ : List (CString × Int)) (g : Option CString × Int)
    (s : CString) (hg : g.1 ≠ some s) (hocc : ∀ e ∈ occ, e.1 ≠ s) :
    chainLookupS occ g s = SIINVALID := by
  cases occ with
  | nil => rfl
  | cons e es =>
    simp only [chainLookupS]
    split_ifs
    · rfl
    · exact walkS_not_found s e.2 g hg es e (hocc e (List.mem_cons_self _ _))
        fun x hx => hocc x (List.mem_cons_of_mem _ hx)

theorem walkS_append_keep (s : CString) (fkey : Int) (g g' : Option CString × Int)
    (x : CString × Int) (hg : g.1 ≠ some s) :
    ∀ (es : List (CString × Int)) (e : CString × Int),
      walkS s fkey g e es ≠ SIINVALID →
      walkS s fkey g' e (es ++ [x]) = walkS s fkey g e es := by
  intro es
  induction es with
  | nil =>
    intro e hw
    simp only [walkS, List.nil_append] at hw ⊢
    by_cases h1 : e.1 = s
    · simp [h1]
    · rw [if_neg h1, if_neg hg] at hw
      exact absurd (by split_ifs <;> rfl) hw
  | cons e' es ih =>
    intro e hw
    simp only [walkS, List.cons_append] at hw ⊢
    by_cases h1 : e.1 = s
    · simp [h1]
    · rw [if_neg h1] at hw
      rw [if_neg h1, if_neg h1]
      by_cases h2 : e'.2 ≠ fkey ∧ e'.2 ≠ SIINVALID
      · rw [if_pos h2] at hw
        rw [if_pos h2, if_pos h2]
        exact ih e' hw
      · rw [if_neg h2] at hw; exact absurd rfl hw

/-- A string found in the cells of its chain is still found, under the same
key, after another entry has been appended. -/
theorem chainLookupS_append_keep (occ : List (CString × Int))
    (g g' : Option CString × Int) (s : CString) (x : CString × Int)
    (hg : g.1 ≠ some s) (hl : chainLookupS occ g s ≠ SIINVALID) :
    chainLookupS (occ ++ [x]) g' s = chainLookupS occ g s := by
  cases occ with
  | nil => exact absurd rfl hl
  | cons e es =>
    simp only [chainLookupS, List.cons_append] at hl ⊢
    by_cases h1 : e.2 = SIINVALID
    · rw [if_pos h1] at hl; exact absurd rfl hl
    · rw [if_neg h1] at hl
      rw [if_neg h1, if_neg h1]
      exact walkS_append_keep s e.2 g g' x hg es e hl

theorem keysOK_occIns {occ : Nat → List (CString × Int)} {n : Int} (keys : KeysOK occ n)
    (hn : 0 ≤ n) (cs ck : Nat) (s : CString) : KeysOK (occIns occ cs ck (s, n + 1)) (n + 1) := by
  intro c hc
  obtain ⟨hr, hp⟩ := keys c hc
  unfold occIns
  split_ifs
  · refine ⟨?_, ?_⟩
    · intro e he
      rcases List.mem_append.mp he with he | he
      · have := hr e he; omega
      · simp at he; subst he
        simp only; omega
    · refine List.pairwise_append.mpr ⟨hp, List.pairwise_singleton _ _, ?_⟩
      intro a ha b hb
      simp at hb; subst hb
      have := hr a ha; simp only; omega
  · exact ⟨fun e he => by have := hr e he; omega, hp⟩

/-! ## A run that exhausts the keys -/

theorem keyString_inj {i j : Nat} (h : keyString i = keyString j) : i = j := by
  unfold keyString at h
  have hinj : Function.Injective fun d : Nat => (d : Int) + 1 := by
    intro a b hab
    simp only at hab
    omega
  exact Nat.digits_inj_iff.mp (List.map_injective_iff.mpr hinj h)

theorem keyString_zero : keyString 0 = [] := by simp [keyString]

theorem keyString_one : keyString 1 = [2] := by simp [keyString]

theorem keyString_two : keyString 2 = [3] := by norm_num [keyString]

/-- Interning the strings `keyString 1, ..., keyString n` in turn, with clean fresh
cells, issues the keys `1 .. n`; each of the strings is then found under its
key, and the counter stands at `n + 1` reduced to 32 bits. -/
theorem run_keyString (n : Nat) (hn : n ≤ 2147483647) :
    ∃ log t occ g rest, Run log t ∧ TabOK t occ g rest ∧ KeysOK occ n ∧
      t.nextkey = wrap32 ((n : Int) + 1) ∧ (∀ c, (g c).1 = none) ∧
      (∀ c, ∀ e ∈ occ c, ∃ i, 1 ≤ i ∧ i ≤ n ∧ e.1 = keyString i) ∧
      (∀ i, 1 ≤ i → i ≤ n → (keyString i, (i : Int)) ∈ log ∧
        chainLookupS (occ (sslot (keyString i))) (g (sslot (keyString i))) (keyString i) = (i : Int)) ∧
      (1 ≤ n → ∃ es, occ (sslot (keyString 1)) = (keyString 1, 1) :: es) := by
  induction n with
  | zero =>
    refine ⟨[], makeinterntab, fun _ => [], fun _ => (none, SIINVALID), fun _ => [],
      Run.make, makeinterntab_ok _, ?_, ?_, fun _ => rfl, ?_, ?_, ?_⟩
    · intro c _; exact ⟨fun e he => by simp at he, List.Pairwise.nil⟩
    · rw [makeinterntab_eq]; decide
    · intro c e he; simp at he
    · intro i h1 h2; omega
    · intro h; omega
  | succ n ih =>
    obtain ⟨log, t, occ, g, rest, hrun, ok, keys, hnk, hclean, hstr, hfound, hhead⟩ :=
      ih (by omega)
    have hkey : t.nextkey = (n : Int) + 1 := by
      rw [hnk]; exact wrap32_id (by omega) (by omega)
    have hnot : chainLookupS (occ (sslot (keyString (n + 1)))) (g (sslot (keyString (n + 1))))
        (keyString (n + 1)) = SIINVALID := by
      refine chainLookupS_not_found _ _ _ (by rw [hclean]; simp) ?_
      intro e he hh
      obtain ⟨i, _, hi, hei⟩ := hstr _ e he
      have := keyString_inj (hei.symm.trans hh)
      omega
    obtain ⟨t', hstep, hnk', ok'⟩ :=
      internstring_insert ok (keyString (n + 1)) cleanCell cleanCell hnot (by omega)
    rw [hkey] at hstep hnk' ok'
    refine ⟨(keyString (n + 1), (n : Int) + 1) :: log, t', _, _, _,
      Run.intern _ _ _ _ hrun hstep, ok', ?_, ?_, ?_, ?_, ?_, ?_⟩
    · have := keysOK_occIns keys (by omega) (sslot (keyString (n + 1))) (kslot ((n : Int) + 1))
        (keyString (n + 1))
      simpa using this
    · rw [hnk']; push_cast; rfl
    · intro c
      unfold gIns
      split_ifs
      · rfl
      · rfl
      · exact hclean c
    · intro c e he
      unfold occIns at he
      split_ifs at he
      · rcases List.mem_append.mp he with he | he
        · obtain ⟨i, h1, h2, h3⟩ := hstr c e he
          exact ⟨i, h1, by omega, h3⟩
        · simp at he; subst he
          exact ⟨n + 1, by omega, le_refl _, rfl⟩
      · obtain ⟨i, h1, h2, h3⟩ := hstr c e he
        exact ⟨i, h1, by omega, h3⟩
    · intro i h1 h2
      by_cases hi : i = n + 1
      · subst hi
        refine ⟨by push_cast; exact List.mem_cons_self _ _, ?_⟩
        have hocc : occIns occ (sslot (keyString (n + 1))) (kslot ((n : Int) + 1))
            (keyString (n + 1), (n : Int) + 1) (sslot (keyString (n + 1))) =
            occ (sslot (keyString (n + 1))) ++ [(keyString (n + 1), (n : Int) + 1)] := by
          simp [occIns]
        rw [hocc]
        have := chainLookupS_append_found (occ (sslot (keyString (n + 1))))
          (g (sslot (keyString (n + 1))))
          (gIns g (sslot (keyString (n + 1))) (kslot ((n : Int) + 1)) cleanCell cleanCell
            (sslot (keyString (n + 1))))
          (keyString (n + 1)) ((n : Int) + 1) (by omega) ?_
          (keys _ (sslot_lt _)).2 hnot
        · rw [this]; push_cast; rfl
        · intro e he
          have := (keys _ (sslot_lt _)).1 e he
          omega
      · obtain ⟨hmem, hf⟩ := hfound i h1 (by omega)
        refine ⟨List.mem_cons_of_mem _ hmem, ?_⟩
        have hne : chainLookupS (occ (sslot (keyString i))) (g (sslot (keyString i))) (keyString i) ≠
            SIINVALID := by
          rw [hf]; simp only [SIINVALID]; omega
        by_cases hs : sslot (keyString i) = sslot (keyString (n + 1))
        · have hocc : occIns occ (sslot (keyString (n + 1))) (kslot ((n : Int) + 1))
              (keyString (n + 1), (n : Int) + 1) (sslot (keyString i)) =
              occ (sslot (keyString i)) ++ [(keyString (n + 1), (n : Int) + 1)] := by
            simp [occIns, hs]
          have hgc : (g (sslot (keyString i))).1 ≠ some (keyString i) := by rw [hclean]; simp
          rw [hocc, chainLookupS_append_keep _ (g (sslot (keyString i))) _ _ _ hgc hne, hf]
        · have hk : sslot (keyString i) ≠ kslot ((n : Int) + 1) := sslot_ne_kslot _ _
          have hocc : occIns occ (sslot (keyString (n + 1))) (kslot ((n : Int) + 1))
              (keyString (n + 1), (n : Int) + 1) (sslot (keyString i)) = occ (sslot (keyString i)) := by
            simp [occIns, hs, hk]
          have hg : gIns g (sslot (keyString (n + 1))) (kslot ((n : Int) + 1)) cleanCell cleanCell
              (sslot (keyString i)) = g (sslot (keyString i)) := by
            simp [gIns, hs, hk]
          rw [hocc, hg, hf]
    · intro _
      by_cases hn0 : 1 ≤ n
      · obtain ⟨es, hes⟩ := hhead hn0
        by_cases hs : sslot (keyString 1) = sslot (keyString (n + 1))
        · refine ⟨es ++ [(keyString (n + 1), (n : Int) + 1)], ?_⟩
          unfold occIns
          rw [if_pos (Or.inl hs), hes]; rfl
        · refine ⟨es, ?_⟩
          have hk : sslot (keyString 1) ≠ kslot ((n : Int) + 1) := sslot_ne_kslot _ _
          unfold occIns
          rw [if_neg (fun h => h.elim hs hk), hes]
      · have hn1 : n = 0 := by omega
        subst hn1
        have hemp : occ (sslot (keyString 1)) = [] := by
          cases hocc : occ (sslot (keyString 1)) with
          | nil => rfl
          | cons e es =>
            obtain ⟨i, h1, h2, _⟩ := hstr _ e (by rw [hocc]; exact List.mem_cons_self _ _)
            omega
        refine ⟨[], ?_⟩
        unfold occIns
        rw [if_pos (Or.inl rfl), hemp]; rfl

/-- After `2^31 - 1` distinct strings the counter has overflowed: the table is
reachable, the strings `"\x02"` and `"\x03"` received the keys 1 and 2 and are
found, and the empty string was never interned. -/
theorem full_table :
    ∃ log t occ g rest, Run log t ∧ TabOK t occ g rest ∧ t.nextkey = -2147483648 ∧
      chainLookupS (occ (sslot [])) (g (sslot [])) [] = SIINVALID ∧
      (([2], 1) : CString × Int) ∈ log ∧ (([3], 2) : CString × Int) ∈ log ∧
      chainLookupS (occ (sslot [2])) (g (sslot [2])) [2] = 1 ∧
      chainLookupS (occ (sslot [3])) (g (sslot [3])) [3] = 2 ∧
      (∀ c, (g c).1 = none) ∧ (∀ c, ∀ e ∈ occ c, ∃ i, 1 ≤ i ∧ e.1 = keyString i) ∧
      (∃ es, occ (sslot [2]) = ([2], 1) :: es) := by
  obtain ⟨log, t, occ, g, rest, hrun, ok, _, hnk, hclean, hstr, hfound, hhead⟩ :=
    run_keyString 2147483647 (le_refl _)
  have hf1 := hfound 1 (le_refl _) (by norm_num)
  have hf2 := hfound 2 (by norm_num) (by norm_num)
  have hh := hhead (by norm_num)
  rw [keyString_one] at hf1 hh
  rw [keyString_two] at hf2
  refine ⟨log, t, occ, g, rest, hrun, ok, ?_, ?_, hf1.1, hf2.1, hf1.2, hf2.2, hclean, ?_, hh⟩
  · rw [hnk]; decide
  · refine chainLookupS_not_found _ _ _ (by rw [hclean]; simp) ?_
    intro e he hh
    obtain ⟨i, hi, _, hei⟩ := hstr _ e he
    have := keyString_inj (i := i) (j := 0) (by rw [keyString_zero]; exact hei.symm.trans hh)
    omega
  · intro c e he
    obtain ⟨i, h1, _, h3⟩ := hstr c e he
    exact ⟨i, h1, h3⟩

/-- A failed call on a full table only advances the counter; as long as the
counter is negative the next call fails again. -/
theorem full_steps {t : InternTab} {occ g rest} (ok : TabOK t occ g rest)
    (hnot : chainLookupS (occ (sslot [])) (g (sslot [])) [] = SIINVALID)
    {log : List (CString × Int)} (hrun : Run log t) (hnk : t.nextkey = -2147483648) :
    ∀ m : Nat, m ≤ 2147483648 →
      ∃ log', Run log' { t with nextkey := -2147483648 + (m : Int) } := by
  intro m
  induction m with
  | zero =>
    intro _
    refine ⟨log, ?_⟩
    have : ({ t with nextkey := -2147483648 + ((0 : Nat) : Int) } : InternTab) = t := by
      cases t; simp at hnk ⊢; exact hnk.symm
    rw [this]; exact hrun
  | succ m ih =>
    intro hm
    obtain ⟨log', hrun'⟩ := ih (by omega)
    have ok' := tabOK_nextkey ok (-2147483648 + (m : Int))
    rcases internstring_cases ok' [] cleanCell cleanCell with ⟨h1, _⟩ | ⟨_, _, h⟩ | ⟨_, h2, _⟩
    · exact absurd hnot h1
    · have := Run.intern [] cleanCell cleanCell SITABFULL hrun' h
      have e : wrap32 (-2147483648 + (m : Int) + 1) = -2147483648 + ((m + 1 : Nat) : Int) := by
        push_cast; unfold wrap32; omega
      simp only [e] at this
      exact ⟨_, this⟩
    · simp only at h2; omega

/-! ## Iteration -/

theorem foreachinternSlots_spec {t : InternTab} {occ g rest} (ok : TabOK t occ g rest) :
    ∀ (is : List Nat) (calls : List (Option CString × Int)), (∀ i ∈ is, i < 13) →
      foreachinternSlots t is calls =
        some (calls ++ is.flatMap fun i => slotCalls (occ (2 * i + 1))) := by
  intro is
  induction is with
  | nil => intro calls _; simp [foreachinternSlots]
  | cons i is ih =>
    intro calls his
    have hi : i < 13 := his i (List.mem_cons_self _ _)
    have hc : 2 * i + 1 < 26 := by omega
    have hkeys : t.keys[i]? = some (2 * i + 1) := by
      rw [ok.keys_eq]; simp [List.getElem?_range hi, hi]
    have ih' := fun calls => ih calls fun j hj => his j (List.mem_cons_of_mem _ hj)
    have hslot := ok.slot _ hc
    unfold foreachinternSlots
    simp only [hkeys]
    unfold Slot at hslot
    cases hocc : occ (2 * i + 1) with
    | nil =>
      rw [hocc] at hslot
      simp only [hslot.2, if_true, ih', List.flatMap_cons, hocc, slotCalls, List.nil_append]
    | cons e es =>
      rw [hocc] at hslot
      obtain ⟨mid, tl, _, hH, _, _, _, _⟩ := hslot
      obtain ⟨b, hb, hbv, hbk⟩ := cell_of_val_key hH.1 hH.2
      have hne : ¬ b.key = SIINVALID := by
        rw [hbk]
        have := ok.nonneg _ hc e (by rw [hocc]; exact List.mem_cons_self _ _)
        simp [SIINVALID]; omega
      simp only [hb, hne, if_false]
      unfold foreachinternLoop
      simp only [hb, ne_eq, not_true_eq_false, false_and, if_false, ih', List.flatMap_cons,
        hocc, slotCalls, hbv, hbk, List.append_assoc]

/-- On every well-shaped table `foreachintern` calls the iterator once per
non-empty keys chain, with the entry of the head cell, and for nothing
else. -/
theorem foreachintern_spec {t : InternTab} {occ g rest} (ok : TabOK t occ g rest) :
    foreachintern t =
      some ((List.range 13).flatMap fun i => slotCalls (occ (2 * i + 1))) := by
  unfold foreachintern
  rw [show BUCKET_COUNT = 13 from rfl, foreachinternSlots_spec ok _ _ fun i hi => by simpa using hi]
  simp

/-! ## Entries found and not found -/

theorem walkS_found_mem (s : CString) (fkey : Int) (g : Option CString × Int)
    (hg : g.1 ≠ some s) :
    ∀ (es : List (CString × Int)) (e : CString × Int),
      walkS s fkey g e es ≠ SIINVALID → (s, walkS s fkey g e es) ∈ e :: es := by
  intro es
  induction es with
  | nil =>
    intro e hw
    simp only [walkS] at hw ⊢
    by_cases h1 : e.1 = s
    · rw [if_pos h1]; rw [← h1]; simp
    · rw [if_neg h1, if_neg hg] at hw
      exact absurd (by split_ifs <;> rfl) hw
  | cons e' es ih =>
    intro e hw
    simp only [walkS] at hw ⊢
    by_cases h1 : e.1 = s
    · rw [if_pos h1]; rw [← h1]; simp
    · rw [if_neg h1] at hw; rw [if_neg h1]
      by_cases h2 : e'.2 ≠ fkey ∧ e'.2 ≠ SIINVALID
      · rw [if_pos h2] at hw; rw [if_pos h2]
        exact List.mem_cons_of_mem _ (ih e' hw)
      · rw [if_neg h2] at hw; exact absurd rfl hw

/-- When the last cell of the ring does not hold the string, a key that
`lookupstring` returns is the key of an entry of the chain. -/
theorem chainLookupS_found_mem (occ : List (CString × Int)) (g : Option CString × Int)
    (s : CString) (hg : g.1 ≠ some s) (hl : chainLookupS occ g s ≠ SIINVALID) :
    (s, chainLookupS occ g s) ∈ occ := by
  cases occ with
  | nil => exact absurd rfl hl
  | cons e es =>
    simp only [chainLookupS] at hl ⊢
    by_cases h1 : e.2 = SIINVALID
    · rw [if_pos h1] at hl; exact absurd rfl hl
    · rw [if_neg h1] at hl; rw [if_neg h1]
      exact walkS_found_mem s e.2 g hg es e hl

theorem walkS_mem_found (s : CString) (k fkey : Int) (g : Option CString × Int) :
    ∀ (es : List (CString × Int)) (e : CString × Int),
      (∀ x ∈ es, x.2 ≠ fkey ∧ x.2 ≠ SIINVALID) → (s, k) ∈ e :: es →
      (∀ x ∈ e :: es, x.1 = s → x = (s, k)) → walkS s fkey g e es = k := by
  intro es
  induction es with
  | nil =>
    intro e _ hm hu
    simp only [List.mem_singleton] at hm
    simp [walkS, ← hm]
  | cons e' es ih =>
    intro e hes hm hu
    simp only [walkS]
    by_cases h1 : e.1 = s
    · rw [if_pos h1, hu e (List.mem_cons_self _ _) h1]
    · rw [if_neg h1, if_pos (hes e' (List.mem_cons_self _ _))]
      refine ih e' (fun x hx => hes x (List.mem_cons_of_mem _ hx)) ?_
        (fun x hx => hu x (List.mem_cons_of_mem _ hx))
      rcases List.mem_cons.mp hm with hm | hm
      · exact absurd (by rw [← hm]) h1
      · exact hm

/-- An entry of a chain whose keys increase is found by `lookupstring` when no
other entry of the chain holds the same string. -/
theorem chainLookupS_mem_found (occ : List (CString × Int)) (g : Option CString × Int)
    (s : CString) (k : Int) (hr : ∀ e ∈ occ, 1 ≤ e.2)
    (hp : occ.Pairwise fun a b => a.2 < b.2) (hm : (s, k) ∈ occ)
    (hu : ∀ x ∈ occ, x.1 = s → x = (s, k)) : chainLookupS occ g s = k := by
  cases occ with
  | nil => simp at hm
  | cons e es =>
    have he := hr e (List.mem_cons_self _ _)
    have he1 : e.2 ≠ SIINVALID := by simp only [SIINVALID]; omega
    simp only [chainLookupS, if_neg he1]
    refine walkS_mem_found s k e.2 g es e ?_ hm hu
    intro x hx
    have h1 := (List.pairwise_cons.mp hp).1 x hx
    have h2 := hr x (List.mem_cons_of_mem _ hx)
    exact ⟨by omega, by simp only [SIINVALID]; omega⟩

theorem walkK_mem_found (s : CString) (k fkey : Int) (g : Option CString × Int) :
    ∀ (es : List (CString × Int)) (e : CString × Int),
      (∀ x ∈ es, x.2 ≠ fkey ∧ x.2 ≠ SIINVALID) → (s, k) ∈ e :: es →
      (∀ x ∈ e :: es, x.2 = k → x = (s, k)) → walkK k fkey g e es = some s := by
  intro es
  induction es with
  | nil =>
    intro e _ hm hu
    simp only [List.mem_singleton] at hm
    simp [walkK, ← hm]
  | cons e' es ih =>
    intro e hes hm hu
    simp only [walkK]
    by_cases h1 : k = e.2
    · rw [if_pos h1, hu e (List.mem_cons_self _ _) h1.symm]
    · rw [if_neg h1, if_pos (hes e' (List.mem_cons_self _ _))]
      refine ih e' (fun x hx => hes x (List.mem_cons_of_mem _ hx)) ?_
        (fun x hx => hu x (List.mem_cons_of_mem _ hx))
      rcases List.mem_cons.mp hm with hm | hm
      · exact absurd (by rw [← hm]) h1
      · exact hm

/-- An entry of a chain whose keys increase is found by the walk of
`lookupkey`. -/
theorem chainLookupK_mem_found (occ : List (CString × Int)) (g : Option CString × Int)
    (s : CString) (k : Int) (hr : ∀ e ∈ occ, 1 ≤ e.2)
    (hp : occ.Pairwise fun a b => a.2 < b.2) (hm : (s, k) ∈ occ) :
    chainLookupK occ g k = some s := by
  have hu : ∀ x ∈ occ, x.2 = k → x = (s, k) := by
    intro x hx hxk
    by_contra hne
    have hp' : occ.Pairwise fun a b => a.2 ≠ b.2 := hp.imp fun hab => ne_of_lt hab
    have hsym : Symmetric fun a b : CString × Int => a.2 ≠ b.2 := fun a b hab => Ne.symm hab
    exact hp'.forall hsym hx hm hne hxk
  cases occ with
  | nil => simp at hm
  | cons e es =>
    have he := hr e (List.mem_cons_self _ _)
    have he1 : e.2 ≠ SIINVALID := by simp only [SIINVALID]; omega
    simp only [chainLookupK, if_neg he1]
    refine walkK_mem_found s k e.2 g es e ?_ hm hu
    intro x hx
    have h1 := (List.pairwise_cons.mp hp).1 x hx
    have h2 := hr x (List.mem_cons_of_mem _ hx)
    exact ⟨by omega, by simp only [SIINVALID]; omega⟩

theorem walkK_not_found (k fkey : Int) (g : Option CString × Int)
    (hg : g.1 = none) :
    ∀ (es : List (CString × Int)) (e : CString × Int),
      (∀ x ∈ e :: es, x.2 ≠ k) → walkK k fkey g e es = none := by
  intro es
  induction es with
  | nil =>
    intro e hne
    have h1 : ¬ k = e.2 := fun h => hne e (List.mem_cons_self _ _) h.symm
    simp only [walkK, if_neg h1, hg]
    split_ifs <;> rfl
  | cons e' es ih =>
    intro e hne
    have h1 : ¬ k = e.2 := fun h => hne e (List.mem_cons_self _ _) h.symm
    simp only [walkK, if_neg h1]
    split_ifs
    · exact ih e' fun x hx => hne x (List.mem_cons_of_mem _ hx)
    · rfl

/-- A key held by no entry of its chain is not found when the last cell of
the ring holds a `NULL` string. -/
theorem chainLookupK_not_found (occ : List (CString × Int)) (g : Option CString × Int)
    (k : Int) (hg : g.1 = none) (hne : ∀ x ∈ occ, x.2 ≠ k) :
    chainLookupK occ g k = none := by
  cases occ with
  | nil => rfl
  | cons e es =>
    simp only [chainLookupK]
    split_ifs
    · rfl
    · exact walkK_not_found k e.2 g hg es e hne

/-! ## Runs with clean fresh cells -/

theorem distinctCount_cons_mem {x : CString × Int} {log : List (CString × Int)}
    (h : x.1 ∈ log.map Prod.fst) : distinctCount (x :: log) = distinctCount log := by
  unfold distinctCount
  rw [List.map_cons, List.dedup_cons_of_mem h]

theorem distinctCount_cons_not_mem {x : CString × Int} {log : List (CString × Int)}
    (h : x.1 ∉ log.map Prod.fst) : distinctCount (x :: log) = distinctCount log + 1 := by
  unfold distinctCount
  rw [List.map_cons, List.dedup_cons_of_not_mem h, List.length_cons]

theorem distinctCount_le_cons (x : CString × Int) (log : List (CString × Int)) :
    distinctCount log ≤ distinctCount (x :: log) := by
  by_cases h : x.1 ∈ log.map Prod.fst
  · rw [distinctCount_cons_mem h]
  · rw [distinctCount_cons_not_mem h]; omega

theorem mem_occIns {occ : Nat → List (CString × Int)} {cs ck c : Nat}
    {x e : CString × Int} :
    e ∈ occIns occ cs ck x c ↔ e ∈ occ c ∨ (e = x ∧ (c = cs ∨ c = ck)) := by
  unfold occIns
  split_ifs with h
  · simp [h]
  · simp [h]

/-- One call of a clean run: a string given before receives the key it
received before and the table is unchanged; a new string receives the next
key. -/
theorem clean_step {log : List (CString × Int)} {t t' : InternTab} {occ g rest}
    (ok : TabOK t occ g rest) (inv : CleanInv log t occ g) (s : CString) (fs fk : Bucket)
    (k : Int) (hfs : fs.val = none) (hfk : fk.val = none)
    (hstep : internstring t s fs fk = some (k, t'))
    (hb : distinctCount ((s, k) :: log) ≤ 2147483646) :
    ((s ∈ log.map Prod.fst ∧ (s, k) ∈ log) ∨
      (s ∉ log.map Prod.fst ∧ k = (distinctCount log : Int) + 1)) ∧
    ∃ occ' g' rest', TabOK t' occ' g' rest' ∧ CleanInv ((s, k) :: log) t' occ' g' := by
  have hb0 : distinctCount log ≤ 2147483646 := le_trans (distinctCount_le_cons _ _) hb
  have hgs : (g (sslot s)).1 ≠ some s := by rw [inv.clean]; simp
  rcases internstring_cases ok s fs fk with ⟨hne, h⟩ | ⟨_, hneg, _⟩ | ⟨hl, hk0, t1, h, hnk', ok'⟩
  · -- found
    rw [h] at hstep; simp only [Option.some.injEq, Prod.mk.injEq] at hstep
    obtain ⟨hk, ht⟩ := hstep; subst ht
    have hmem : (s, k) ∈ occ (sslot s) := by
      rw [← hk]; exact chainLookupS_found_mem _ _ s hgs hne
    have hlog : (s, k) ∈ log := inv.seen (s, k) hmem
    have hs : s ∈ log.map Prod.fst := List.mem_map.mpr ⟨(s, k), hlog, rfl⟩
    have hd : distinctCount ((s, k) :: log) = distinctCount log := distinctCount_cons_mem hs
    refine ⟨Or.inl ⟨hs, hlog⟩, occ, g, rest, ok, ?_⟩
    refine ⟨by rw [hd]; exact inv.keys, by rw [hd]; exact inv.nextkey, inv.clean, inv.cross,
      inv.home_s, inv.home_k, inv.uniq, ?_, ?_⟩
    · intro e he
      rcases List.mem_cons.mp he with he | he
      · rw [he]; exact hmem
      · exact inv.logged e he
    · intro e he; exact List.mem_cons_of_mem _ (inv.seen e he)
  · rw [inv.nextkey] at hneg; omega
  · -- inserted
    rw [h] at hstep; simp only [Option.some.injEq, Prod.mk.injEq] at hstep
    obtain ⟨hk, ht⟩ := hstep; subst ht
    have hs : s ∉ log.map Prod.fst := by
      intro hs
      obtain ⟨e, he, hes⟩ := List.mem_map.mp hs
      have hm := inv.logged e he
      rw [hes] at hm
      have hfound := chainLookupS_mem_found (occ (sslot s)) (g (sslot s)) s e.2
        (fun x hx => ((inv.keys _ (sslot_lt s)).1 x hx).1) (inv.keys _ (sslot_lt s)).2
        (by have h0 : (s, e.2) = e := by rw [← hes]
            rw [h0]; exact hm) ?_
      · have := ((inv.keys _ (sslot_lt s)).1 e hm).1
        rw [hfound] at hl; simp only [SIINVALID] at hl; omega
      · intro x hx hxs
        have h1 : x ∈ occ (sslot x.1) := by rw [hxs]; exact hx
        have h2 : e ∈ occ (sslot x.1) := by rw [hxs]; exact hm
        have := inv.uniq x e h1 h2 (by rw [hes, hxs])
        rw [← this, ← hes]
    have hd : distinctCount ((s, k) :: log) = distinctCount log + 1 :=
      distinctCount_cons_not_mem hs
    have hkn : k = (distinctCount log : Int) + 1 := by rw [← hk, inv.nextkey]
    rw [inv.nextkey] at ok' hnk'
    rw [← hkn] at ok' hnk'
    have memS : ∀ e, e ∈ occIns occ (sslot s) (kslot k) (s, k) (sslot e.1) ↔
        e ∈ occ (sslot e.1) ∨ e = (s, k) := by
      intro e
      rw [mem_occIns]
      constructor
      · rintro (h1 | ⟨h1, _⟩)
        · exact Or.inl h1
        · exact Or.inr h1
      · rintro (h1 | h1)
        · exact Or.inl h1
        · exact Or.inr ⟨h1, Or.inl (by rw [h1])⟩
    have noS : ∀ e, e ∈ occ (sslot e.1) → e.1 ≠ s := by
      intro e he hes
      exact hs (List.mem_map.mpr ⟨e, inv.seen e he, hes⟩)
    refine ⟨Or.inr ⟨hs, hkn⟩, _, _, _, ok', ?_⟩
    constructor
    · rw [hd, hkn]
      have := keysOK_occIns inv.keys (by omega) (sslot s) (kslot ((distinctCount log : Int) + 1)) s
      push_cast; exact this
    · rw [hnk', hd, hkn]; push_cast
      exact wrap32_id (by omega) (by omega)
    · intro c
      unfold gIns
      split_ifs
      · exact hfs
      · exact hfk
      · exact inv.clean c
    · intro e
      rw [memS, mem_occIns]
      constructor
      · rintro (h1 | h1)
        · exact Or.inl ((inv.cross e).mp h1)
        · exact Or.inr ⟨h1, Or.inr (by rw [h1])⟩
      · rintro (h1 | ⟨h1, _⟩)
        · exact Or.inl ((inv.cross e).mpr h1)
        · exact Or.inr h1
    · intro i hi e he
      rcases mem_occIns.mp he with h1 | ⟨h1, h2 | h2⟩
      · exact inv.home_s i hi e h1
      · rw [h1]; exact h2.symm
      · unfold kslot at h2; omega
    · intro j hj e he
      rcases mem_occIns.mp he with h1 | ⟨h1, h2 | h2⟩
      · exact inv.home_k j hj e h1
      · unfold sslot at h2; omega
      · rw [h1]; exact h2.symm
    · intro e e' he he' hee
      rcases (memS e).mp he with h1 | h1
      · have he1 : e'.1 ≠ s := by rw [hee]; exact noS e h1
        rcases mem_occIns.mp he' with h2 | ⟨h2, _⟩
        · exact inv.uniq e e' h1 h2 hee
        · rw [h2] at he1; exact absurd rfl he1
      · rcases mem_occIns.mp he' with h2 | ⟨h2, _⟩
        · have h3 : e' ∈ occ (sslot e'.1) := by rw [hee]; exact h2
          have := noS e' h3
          rw [hee, h1] at this; exact absurd rfl this
        · rw [h1, h2]
    · intro e he
      rw [memS]
      rcases List.mem_cons.mp he with he | he
      · exact Or.inr he
      · exact Or.inl (inv.logged e he)
    · intro e he
      rcases (memS e).mp he with h1 | h1
      · exact List.mem_cons_of_mem _ (inv.seen e h1)
      · rw [h1]; exact List.mem_cons_self _ _

/-- The invariant of clean runs. -/
theorem cleanRun_inv {log : List (CString × Int)} {t : InternTab} (hrun : CleanRun log t) :
    distinctCount log ≤ 2147483646 →
    ∃ occ g rest, TabOK t occ g rest ∧ CleanInv log t occ g := by
  induction hrun with
  | make =>
    intro _
    refine ⟨_, fun _ => (none, SIINVALID), _, makeinterntab_ok _, ?_⟩
    refine ⟨fun _ _ => ⟨fun e he => by simp at he, List.Pairwise.nil⟩, ?_, fun _ => rfl,
      fun _ => Iff.rfl, fun _ _ e he => by simp at he, fun _ _ e he => by simp at he,
      fun _ _ he => by simp at he, fun e he => by simp at he, fun e he => by simp at he⟩
    rw [makeinterntab_eq]; rfl
  | intern s fs fk k hfs hfk _ hstep ih =>
    intro hb
    obtain ⟨occ, g, rest, ok, inv⟩ := ih (le_trans (distinctCount_le_cons _ _) hb)
    exact (clean_step ok inv s fs fk k hfs hfk hstep hb).2

theorem cleanInv_lookupstring {log : List (CString × Int)} {t : InternTab} {occ g rest}
    (ok : TabOK t occ g rest) (inv : CleanInv log t occ g) (e : CString × Int)
    (he : e ∈ log) : lookupstring t e.1 = some e.2 := by
  have hm := inv.logged e he
  rw [lookupstring_spec ok]
  congr 1
  refine chainLookupS_mem_found _ _ e.1 e.2
    (fun x hx => ((inv.keys _ (sslot_lt _)).1 x hx).1) (inv.keys _ (sslot_lt _)).2 hm ?_
  intro x hx hxe
  have h1 : x ∈ occ (sslot x.1) := by rw [hxe]; exact hx
  have h2 : e ∈ occ (sslot x.1) := by rw [hxe]; exact hm
  exact (inv.uniq x e h1 h2 hxe.symm).symm

theorem cleanInv_lookupkey {log : List (CString × Int)} {t : InternTab} {occ g rest}
    (ok : TabOK t occ g rest) (inv : CleanInv log t occ g) (e : CString × Int)
    (he : e ∈ log) : lookupkey t e.2 = some (some e.1) := by
  have hm := (inv.cross e).mp (inv.logged e he)
  have hr := (inv.keys _ (kslot_lt e.2)).1 e hm
  rw [lookupkey_spec ok, inv.nextkey, if_neg (by omega)]
  congr 1
  exact chainLookupK_mem_found _ _ e.1 e.2
    (fun x hx => ((inv.keys _ (kslot_lt _)).1 x hx).1) (inv.keys _ (kslot_lt _)).2 hm

/-- In a clean run that stays below `2^31 - 1` distinct strings (C1, C3, C4,
C6): every string given is found under the key returned for it, that key is
at least 1 and resolves to the string, a string never given is not found,
and a key never returned resolves to `NULL`. -/
theorem cleanRun_lookups {log : List (CString × Int)} {t : InternTab}
    (hrun : CleanRun log t) (hb : distinctCount log ≤ 2147483646) :
    (∀ e ∈ log, lookupstring t e.1 = some e.2 ∧ lookupkey t e.2 = some (some e.1) ∧
      1 ≤ e.2) ∧
    (∀ s, s ∉ log.map Prod.fst → lookupstring t s = some SIINVALID) ∧
    (∀ k, k ∉ log.map Prod.snd → lookupkey t k = some none) := by
  obtain ⟨occ, g, rest, ok, inv⟩ := cleanRun_inv hrun hb
  refine ⟨fun e he => ⟨cleanInv_lookupstring ok inv e he, cleanInv_lookupkey ok inv e he,
    ((inv.keys _ (sslot_lt _)).1 e (inv.logged e he)).1⟩, ?_, ?_⟩
  · intro s hs
    rw [lookupstring_spec ok]
    congr 1
    refine chainLookupS_not_found _ _ s (by rw [inv.clean]; simp) ?_
    intro e he hes
    have h1 : e ∈ occ (sslot e.1) := by rw [hes]; exact he
    exact hs (List.mem_map.mpr ⟨e, inv.seen e h1, hes⟩)
  · intro k hk
    rw [lookupkey_spec ok]
    congr 1
    split_ifs
    · rfl
    · refine chainLookupK_not_found _ _ k (inv.clean _) ?_
      intro e he hek
      have h1 : e ∈ occ (kslot e.2) := by rw [hek]; exact he
      exact hk (List.mem_map.mpr ⟨e, inv.seen e ((inv.cross e).mpr h1), hek⟩)

/-- In such a run two calls return the same key exactly when they were given
the same string (C3, C5). -/
theorem cleanRun_keys_injective {log : List (CString × Int)} {t : InternTab}
    (hrun : CleanRun log t) (hb : distinctCount log ≤ 2147483646)
    (e e' : CString × Int) (he : e ∈ log) (he' : e' ∈ log) : e.1 = e'.1 ↔ e.2 = e'.2 := by
  obtain ⟨hl, _, _⟩ := cleanRun_lookups hrun hb
  constructor
  · intro h
    have h1 := (hl e he).1
    have h2 := (hl e' he').1
    rw [h, h2] at h1
    exact (Option.some.inj h1).symm
  · intro h
    have h1 := (hl e he).2.1
    have h2 := (hl e' he').2.1
    rw [h, h2] at h1
    exact (Option.some.inj (Option.some.inj h1)).symm

/-- In such a run a string given before receives the key it received before,
and a new string receives the number of distinct strings given so far plus
one: the i-th distinct string receives key i (C5). -/
theorem cleanRun_sequential {log : List (CString × Int)} {t : InternTab} {s : CString}
    {k : Int} (hrun : CleanRun ((s, k) :: log) t)
    (hb : distinctCount ((s, k) :: log) ≤ 2147483646) :
    (s ∈ log.map Prod.fst ∧ (s, k) ∈ log) ∨
      (s ∉ log.map Prod.fst ∧ k = (distinctCount log : Int) + 1) := by
  cases hrun with
  | intern _ fs fk _ hfs hfk hprev hstep =>
    obtain ⟨occ, g, rest, ok, inv⟩ :=
      cleanRun_inv hprev (le_trans (distinctCount_le_cons _ _) hb)
    exact (clean_step ok inv s fs fk k hfs hfk hstep hb).1

/-- In such a run a second call for the string just interned returns the same
key and leaves the table as it is, whatever the fresh cells hold (C2). -/
theorem cleanRun_idempotent {log : List (CString × Int)} {t : InternTab} {s : CString}
    {k : Int} (hrun : CleanRun ((s, k) :: log) t)
    (hb : distinctCount ((s, k) :: log) ≤ 2147483646) (fs fk : Bucket) :
    internstring t s fs fk = some (k, t) := by
  obtain ⟨occ, g, rest, ok, inv⟩ := cleanRun_inv hrun hb
  have hl := cleanInv_lookupstring ok inv (s, k) (List.mem_cons_self _ _)
  have hk := ((inv.keys _ (sslot_lt _)).1 (s, k) (inv.logged _ (List.mem_cons_self _ _))).1
  unfold internstring
  simp only at hl hk
  have : k ≠ SIINVALID := by simp only [SIINVALID]; omega
  simp [hl, this]

/-! ## Once around the key range -/

theorem walkS_blocked (s s' : CString) (fkey : Int) (g' : Option CString × Int) :
    ∀ (es : List (CString × Int)) (e : CString × Int),
      (∀ x ∈ e :: es, x.1 ≠ s) → walkS s fkey g' e (es ++ [(s', fkey)]) = SIINVALID := by
  intro es
  induction es with
  | nil =>
    intro e hne
    have h1 : e.1 ≠ s := hne e (List.mem_cons_self _ _)
    simp [walkS, h1]
  | cons e' es ih =>
    intro e hne
    have h1 : e.1 ≠ s := hne e (List.mem_cons_self _ _)
    simp only [walkS, List.cons_append, if_neg h1]
    split_ifs
    · exact ih e' fun x hx => hne x (List.mem_cons_of_mem _ hx)
    · rfl

theorem getLast_of_eq {l : List Nat} (hne : l ≠ []) (h : l = [7, 0]) : l.getLast hne = 0 := by
  subst h; rfl

/-- No number has the string `"\x08\x01"`: its last digit would be 0. -/
theorem keyString_ne (i : Nat) : keyString i ≠ [8, 1] := by
  intro h
  unfold keyString at h
  have hd : Nat.digits 127 i = [7, 0] := by
    match hl : Nat.digits 127 i, h with
    | [a, b], h =>
      simp only [List.map_cons, List.map_nil, List.cons.injEq, and_true] at h
      obtain ⟨h1, h2⟩ := h
      have ha : a = 7 := by omega
      have hb : b = 0 := by omega
      rw [ha, hb]
  have hi : i ≠ 0 := by
    intro h0
    rw [h0, Nat.digits_zero] at hd
    exact absurd hd (by simp)
  exact Nat.getLast_digit_ne_zero 127 hi (getLast_of_eq _ hd)

/-- After the key counter has gone once around the 32-bit range, key 1 is
issued a second time, for `"\x08\x01"`; the string shares the strings chain whose
head holds key 1, so the walk of `lookupstring` stops in front of the
entry. -/
theorem wrapped_table :
    ∃ log t, Run log t ∧ (([8, 1], 1) : CString × Int) ∈ log ∧
      lookupstring t [8, 1] = some SIINVALID := by
  obtain ⟨log, t, occ, g, rest, hrun, ok, hnk, hnot, _, _, _, _, hclean, hstr, es, hes⟩ :=
    full_table
  obtain ⟨log1, hrun1⟩ := full_steps ok hnot hrun hnk 2147483648 (le_refl _)
  have ok1 := tabOK_nextkey ok (-2147483648 + ((2147483648 : Nat) : Int))
  rcases internstring_cases ok1 [] cleanCell cleanCell with
    ⟨h1, _⟩ | ⟨_, h2, _⟩ | ⟨_, _, t2, hstep2, hnk2, ok2⟩
  · exact absurd hnot h1
  · simp at h2
  · have hrun2 := Run.intern [] cleanCell cleanCell _ hrun1 hstep2
    have hz : (-2147483648 + ((2147483648 : Nat) : Int)) = 0 := by norm_num
    simp only [hz] at hnk2 ok2 hrun2
    have hs1 : sslot [8, 1] = sslot [2] := by decide
    have hs2 : sslot [2] ≠ sslot [] := by decide
    have hs3 : sslot [2] ≠ kslot 0 := sslot_ne_kslot _ _
    have hocc2 : occIns occ (sslot []) (kslot 0) ([], 0) (sslot [8, 1]) = ([2], 1) :: es := by
      unfold occIns
      rw [hs1, if_neg (fun h => h.elim hs2 hs3), hes]
    have hno2 : ∀ x ∈ occIns occ (sslot []) (kslot 0) ([], 0) (sslot [8, 1]), x.1 ≠ [8, 1] := by
      intro x hx
      rcases mem_occIns.mp hx with hx | ⟨hx, _⟩
      · obtain ⟨i, _, hi⟩ := hstr _ x hx
        rw [hi]; exact keyString_ne i
      · rw [hx]; simp
    have hg2 : (gIns g (sslot []) (kslot 0) cleanCell cleanCell (sslot [8, 1])).1 ≠
        some [8, 1] := by
      unfold gIns
      split_ifs
      · simp [cleanCell]
      · simp [cleanCell]
      · rw [hclean]; simp
    have hnot2 := chainLookupS_not_found _ _ [8, 1] hg2 hno2
    have hnk2' : t2.nextkey = 1 := by rw [hnk2]; decide
    rcases internstring_cases ok2 [8, 1] cleanCell cleanCell with
      ⟨h1, _⟩ | ⟨_, h2, _⟩ | ⟨_, _, t3, hstep3, _, ok3⟩
    · exact absurd hnot2 h1
    · rw [hnk2'] at h2; omega
    · have hrun3 := Run.intern [8, 1] cleanCell cleanCell _ hrun2 hstep3
      rw [hnk2'] at hrun3 ok3
      refine ⟨_, t3, hrun3, List.mem_cons_self _ _, ?_⟩
      rw [lookupstring_spec ok3]
      congr 1
      have hocc3 : occIns (occIns occ (sslot []) (kslot 0) ([], 0)) (sslot [8, 1]) (kslot 1)
          ([8, 1], 1) (sslot [8, 1]) = ([2], 1) :: (es ++ [([8, 1], 1)]) := by
        unfold occIns at hocc2 ⊢
        rw [if_pos (Or.inl rfl), hocc2]; rfl
      rw [hocc3]
      simp only [chainLookupS]
      rw [if_neg (by decide)]
      refine walkS_blocked [8, 1] [8, 1] 1 _ es ([2], 1) ?_
      intro x hx
      exact hno2 x (by rw [hocc2]; exact hx)

/-! ## Termination -/

/-- On every reachable table, whatever the fresh cells held, the three
loops end, within the fuel given, without a `NULL` dereference:
`lookupstring`, `lookupkey`, `foreachintern` and `internstring` return. -/
theorem reachable_returns {t : InternTab} (hr : Reachable t) :
    (∀ s, ∃ k, lookupstring t s = some k) ∧ (∀ k, ∃ v, lookupkey t k = some v) ∧
    (∃ calls, foreachintern t = some calls) ∧
    (∀ s fs fk, ∃ r, internstring t s fs fk = some r) := by
  obtain ⟨occ, g, rest, ok⟩ := reachable_ok hr
  refine ⟨fun s => ⟨_, lookupstring_spec ok s⟩, fun k => ⟨_, lookupkey_spec ok k⟩,
    ⟨_, foreachintern_spec ok⟩, fun s fs fk => ?_⟩
  rcases internstring_cases ok s fs fk with ⟨_, h⟩ | ⟨_, _, h⟩ | ⟨_, _, t', h, _⟩
  · exact ⟨_, h⟩
  · exact ⟨_, h⟩
  · exact ⟨_, h⟩

/-! ## Runs of an intern list -/

theorem listRun_reachable {ops : List ListOp} {l : InternList} (h : ListRun ops l) :
    ListReachable l := by
  induction h with
  | make initcap l h0 h1 hm => exact ListReachable.make initcap l h0 h1 hm
  | put k v fs fk fill _ hput ih => exact ListReachable.put k v fs fk fill ih hput
  | delete k _ hdel ih => exact ListReachable.delete k ih hdel

theorem listReachable_run {l : InternList} (h : ListReachable l) : ∃ ops, ListRun ops l := by
  induction h with
  | make initcap l h0 h1 hm => exact ⟨[], ListRun.make initcap l h0 h1 hm⟩
  | put k v fs fk fill _ hput ih =>
    obtain ⟨ops, hr⟩ := ih
    exact ⟨_, ListRun.put k v fs fk fill hr hput⟩
  | delete k _ hdel ih =>
    obtain ⟨ops, hr⟩ := ih
    exact ⟨_, ListRun.delete k hr hdel⟩

/-- The growth step of `putinternlist`: the array it goes on with and the
new `dataspace`. -/
theorem putinternlist_spec {l l' : InternList} {k : CString} {v : Nat} {fs fk : Bucket}
    {fill : Nat → Nat} (h : putinternlist l k v fs fk fill = some l') :
    ∃ kData paData old, internstring l.ptKeys k fs fk = some (kData, l'.ptKeys) ∧
      0 < kData ∧
      ((l.dataspace ≠ l.datausage ∧ paData = l.paData ∧ l'.dataspace = l.dataspace) ∨
        (l.dataspace = l.datausage ∧
          growData l.paData (wrap32 (wrap32 (l.dataspace * 2) + 1)) fill = some paData ∧
          l'.dataspace = wrap32 (wrap32 (l.dataspace * 2) + 1))) ∧
      readData paData (kData - 1) = some old ∧
      l'.paData = paData.set (kData - 1).toNat v ∧
      l'.datausage = wrap32 (l.datausage + 1) ∧
      l'.pfDestroyCalls = (if old ≠ 0 then l.pfDestroyCalls ++ [old] else l.pfDestroyCalls) := by
  unfold putinternlist at h
  cases hi : internstring l.ptKeys k fs fk with
  | none => simp [hi] at h
  | some r =>
    obtain ⟨kData, tab⟩ := r
    simp only [hi] at h
    by_cases hk : kData > 0
    · simp only [hk, not_true_eq_false, if_false] at h
      by_cases hs : l.dataspace = l.datausage
      · simp only [hs, if_true] at h
        cases hg : growData l.paData (wrap32 (wrap32 (l.datausage * 2) + 1)) fill with
        | none => simp [hg] at h
        | some paData =>
          simp only [hg, Option.map_some'] at h
          cases hr : readData paData (kData - 1) with
          | none => simp [hr] at h
          | some old =>
            simp only [hr, Option.some.injEq] at h
            subst h
            refine ⟨kData, paData, old, rfl, hk, Or.inr ⟨hs, ?_, ?_⟩, hr, rfl, rfl, rfl⟩
            · rw [hs]; exact hg
            · simp only [hs]
      · simp only [hs, if_false] at h
        cases hr : readData l.paData (kData - 1) with
        | none => simp [hr] at h
        | some old =>
          simp only [hr, Option.some.injEq] at h
          subst h
          exact ⟨kData, l.paData, old, rfl, hk, Or.inl ⟨hs, rfl, rfl⟩, hr, rfl, rfl, rfl⟩
    · simp [hk] at h

theorem growData_eq {paData : List Nat} {ds : Int} (fill : Nat → Nat) (h0 : 0 ≤ ds)
    (hl : (paData.length : Int) ≤ ds) :
    growData paData ds fill =
      some (paData ++ (List.range (ds.toNat - paData.length)).map fun i => fill (paData.length + i)) := by
  unfold growData
  have h1 : ¬ ds < 0 := by omega
  have h2 : paData.length ≤ ds.toNat := by omega
  rw [if_neg h1, List.take_of_length_le h2]

theorem readData_lt {paData : List Nat} {i : Int} {v : Nat} (h : readData paData i = some v) :
    0 ≤ i ∧ i < paData.length := by
  unfold readData at h
  by_cases hi : i < 0
  · simp [hi] at h
  · rw [if_neg hi] at h
    rcases Nat.lt_or_ge i.toNat paData.length with h1 | h1
    · omega
    · simp [List.getElem?_eq_none h1] at h

theorem readData_some (paData : List Nat) (i : Int) (h0 : 0 ≤ i) (h1 : i < paData.length) :
    ∃ v, readData paData i = some v := by
  unfold readData
  have h2 : i.toNat < paData.length := by omega
  rw [if_neg (by omega)]
  exact ⟨paData[i.toNat], List.getElem?_eq_getElem h2⟩

theorem readData_append {paData more : List Nat} {i : Int} {v : Nat}
    (h : readData paData i = some v) : readData (paData ++ more) i = some v := by
  obtain ⟨h0, h1⟩ := readData_lt h
  unfold readData at h ⊢
  rw [if_neg (by omega)] at h ⊢
  rw [List.getElem?_append_left (by omega)]
  exact h

theorem readData_set_ne {paData : List Nat} {i j : Int} (v : Nat) (h0 : 0 ≤ i) (h1 : 0 ≤ j)
    (hij : i ≠ j) : readData (paData.set j.toNat v) i = readData paData i := by
  unfold readData
  rw [if_neg (by omega), if_neg (by omega)]
  rw [List.getElem?_set_ne (by omega)]

/-- One successful `internstring` on a table that has issued `n` keys: the key
returned was found and the table is the same, or it is key `n + 1`. -/
theorem internstring_step_n {t t' : InternTab} {n : Int} (inv : TabInvN t n) (s : CString)
    (fs fk : Bucket) (k : Int) (h : internstring t s fs fk = some (k, t')) (hk : 0 < k) :
    (t' = t ∧ lookupstring t s = some k) ∨
      (lookupstring t s = some SIINVALID ∧ k = n + 1 ∧ TabInvN t' (n + 1)) := by
  obtain ⟨occ, g, rest, ok, keys, hn0, hn1, hnk⟩ := inv
  rcases internstring_cases ok s fs fk with ⟨_, h'⟩ | ⟨_, _, h'⟩ | ⟨hl, hk0, t1, h', hnk', ok'⟩
  · rw [h'] at h; simp only [Option.some.injEq, Prod.mk.injEq] at h
    obtain ⟨h1, h2⟩ := h
    exact Or.inl ⟨h2.symm, by rw [lookupstring_spec ok s, h1]⟩
  · rw [h'] at h; simp only [Option.some.injEq, Prod.mk.injEq] at h
    have := h.1; rw [← this] at hk; simp [SITABFULL] at hk
  · rw [h'] at h; simp only [Option.some.injEq, Prod.mk.injEq] at h
    obtain ⟨h1, h2⟩ := h; subst h2
    have hn2 : n + 1 ≤ 2147483647 := by
      by_contra hc
      have : n = 2147483647 := by omega
      rw [hnk, this] at hk0; unfold wrap32 at hk0; omega
    have hkn : t.nextkey = n + 1 := by rw [hnk]; exact wrap32_id (by omega) hn2
    refine Or.inr ⟨by rw [lookupstring_spec ok s, hl], by rw [← h1, hkn], _, _, _, ok', ?_,
      by omega, hn2, by rw [hnk', hkn]⟩
    rw [hkn]
    exact keysOK_occIns keys hn0 _ _ s

/-! ## The bookkeeping of an intern list -/

theorem makeinterntab_invN : TabInvN makeinterntab 0 :=
  ⟨_, fun _ => (none, SIINVALID), _, makeinterntab_ok _,
    fun _ _ => ⟨fun e he => by simp at he, List.Pairwise.nil⟩, le_refl _, by norm_num,
    by rw [makeinterntab_eq]; decide⟩

theorem growData_some {paData paData' : List Nat} {ds : Int} {fill : Nat → Nat}
    (h : growData paData ds fill = some paData') : 0 ≤ ds := by
  unfold growData at h
  by_cases h1 : ds < 0
  · simp [h1] at h
  · omega

/-- What a returning `putinternlist` does to the bookkeeping of a list that
satisfies the invariant. -/
theorem putinternlist_inv {l l' : InternList} {k : CString} {v : Nat} {fs fk : Bucket}
    {fill : Nat → Nat} (inv : ListInv l) (h : putinternlist l k v fs fk fill = some l') :
    ListInv l' ∧ l'.datausage = l.datausage + 1 ∧
      l'.dataspace = (if l.dataspace = l.datausage then 2 * l.dataspace + 1 else l.dataspace) := by
  obtain ⟨kData, paData, old, hi, hk, hgrow, hrd, hpa, hdu, _⟩ := putinternlist_spec h
  obtain ⟨n, hn, hnle⟩ := inv.tab
  have h0 := inv.usage_nonneg
  have h1 := inv.usage_le
  have h2 := inv.space_le
  have h3 := inv.length_eq
  have htab : ∃ n', TabInvN l'.ptKeys n' ∧ n' ≤ l.datausage + 1 := by
    rcases internstring_step_n hn k fs fk kData hi hk with ⟨ht, _⟩ | ⟨_, _, hn'⟩
    · exact ⟨n, by rw [ht]; exact hn, by omega⟩
    · exact ⟨n + 1, hn', by omega⟩
  rcases hgrow with ⟨hne, hpd, hds⟩ | ⟨heq, hg, hds⟩
  · have hdu' : l'.datausage = l.datausage + 1 := by
      rw [hdu]; exact wrap32_id (by omega) (by omega)
    refine ⟨⟨by omega, by omega, by omega, ?_, ?_⟩, hdu', by rw [if_neg hne]; exact hds⟩
    · rw [hpa, hpd, List.length_set, h3, hds]
    · rw [hdu']; exact htab
  · have hnn := growData_some hg
    have hsmall : 2 * l.dataspace + 1 ≤ 2147483647 := by
      by_contra hc
      unfold wrap32 at hnn; omega
    have hds' : wrap32 (wrap32 (l.dataspace * 2) + 1) = 2 * l.dataspace + 1 := by
      unfold wrap32; omega
    have hdu' : l'.datausage = l.datausage + 1 := by
      rw [hdu]; exact wrap32_id (by omega) (by omega)
    rw [hds'] at hg hds
    rw [growData_eq fill (by omega) (by omega)] at hg
    simp only [Option.some.injEq] at hg
    refine ⟨⟨by omega, by omega, by omega, ?_, ?_⟩, hdu', by rw [if_pos heq]; exact hds⟩
    · rw [hpa, List.length_set, ← hg, hds]
      simp only [List.length_append, List.length_map, List.length_range]
      omega
    · rw [hdu']; exact htab

theorem deleteinternlist_spec {l l' : InternList} {k : CString}
    (h : deleteinternlist l k = some l') :
    (lookupstring l.ptKeys k = some SIINVALID ∧ l' = l) ∨
    (∃ kData old, lookupstring l.ptKeys k = some kData ∧ kData ≠ SIINVALID ∧
      readData l.paData (kData - 1) = some old ∧
      l' = { l with
        paData := l.paData.set (kData - 1).toNat 0
        pfDestroyCalls := if old ≠ 0 then l.pfDestroyCalls ++ [old] else l.pfDestroyCalls }) := by
  unfold deleteinternlist at h
  cases hl : lookupstring l.ptKeys k with
  | none => simp [hl] at h
  | some kData =>
    simp only [hl] at h
    by_cases hk : kData = SIINVALID
    · simp only [hk, if_true, Option.some.injEq] at h
      exact Or.inl ⟨by rw [hk], h.symm⟩
    · simp only [hk, if_false] at h
      cases hrd : readData l.paData (kData - 1) with
      | none => simp [hrd] at h
      | some old =>
        simp only [hrd, Option.some.injEq] at h
        exact Or.inr ⟨kData, old, rfl, hk, hrd, h.symm⟩

theorem deleteinternlist_inv {l l' : InternList} {k : CString} (inv : ListInv l)
    (h : deleteinternlist l k = some l') :
    ListInv l' ∧ l'.datausage = l.datausage ∧ l'.dataspace = l.dataspace := by
  rcases deleteinternlist_spec h with ⟨_, he⟩ | ⟨kData, old, _, _, _, he⟩
  · rw [he]; exact ⟨inv, rfl, rfl⟩
  · rw [he]
    refine ⟨⟨inv.usage_nonneg, inv.usage_le, inv.space_le, ?_, inv.tab⟩, rfl, rfl⟩
    simp only [List.length_set]
    exact inv.length_eq

/-- The invariant of list runs; `datausage` counts the put calls. -/
theorem listRun_inv {ops : List ListOp} {l : InternList} (h : ListRun ops l) :
    ListInv l ∧ l.datausage = putCount ops := by
  induction h with
  | make initcap l h0 h1 hm =>
    unfold makeinternlist at hm
    have : ¬ initcap < 0 := by omega
    simp only [this, if_false, Option.some.injEq] at hm
    subst hm
    refine ⟨⟨le_refl _, h0, h1, ?_, 0, makeinterntab_invN, le_refl _⟩, rfl⟩
    simp only [List.length_replicate]
    omega
  | put k v fs fk fill _ hput ih =>
    obtain ⟨inv', hdu, _⟩ := putinternlist_inv ih.1 hput
    refine ⟨inv', ?_⟩
    rw [hdu, ih.2]; simp [putCount]
  | delete k _ hdel ih =>
    obtain ⟨inv', hdu, _⟩ := deleteinternlist_inv ih.1 hdel
    exact ⟨inv', by rw [hdu, ih.2]; simp [putCount]⟩

theorem listReachable_listInv {l : InternList} (h : ListReachable l) : ListInv l := by
  obtain ⟨ops, hr⟩ := listReachable_run h
  exact (listRun_inv hr).1

/-- `putinternlist` returns when `internstring` returns a positive key whose
slot lies inside the array after the growth step, and the growth step, if
taken, does not overflow `int`. -/
theorem putinternlist_returns {l : InternList} (inv : ListInv l) (k : CString) (v : Nat)
    (fs fk : Bucket) (fill : Nat → Nat) (kd : Int) (tab : InternTab)
    (hi : internstring l.ptKeys k fs fk = some (kd, tab)) (hk : 0 < kd)
    (hroom : l.dataspace ≠ l.datausage ∨ l.dataspace < 1073741824)
    (hin : kd - 1 < (if l.dataspace = l.datausage then 2 * l.dataspace + 1 else l.dataspace)) :
    ∃ l', putinternlist l k v fs fk fill = some l' := by
  have h0 := inv.usage_nonneg
  have h1 := inv.usage_le
  have h3 := inv.length_eq
  unfold putinternlist
  simp only [hi, hk, not_true_eq_false, if_false]
  by_cases hs : l.dataspace = l.datausage
  · have hsmall : l.dataspace < 1073741824 := by
      rcases hroom with h | h
      · exact absurd hs h
      · exact h
    have hds' : wrap32 (wrap32 (l.dataspace * 2) + 1) = 2 * l.dataspace + 1 := by
      unfold wrap32; omega
    rw [if_pos hs] at hin
    simp only [hs, if_true]
    rw [← hs, hds', growData_eq fill (by omega) (by omega)]
    simp only [Option.map_some']
    obtain ⟨old, hold⟩ := readData_some
      (l.paData ++ (List.range ((2 * l.dataspace + 1).toNat - l.paData.length)).map
        fun i => fill (l.paData.length + i)) (kd - 1) (by omega)
      (by simp only [List.length_append, List.length_map, List.length_range]; omega)
    simp only [hold]
    exact ⟨_, rfl⟩
  · rw [if_neg hs] at hin
    simp only [hs, if_false]
    obtain ⟨old, hold⟩ := readData_some l.paData (kd - 1) (by omega) (by omega)
    simp only [hold]
    exact ⟨_, rfl⟩

theorem internstring_found {t : InternTab} {s : CString} {k : Int} (fs fk : Bucket)
    (h : lookupstring t s = some k) (hk : k ≠ SIINVALID) :
    internstring t s fs fk = some (k, t) := by
  unfold internstring
  simp [h, hk]

theorem getinternlist_some {l : InternList} {k : CString} {v : Nat}
    (h : getinternlist l k = some v) (hv : v ≠ 0) :
    ∃ kd, lookupstring l.ptKeys k = some kd ∧ kd ≠ SIINVALID ∧
      readData l.paData (kd - 1) = some v := by
  unfold getinternlist at h
  cases hl : lookupstring l.ptKeys k with
  | none => simp [hl] at h
  | some kd =>
    simp only [hl] at h
    by_cases hk : kd = SIINVALID
    · simp only [hk, if_true, Option.some.injEq] at h
      exact absurd h.symm hv
    · simp only [hk, if_false] at h
      exact ⟨kd, rfl, hk, h⟩

/-! ## Delete and put on a known key -/

theorem list_set_same {l : List Nat} {i : Nat} {v : Nat} (h : l[i]? = some v) :
    l.set i v = l := by
  apply List.ext_getElem?
  intro j
  by_cases hj : i = j
  · subst hj
    rcases Nat.lt_or_ge i l.length with h1 | h1
    · rw [List.getElem?_set_self h1, h]
    · simp [List.getElem?_eq_none h1] at h
  · rw [List.getElem?_set_ne hj]

theorem readData_set_same {paData : List Nat} {i : Int} {v : Nat}
    (h : readData paData i = some v) : paData.set i.toNat v = paData := by
  unfold readData at h
  by_cases hi : i < 0
  · simp [hi] at h
  · rw [if_neg hi] at h
    exact list_set_same h

/-- Deleting a key that `getinternlist` reports as absent changes nothing. -/
theorem deleteinternlist_absent {l : InternList} {k : CString}
    (h : getinternlist l k = some 0) : deleteinternlist l k = some l := by
  unfold getinternlist at h
  unfold deleteinternlist
  cases hl : lookupstring l.ptKeys k with
  | none => simp [hl] at h
  | some kd =>
    simp only [hl] at h ⊢
    by_cases hk : kd = SIINVALID
    · simp [hk]
    · simp only [hk, if_false] at h ⊢
      simp only [h, ne_eq, not_true_eq_false, if_false, readData_set_same h]

/-- Deleting a key whose slot holds an item: the item is destroyed and the
slot holds `NULL` afterwards. -/
theorem deleteinternlist_present {l : InternList} {k : CString} {kd : Int} {v : Nat}
    (hl : lookupstring l.ptKeys k = some kd) (hk : kd ≠ SIINVALID)
    (hrd : readData l.paData (kd - 1) = some v) :
    deleteinternlist l k = some { l with
      paData := l.paData.set (kd - 1).toNat 0
      pfDestroyCalls := if v ≠ 0 then l.pfDestroyCalls ++ [v] else l.pfDestroyCalls } := by
  unfold deleteinternlist
  simp only [hl, hk, if_false, hrd]

/-- A put of a key the table knows, on a list that satisfies the invariant:
the table stays as it is, the item is stored in the slot of the key, the
other slots of the array keep their contents, and the destructor is called
for the item the slot held, if any. -/
theorem putinternlist_known {l l' : InternList} {k : CString} {v : Nat} {fs fk : Bucket}
    {fill : Nat → Nat} {kd : Int} {old : Nat} (inv : ListInv l)
    (hl : lookupstring l.ptKeys k = some kd) (hk : kd ≠ SIINVALID)
    (hrd : readData l.paData (kd - 1) = some old)
    (h : putinternlist l k v fs fk fill = some l') :
    l'.ptKeys = l.ptKeys ∧ readData l'.paData (kd - 1) = some v ∧
      (∀ i u, i ≠ kd - 1 → readData l.paData i = some u → readData l'.paData i = some u) ∧
      l'.pfDestroyCalls = (if old ≠ 0 then l.pfDestroyCalls ++ [old] else l.pfDestroyCalls) := by
  obtain ⟨kData, paData, old', hi, hk0, hgrow, hrd', hpa, _, hcalls⟩ := putinternlist_spec h
  rw [internstring_found fs fk hl hk] at hi
  simp only [Option.some.injEq, Prod.mk.injEq] at hi
  obtain ⟨hkd, htab⟩ := hi
  subst hkd
  have hkeep : ∀ i u, readData l.paData i = some u → readData paData i = some u := by
    rcases hgrow with ⟨_, hpd, _⟩ | ⟨heq, hg, _⟩
    · intro i u hu; rw [hpd]; exact hu
    · have h0 := inv.usage_nonneg
      have h1 := inv.usage_le
      have h2 := inv.space_le
      have h3 := inv.length_eq
      have hnn := growData_some hg
      have hsmall : 2 * l.dataspace + 1 ≤ 2147483647 := by
        by_contra hc
        unfold wrap32 at hnn; omega
      have hds' : wrap32 (wrap32 (l.dataspace * 2) + 1) = 2 * l.dataspace + 1 := by
        unfold wrap32; omega
      rw [hds', growData_eq fill (by omega) (by omega)] at hg
      simp only [Option.some.injEq] at hg
      intro i u hu
      rw [← hg]; exact readData_append hu
  have hold : old' = old := by
    have := hkeep _ _ hrd
    rw [hrd'] at this
    exact Option.some.inj this
  obtain ⟨hk1, _⟩ := readData_lt hrd
  refine ⟨htab.symm, ?_, ?_, by rw [hcalls, hold]⟩
  · rw [hpa]; exact readData_set v hrd'
  · intro i u hne hu
    obtain ⟨hi0, _⟩ := readData_lt hu
    rw [hpa, readData_set_ne v hi0 hk1 hne]
    exact hkeep i u hu

theorem getinternlist_of_slot {l : InternList} {k : CString} {kd : Int} {v : Nat}
    (hl : lookupstring l.ptKeys k = some kd) (hk : kd ≠ SIINVALID)
    (hrd : readData l.paData (kd - 1) = some v) : getinternlist l k = some v := by
  unfold getinternlist
  simp only [hl, hk, if_false, hrd]

theorem containsinternlist_of_slot {l : InternList} {k : CString} {kd : Int} {v : Nat}
    (hl : lookupstring l.ptKeys k = some kd) (hk : kd ≠ SIINVALID)
    (hrd : readData l.paData (kd - 1) = some v) :
    containsinternlist l k = some (if v ≠ 0 then 1 else 0) := by
  unfold containsinternlist
  simp only [hl, hk, if_false, hrd]

/-- A delete directly followed by a put of the same key (the positive part of
C14): the delete leaves the embedded table as it is, and for a key the table
knows under `kd`, with a slot in the array, the put leaves the table as it is
too (no key is issued), stores the item in slot `kd - 1` and leaves the other
slots alone. -/
theorem delete_then_put_same_slot {l l1 l2 : InternList} (hr : ListReachable l) (k : CString)
    (kd : Int) (old v : Nat) (fs fk : Bucket) (fill : Nat → Nat)
    (hl : lookupstring l.ptKeys k = some kd) (hk : kd ≠ SIINVALID)
    (hrd : readData l.paData (kd - 1) = some old)
    (hdel : deleteinternlist l k = some l1)
    (hput : putinternlist l1 k v fs fk fill = some l2) :
    l1.ptKeys = l.ptKeys ∧ l2.ptKeys = l.ptKeys ∧ lookupstring l2.ptKeys k = some kd ∧
      readData l2.paData (kd - 1) = some v ∧
      ∀ i u, i ≠ kd - 1 → readData l1.paData i = some u → readData l2.paData i = some u := by
  have inv := listReachable_listInv hr
  have hd := deleteinternlist_present hl hk hrd
  rw [hd] at hdel
  simp only [Option.some.injEq] at hdel
  have ht1 : l1.ptKeys = l.ptKeys := by rw [← hdel]
  have inv1 : ListInv l1 := (deleteinternlist_inv inv hd).1 |> fun h => by rw [← hdel]; exact h
  have hl1 : lookupstring l1.ptKeys k = some kd := by rw [ht1]; exact hl
  have hrd1 : readData l1.paData (kd - 1) = some 0 := by
    rw [← hdel]; exact readData_set 0 hrd
  obtain ⟨ht2, hv, hframe, _⟩ := putinternlist_known inv1 hl1 hk hrd1 hput
  exact ⟨ht1, by rw [ht2, ht1], by rw [ht2]; exact hl1, hv, hframe⟩

/-- The bookkeeping of every list reached by a run of put and delete calls
(the positive part of C20): `datausage` is the number of puts made, it is at
most `dataspace`, the array has `dataspace` cells, and every key the counter
of the embedded table has issued indexes a cell of the array. -/
theorem listRun_bounds {ops : List ListOp} {l : InternList} (h : ListRun ops l) :
    l.datausage = putCount ops ∧ l.datausage ≤ l.dataspace ∧
      (l.paData.length : Int) = l.dataspace ∧
      ∀ k, issuedKey l.ptKeys k → 0 ≤ k - 1 ∧ k - 1 < l.dataspace := by
  obtain ⟨inv, hc⟩ := listRun_inv h
  refine ⟨hc, inv.usage_le, inv.length_eq, ?_⟩
  intro k ⟨h1, h2, h3⟩
  obtain ⟨n, ⟨_, _, _, _, _, hn0, hn1, hnk⟩, hle⟩ := inv.tab
  have hu := inv.usage_le
  rw [hnk] at h3
  unfold wrap32 at h3
  omega

/-! ## Runs of a list with clean allocations -/

theorem cleanListRun_listRun {ops : List ListOp} {l : InternList} (h : CleanListRun ops l) :
    ListRun ops l := by
  induction h with
  | make initcap l h0 h1 hm => exact ListRun.make initcap l h0 h1 hm
  | put k v fs fk fill _ _ _ _ hput ih => exact ListRun.put k v fs fk fill ih hput
  | delete k _ hdel ih => exact ListRun.delete k ih hdel

theorem cleanListRun_inv {ops : List ListOp} {l : InternList} (h : CleanListRun ops l) :
    ListInv l :=
  (listRun_inv (cleanListRun_listRun h)).1

/-- The embedded table of a clean run of a list is the table of a clean run
of `internstring` calls, one per put. -/
theorem cleanListRun_table {ops : List ListOp} {l : InternList} (h : CleanListRun ops l) :
    ∃ log, CleanRun log l.ptKeys ∧ log.map Prod.fst = putKeys ops := by
  induction h with
  | make initcap l h0 _ hm =>
    unfold makeinternlist at hm
    have : ¬ initcap < 0 := by omega
    simp only [this, if_false, Option.some.injEq] at hm
    subst hm
    exact ⟨[], CleanRun.make, rfl⟩
  | put k v fs fk fill hfs hfk _ _ hput ih =>
    obtain ⟨log, hrun, hkeys⟩ := ih
    obtain ⟨kd, _, _, hi, _⟩ := putinternlist_some hput
    refine ⟨(k, kd) :: log, CleanRun.intern k fs fk kd hfs hfk hrun hi, ?_⟩
    simp only [List.map_cons, putKeys, hkeys]
  | delete k _ hdel ih =>
    obtain ⟨log, hrun, hkeys⟩ := ih
    refine ⟨log, by rw [deleteinternlist_ptKeys hdel]; exact hrun, ?_⟩
    simp only [putKeys, hkeys]

theorem distinctCount_of_keys {log : List (CString × Int)} {ops : List ListOp}
    (h : log.map Prod.fst = putKeys ops) : distinctCount log = keyCount ops := by
  unfold distinctCount keyCount
  rw [h]

theorem keyCount_le_cons (op : ListOp) (ops : List ListOp) :
    keyCount ops ≤ keyCount (op :: ops) := by
  unfold keyCount
  cases op with
  | put k v =>
    simp only [putKeys]
    by_cases hm : k ∈ putKeys ops
    · rw [List.dedup_cons_of_mem hm]
    · rw [List.dedup_cons_of_not_mem hm, List.length_cons]; omega
  | delete k => simp only [putKeys]; exact le_refl _

theorem keyCount_put_mem {k : CString} {ops : List ListOp} (v : Nat) (h : k ∈ putKeys ops) :
    keyCount (ListOp.put k v :: ops) = keyCount ops := by
  unfold keyCount
  simp only [putKeys]
  rw [List.dedup_cons_of_mem h]

theorem keyCount_put_not_mem {k : CString} {ops : List ListOp} (v : Nat)
    (h : k ∉ putKeys ops) : keyCount (ListOp.put k v :: ops) = keyCount ops + 1 := by
  unfold keyCount
  simp only [putKeys]
  rw [List.dedup_cons_of_not_mem h, List.length_cons]

/-- The lookups on the table of a clean run of a list with fewer than
`2^31 - 1` distinct keys: a key string that was put is found under a key
between 1 and the number of distinct key strings, different key strings
under different keys, and a key string never put is not found. -/
theorem cleanListRun_lookup {ops : List ListOp} {l : InternList} (h : CleanListRun ops l)
    (hb : keyCount ops ≤ 2147483646) :
    (∀ k, k ∈ putKeys ops → ∃ kd, lookupstring l.ptKeys k = some kd ∧ 1 ≤ kd ∧
      kd ≤ keyCount ops) ∧
    (∀ k, k ∉ putKeys ops → lookupstring l.ptKeys k = some SIINVALID) ∧
    (∀ k k' kd, lookupstring l.ptKeys k = some kd → lookupstring l.ptKeys k' = some kd →
      kd ≠ SIINVALID → k = k') := by
  obtain ⟨log, hrun, hkeys⟩ := cleanListRun_table h
  have hdc := distinctCount_of_keys hkeys
  have hb' : distinctCount log ≤ 2147483646 := by rw [hdc]; exact hb
  obtain ⟨hl, hn, _⟩ := cleanRun_lookups hrun hb'
  obtain ⟨occ, g, rest, ok, inv⟩ := cleanRun_inv hrun hb'
  have hfound : ∀ k, k ∈ putKeys ops → ∃ e ∈ log, e.1 = k := by
    intro k hk
    rw [← hkeys, List.mem_map] at hk
    exact hk
  refine ⟨?_, ?_, ?_⟩
  · intro k hk
    obtain ⟨e, he, hek⟩ := hfound k hk
    have h2 := (inv.keys _ (sslot_lt e.1)).1 e (inv.logged e he)
    refine ⟨e.2, by rw [← hek]; exact (hl e he).1, h2.1, ?_⟩
    have := h2.2
    rw [hdc] at this
    exact this
  · intro k hk
    exact hn k (by rw [hkeys]; exact hk)
  · intro k k' kd h1 h2 hne
    by_cases hk : k ∈ putKeys ops
    · by_cases hk' : k' ∈ putKeys ops
      · obtain ⟨e, he, hek⟩ := hfound k hk
        obtain ⟨e', he', hek'⟩ := hfound k' hk'
        have a1 := (hl e he).1
        have a2 := (hl e' he').1
        rw [hek, h1] at a1
        rw [hek', h2] at a2
        have := (cleanRun_keys_injective hrun hb' e e' he he').mpr
          ((Option.some.inj a1).symm.trans (Option.some.inj a2))
        rw [← hek, ← hek']; exact this
      · have := hn k' (by rw [hkeys]; exact hk')
        rw [h2] at this
        exact absurd (Option.some.inj this) hne
    · have := hn k (by rw [hkeys]; exact hk)
      rw [h1] at this
      exact absurd (Option.some.inj this) hne

/-- In a clean run of a list the number of distinct key strings put is at
most `datausage`. -/
theorem cleanListRun_count_le {ops : List ListOp} {l : InternList} (h : CleanListRun ops l)
    (hb : keyCount ops ≤ 2147483646) : (keyCount ops : Int) ≤ l.datausage := by
  obtain ⟨log, hrun, hkeys⟩ := cleanListRun_table h
  have hdc := distinctCount_of_keys hkeys
  have hb' : distinctCount log ≤ 2147483646 := by rw [hdc]; exact hb
  obtain ⟨occ, g, rest, ok, inv⟩ := cleanRun_inv hrun hb'
  obtain ⟨n, ⟨_, _, _, _, _, hn0, hn1, hnk⟩, hle⟩ := (cleanListRun_inv h).tab
  have h1 := inv.nextkey
  rw [hnk, hdc] at h1
  unfold wrap32 at h1
  omega

/-- A returning `putinternlist` on a list that satisfies the invariant, with
the growth step folded in: the array is the old one followed by the cells
`realloc` added (none if it was not called), with the item stored in the
slot of the key `internstring` returned. -/
theorem putinternlist_grown {l l' : InternList} {k : CString} {v : Nat} {fs fk : Bucket}
    {fill : Nat → Nat} (inv : ListInv l) (h : putinternlist l k v fs fk fill = some l') :
    ∃ kd more old, internstring l.ptKeys k fs fk = some (kd, l'.ptKeys) ∧ 0 < kd ∧
      (∀ x ∈ more, ∃ j, x = fill j) ∧
      readData (l.paData ++ more) (kd - 1) = some old ∧
      l'.paData = (l.paData ++ more).set (kd - 1).toNat v ∧
      l'.pfDestroyCalls = (if old ≠ 0 then l.pfDestroyCalls ++ [old] else l.pfDestroyCalls) := by
  obtain ⟨kd, paData, old, hi, hk0, hgrow, hrd, hpa, _, hcalls⟩ := putinternlist_spec h
  rcases hgrow with ⟨_, hpd, _⟩ | ⟨heq, hg, _⟩
  · refine ⟨kd, [], old, hi, hk0, fun x hx => by simp at hx, ?_, ?_, hcalls⟩
    · rw [List.append_nil, ← hpd]; exact hrd
    · rw [List.append_nil, ← hpd]; exact hpa
  · have h0 := inv.usage_nonneg
    have h1 := inv.usage_le
    have h2 := inv.space_le
    have h3 := inv.length_eq
    have hnn := growData_some hg
    have hsmall : 2 * l.dataspace + 1 ≤ 2147483647 := by
      by_contra hc
      unfold wrap32 at hnn; omega
    have hds' : wrap32 (wrap32 (l.dataspace * 2) + 1) = 2 * l.dataspace + 1 := by
      unfold wrap32; omega
    rw [hds', growData_eq fill (by omega) (by omega)] at hg
    simp only [Option.some.injEq] at hg
    refine ⟨kd, _, old, hi, hk0, ?_, by rw [hg]; exact hrd, by rw [hg]; exact hpa, hcalls⟩
    intro x hx
    rw [List.mem_map] at hx
    obtain ⟨j, _, hj⟩ := hx
    exact ⟨_, hj.symm⟩

theorem readData_append_cases {paData more : List Nat} {i : Int} {u : Nat}
    (h : readData (paData ++ more) i = some u) : readData paData i = some u ∨ u ∈ more := by
  unfold readData at h ⊢
  by_cases hi : i < 0
  · simp [hi] at h
  · rw [if_neg hi] at h ⊢
    rcases Nat.lt_or_ge i.toNat paData.length with hlt | hge
    · rw [List.getElem?_append_left hlt] at h
      exact Or.inl h
    · rw [List.getElem?_append_right hge] at h
      exact Or.inr (List.getElem?_mem h)

theorem readData_replicate {n : Nat} {i : Int} {u : Nat}
    (h : readData (List.replicate n 0) i = some u) : u = 0 := by
  unfold readData at h
  by_cases hi : i < 0
  · simp [hi] at h
  · rw [if_neg hi] at h
    exact List.eq_of_mem_replicate (List.getElem?_mem h)

/-- The key `internstring` returns for a put of a clean run: at most the
number of distinct key strings if the key string was put before, the next
number if it is new. -/
theorem clean_put_key {ops : List ListOp} {l : InternList} (h : CleanListRun ops l)
    (k : CString) (v : Nat) (fs fk : Bucket) (kd : Int) (t' : InternTab)
    (hb : keyCount (ListOp.put k v :: ops) ≤ 2147483646)
    (hfs : fs.val = none) (hfk : fk.val = none)
    (hi : internstring l.ptKeys k fs fk = some (kd, t')) :
    (k ∈ putKeys ops ∧ 1 ≤ kd ∧ kd ≤ keyCount ops ∧ lookupstring l.ptKeys k = some kd) ∨
    (k ∉ putKeys ops ∧ kd = (keyCount ops : Int) + 1) := by
  obtain ⟨log, hrun, hkeys⟩ := cleanListRun_table h
  have hdc := distinctCount_of_keys hkeys
  have hb0 : keyCount ops ≤ 2147483646 := le_trans (keyCount_le_cons _ _) hb
  have hb' : distinctCount log ≤ 2147483646 := by rw [hdc]; exact hb0
  have hdc' : distinctCount ((k, kd) :: log) = keyCount (ListOp.put k v :: ops) :=
    distinctCount_of_keys (by simp only [List.map_cons, putKeys, hkeys])
  have hrun' := CleanRun.intern k fs fk kd hfs hfk hrun hi
  obtain ⟨occ, g, rest, ok, inv⟩ := cleanRun_inv hrun hb'
  rcases cleanRun_sequential hrun' (by rw [hdc']; exact hb) with ⟨hm, he⟩ | ⟨hm, he⟩
  · left
    have h2 := (inv.keys _ (sslot_lt k)).1 (k, kd) (inv.logged _ he)
    have h3 := cleanInv_lookupstring ok inv (k, kd) he
    refine ⟨by rw [← hkeys]; exact hm, h2.1, ?_, h3⟩
    have := h2.2
    rw [hdc] at this
    exact this
  · right
    exact ⟨by rw [← hkeys]; exact hm, by rw [he, hdc]⟩

/-- In a clean run of a list every cell of the array beyond the slots of the
keys issued holds `NULL`. -/
theorem cleanListRun_zero {ops : List ListOp} {l : InternList} (h : CleanListRun ops l) :
    keyCount ops ≤ 2147483646 →
    ∀ i u, (keyCount ops : Int) ≤ i → readData l.paData i = some u → u = 0 := by
  induction h with
  | make initcap l h0 _ hm =>
    intro _ i u _ hu
    unfold makeinternlist at hm
    have : ¬ initcap < 0 := by omega
    simp only [this, if_false, Option.some.injEq] at hm
    subst hm
    exact readData_replicate hu
  | @put ops l l' k v fs fk fill hfs hfk hfill hprev hput ih =>
    intro hb i u hi hu
    have hb0 := le_trans (keyCount_le_cons (ListOp.put k v) ops) hb
    obtain ⟨kd, more, old, hint, hk0, hmore, _, hpa, _⟩ :=
      putinternlist_grown (cleanListRun_inv hprev) hput
    have hle : kd ≤ (keyCount (ListOp.put k v :: ops) : Int) := by
      rcases clean_put_key hprev k v fs fk kd _ hb hfs hfk hint with ⟨hm, _, h2, _⟩ | ⟨hm, h2⟩
      · rw [keyCount_put_mem v hm]; exact h2
      · rw [keyCount_put_not_mem v hm, h2]; push_cast; omega
    have h0 : (0 : Int) ≤ keyCount (ListOp.put k v :: ops) := Int.natCast_nonneg _
    rw [hpa, readData_set_ne v (by omega) (by omega) (by omega)] at hu
    rcases readData_append_cases hu with h1 | h1
    · refine ih hb0 i u ?_ h1
      have : (keyCount ops : Int) ≤ keyCount (ListOp.put k v :: ops) :=
        Int.ofNat_le.mpr (keyCount_le_cons (ListOp.put k v) ops)
      omega
    · obtain ⟨j, hj⟩ := hmore u h1
      rw [hj]; exact hfill j
  | @delete ops l l' k _ hdel ih =>
    intro hb i u hi hu
    have hb0 : keyCount ops ≤ 2147483646 := hb
    have hi : (keyCount ops : Int) ≤ i := hi
    rcases deleteinternlist_spec hdel with ⟨_, he⟩ | ⟨kd, old, _, _, hrd, he⟩
    · rw [he] at hu; exact ih hb0 i u hi hu
    · rw [he] at hu
      simp only at hu
      by_cases hik : i = kd - 1
      · rw [hik, readData_set 0 hrd] at hu
        exact (Option.some.inj hu).symm
      · obtain ⟨hk0, _⟩ := readData_lt hrd
        have hi0 : (0 : Int) ≤ i := le_trans (Int.natCast_nonneg _) hi
        rw [readData_set_ne 0 hi0 hk0 hik] at hu
        exact ih hb0 i u hi hu

/-- A put of a key string that was not put before, in a clean run of a list
(the positive part of C12): the key is unknown to the table before the put,
and the put makes no destructor call. -/
theorem cleanList_put_new {ops : List ListOp} {l l' : InternList} (h : CleanListRun ops l)
    (k : CString) (v : Nat) (fs fk : Bucket) (fill : Nat → Nat)
    (hb : keyCount (ListOp.put k v :: ops) ≤ 2147483646)
    (hfs : fs.val = none) (hfk : fk.val = none) (hfill : ∀ i, fill i = 0)
    (hnew : k ∉ putKeys ops) (hput : putinternlist l k v fs fk fill = some l') :
    lookupstring l.ptKeys k = some SIINVALID ∧ l'.pfDestroyCalls = l.pfDestroyCalls := by
  have hb0 := le_trans (keyCount_le_cons (ListOp.put k v) _) hb
  refine ⟨(cleanListRun_lookup h hb0).2.1 k hnew, ?_⟩
  obtain ⟨kd, more, old, hint, hk0, hmore, hrd, _, hcalls⟩ :=
    putinternlist_grown (cleanListRun_inv h) hput
  have hkd : kd = (keyCount ops : Int) + 1 := by
    rcases clean_put_key h k v fs fk kd _ hb hfs hfk hint with ⟨hm, _⟩ | ⟨_, h2⟩
    · exact absurd hm hnew
    · exact h2
  have hold : old = 0 := by
    rcases readData_append_cases hrd with h1 | h1
    · exact cleanListRun_zero h hb0 (kd - 1) old (by omega) h1
    · obtain ⟨j, hj⟩ := hmore old h1
      rw [hj]; exact hfill j
  rw [hcalls, hold]
  simp

/-! ## The items of a list after a clean run -/

/-- What `containsinternlist` returns is decided by what `getinternlist` returns. -/
theorem containsinternlist_eq (l : InternList) (k : CString) :
    containsinternlist l k = (getinternlist l k).map fun v => if v ≠ 0 then 1 else 0 := by
  unfold containsinternlist getinternlist
  cases lookupstring l.ptKeys k with
  | none => rfl
  | some kd =>
    by_cases hk : kd = SIINVALID
    · simp [hk]
    · simp only [hk, if_false]
      cases readData l.paData (kd - 1) <;> rfl

theorem getinternlist_unknown {l : InternList} {k : CString}
    (h : lookupstring l.ptKeys k = some SIINVALID) : getinternlist l k = some 0 := by
  unfold getinternlist
  simp [h]

/-- After a returning put on a reachable list `getinternlist` returns the item put. -/
theorem putinternlist_get {l l' : InternList} {k : CString} {v : Nat} {fs fk : Bucket}
    {fill : Nat → Nat} (hr : ListReachable l) (hput : putinternlist l k v fs fk fill = some l') :
    getinternlist l' k = some v := by
  obtain ⟨kData, paData, old, hi, hk, hrd, hpa, _⟩ := putinternlist_some hput
  have hl := (internstring_then_lookup (listReachable_inv hr) k fs fk kData hi hk).1
  have hne : kData ≠ SIINVALID := by simp only [SIINVALID]; omega
  exact getinternlist_of_slot hl hne (by rw [hpa]; exact readData_set v hrd)

/-- A put in a clean run of a list with fewer than `2^31 - 1` distinct keys
(the positive part of C11): `getinternlist` and `containsinternlist` return
for every other key what they returned before the put, whether the put grew
the array or not. -/
theorem cleanList_put_frame {ops : List ListOp} {l l' : InternList} (h : CleanListRun ops l)
    (k : CString) (v : Nat) (fs fk : Bucket) (fill : Nat → Nat)
    (hb : keyCount (ListOp.put k v :: ops) ≤ 2147483646)
    (hfs : fs.val = none) (hfk : fk.val = none) (hfill : ∀ i, fill i = 0)
    (hput : putinternlist l k v fs fk fill = some l') (k' : CString) (hne : k' ≠ k) :
    getinternlist l' k' = getinternlist l k' ∧
      containsinternlist l' k' = containsinternlist l k' := by
  have hget : getinternlist l' k' = getinternlist l k' := by
    have hb0 := le_trans (keyCount_le_cons (ListOp.put k v) ops) hb
    have h' := CleanListRun.put k v fs fk fill hfs hfk hfill h hput
    have inv := cleanListRun_inv h
    obtain ⟨hl, hn, _⟩ := cleanListRun_lookup h hb0
    obtain ⟨hl', hn', hinj'⟩ := cleanListRun_lookup h' hb
    by_cases hm : k' ∈ putKeys ops
    · obtain ⟨kd', hk1, hk2, hk3⟩ := hl k' hm
      obtain ⟨kd, more, old, hint, hk0, _, _, hpa, _⟩ := putinternlist_grown inv hput
      have hlk : lookupstring l'.ptKeys k = some kd :=
        (internstring_then_lookup (listReachable_inv
          (listRun_reachable (cleanListRun_listRun h))) k fs fk kd hint hk0).1
      -- the table of the run before the put is a prefix of the log of the run after it
      obtain ⟨log, hrun, hkeys⟩ := cleanListRun_table h
      have hdc := distinctCount_of_keys hkeys
      have hrun' := CleanRun.intern k fs fk kd hfs hfk hrun hint
      have hdc' : distinctCount ((k, kd) :: log) = keyCount (ListOp.put k v :: ops) :=
        distinctCount_of_keys (by simp only [List.map_cons, putKeys, hkeys])
      obtain ⟨hlog, _, _⟩ := cleanRun_lookups hrun (by rw [hdc]; exact hb0)
      obtain ⟨hlog', _, _⟩ := cleanRun_lookups hrun' (by rw [hdc']; exact hb)
      have hmem : ∃ e ∈ log, e.1 = k' := by
        rw [← hkeys, List.mem_map] at hm; exact hm
      obtain ⟨e, he, hek⟩ := hmem
      have a1 := (hlog e he).1
      rw [hek, hk1] at a1
      have a2 := (hlog' e (List.mem_cons_of_mem _ he)).1
      rw [hek, ← Option.some.inj a1] at a2
      have hkne : kd' ≠ kd := by
        intro heq
        have hsi : kd ≠ SIINVALID := by simp only [SIINVALID]; omega
        exact hne (hinj' k' k kd (by rw [← heq]; exact a2) hlk hsi)
      have hcount := cleanListRun_count_le h hb0
      have h1 := inv.usage_le
      have h3 := inv.length_eq
      obtain ⟨u, hu⟩ := readData_some l.paData (kd' - 1) (by omega) (by omega)
      have hsi' : kd' ≠ SIINVALID := by simp only [SIINVALID]; omega
      rw [getinternlist_of_slot hk1 hsi' hu]
      refine getinternlist_of_slot a2 hsi' ?_
      rw [hpa, readData_set_ne v (by omega) (by omega) (by omega)]
      exact readData_append hu
    · have hm' : k' ∉ putKeys (ListOp.put k v :: ops) := by
        simp only [putKeys, List.mem_cons, not_or]
        exact ⟨hne, hm⟩
      rw [getinternlist_unknown (hn k' hm), getinternlist_unknown (hn' k' hm')]
  exact ⟨hget, by rw [containsinternlist_eq, containsinternlist_eq, hget]⟩

/-- A delete in a clean run of a list with fewer than `2^31 - 1` distinct
keys: afterwards `getinternlist` returns `NULL` for the key deleted and, for
every other key, what it returned before. -/
theorem cleanList_delete_get {ops : List ListOp} {l l' : InternList}
    (h : CleanListRun ops l) (hb : keyCount ops ≤ 2147483646) (k : CString)
    (hdel : deleteinternlist l k = some l') (k' : CString) :
    getinternlist l' k' = if k = k' then some 0 else getinternlist l k' := by
  obtain ⟨_, _, hinj⟩ := cleanListRun_lookup h hb
  rcases deleteinternlist_spec hdel with ⟨hl, he⟩ | ⟨kd, old, hl, hk, hrd, he⟩
  · rw [he]
    split
    · rename_i hkk; rw [← hkk]; exact getinternlist_unknown hl
    · rfl
  · obtain ⟨hk0, _⟩ := readData_lt hrd
    have hpa : l'.paData = l.paData.set (kd - 1).toNat 0 := by rw [he]
    have ht : l'.ptKeys = l.ptKeys := by rw [he]
    split
    · rename_i hkk
      rw [← hkk]
      exact getinternlist_of_slot (by rw [ht]; exact hl) hk
        (by rw [hpa]; exact readData_set 0 hrd)
    · rename_i hkk
      unfold getinternlist
      rw [ht]
      cases hl' : lookupstring l.ptKeys k' with
      | none => rfl
      | some kd' =>
        simp only
        by_cases hs : kd' = SIINVALID
        · simp [hs]
        · simp only [hs, if_false]
          have hkne : kd' ≠ kd := by
            intro heq
            exact hkk (hinj k k' kd hl (by rw [← heq]; exact hl') hk)
          by_cases hneg : kd' - 1 < 0
          · unfold readData
            rw [if_pos hneg, if_pos hneg]
          · rw [hpa, readData_set_ne 0 (by omega) hk0 (by omega)]

/-- The items of a list after a clean run with fewer than `2^31 - 1` distinct
keys (C10, C11, C13 without the defects): `getinternlist` returns for every
key the item of the most recent put of that key, or `NULL` if the key was
deleted after it or never put, and `containsinternlist` says whether that
item is not `NULL`. -/
theorem cleanList_get {ops : List ListOp} {l : InternList} (h : CleanListRun ops l) :
    keyCount ops ≤ 2147483646 → ∀ k, getinternlist l k = some (currentItem k ops) ∧
      containsinternlist l k = some (if currentItem k ops ≠ 0 then 1 else 0) := by
  intro hb k
  have hget : getinternlist l k = some (currentItem k ops) := by
    induction h with
    | make initcap l h0 h1 hm =>
      have hr := CleanListRun.make initcap l h0 h1 hm
      exact getinternlist_unknown ((cleanListRun_lookup hr hb).2.1 k (by simp [putKeys]))
    | @put ops l l' k1 v fs fk fill hfs hfk hfill hprev hput ih =>
      have hb0 := le_trans (keyCount_le_cons (ListOp.put k1 v) ops) hb
      by_cases hk : k1 = k
      · subst hk
        have := putinternlist_get (listRun_reachable (cleanListRun_listRun hprev)) hput
        simp only [currentItem, if_true]
        exact this
      · have hf := (cleanList_put_frame hprev k1 v fs fk fill hb hfs hfk hfill hput k
          (fun hc => hk hc.symm)).1
        rw [hf, ih hb0]
        simp only [currentItem, hk, if_false]
    | @delete ops l l' k1 hprev hdel ih =>
      have hb0 : keyCount ops ≤ 2147483646 := hb
      rw [cleanList_delete_get hprev hb0 k1 hdel k]
      by_cases hk : k1 = k
      · simp only [hk, currentItem, if_true]
      · simp only [hk, currentItem, if_false]
        exact ih hb0
  exact ⟨hget, by rw [containsinternlist_eq, hget]; rfl⟩

/-! ## Destructor calls of a clean run -/

theorem count_set_add (x v old : Nat) :
    ∀ (l : List Nat) (i : Nat), l[i]? = some old →
      (l.set i v).count x + (if old = x then 1 else 0) =
        l.count x + (if v = x then 1 else 0) := by
  intro l
  induction l with
  | nil => intro i h; simp at h
  | cons a l ih =>
    intro i h
    cases i with
    | zero =>
      simp only [List.getElem?_cons_zero, Option.some.injEq] at h
      subst h
      simp only [List.set_cons_zero, List.count_cons, beq_iff_eq]
      omega
    | succ i =>
      simp only [List.getElem?_cons_succ] at h
      have := ih i h
      simp only [List.set_cons_succ, List.count_cons]
      omega

theorem count_zeros {more : List Nat} {x : Nat} (hx : x ≠ 0) (h : ∀ y ∈ more, y = 0) :
    more.count x = 0 := by
  rw [List.count_eq_zero]
  intro hm
  exact hx (h x hm)

theorem readData_getElem {paData : List Nat} {i : Int} {u : Nat}
    (h : readData paData i = some u) : paData[i.toNat]? = some u := by
  unfold readData at h
  by_cases hi : i < 0
  · simp [hi] at h
  · rw [if_neg hi] at h; exact h

/-- In a clean run of a list every item other than `NULL` has been destroyed
or is in the array as often as it was given to put. -/
theorem cleanListRun_count {ops : List ListOp} {l : InternList} (h : CleanListRun ops l)
    (x : Nat) (hx : x ≠ 0) :
    l.pfDestroyCalls.count x + l.paData.count x = (putValues ops).count x := by
  induction h with
  | make initcap l h0 _ hm =>
    unfold makeinternlist at hm
    have : ¬ initcap < 0 := by omega
    simp only [this, if_false, Option.some.injEq] at hm
    subst hm
    simp only [putValues, List.count_nil, Nat.zero_add]
    exact count_zeros hx (fun y hy => List.eq_of_mem_replicate hy)
  | @put ops l l' k v fs fk fill hfs hfk hfill hprev hput ih =>
    obtain ⟨kd, more, old, _, _, hmore, hrd, hpa, hcalls⟩ :=
      putinternlist_grown (cleanListRun_inv hprev) hput
    have hz : more.count x = 0 := count_zeros hx (fun y hy => by
      obtain ⟨j, hj⟩ := hmore y hy
      rw [hj]; exact hfill j)
    have hs := count_set_add x v old _ _ (readData_getElem hrd)
    rw [List.count_append, hz] at hs
    rw [hpa, hcalls]
    simp only [putValues, List.count_cons, beq_iff_eq]
    by_cases ho : old = 0
    · have hox : ¬ old = x := fun hc => hx (hc ▸ ho)
      rw [if_neg hox] at hs
      simp only [ho, ne_eq, not_true_eq_false, if_false]
      omega
    · simp only [ne_eq, ho, not_false_eq_true, if_true, List.count_append, List.count_cons,
        List.count_nil, beq_iff_eq]
      omega
  | @delete ops l l' k hprev hdel ih =>
    rcases deleteinternlist_spec hdel with ⟨_, he⟩ | ⟨kd, old, _, _, hrd, he⟩
    · rw [he]; exact ih
    · have hs := count_set_add x 0 old _ _ (readData_getElem hrd)
      have h0x : ¬ (0 = x) := fun hc => hx hc.symm
      rw [if_neg h0x] at hs
      rw [he]
      simp only [putValues]
      by_cases ho : old = 0
      · have hox : ¬ old = x := fun hc => hx (hc ▸ ho)
        rw [if_neg hox] at hs
        simp only [ho, ne_eq, not_true_eq_false, if_false]
        omega
      · simp only [ne_eq, ho, not_false_eq_true, if_true, List.count_append, List.count_cons,
          List.count_nil, beq_iff_eq]
        omega

theorem killinternlistLoop_range (paData : List Nat) :
    ∀ (m s : Nat), s + m ≤ paData.length →
      killinternlistLoop paData (List.range' s m) = some ((paData.drop s).take m) := by
  intro m
  induction m with
  | zero => intro s _; simp [killinternlistLoop]
  | succ m ih =>
    intro s hs
    have hlt : s < paData.length := by omega
    rw [List.range'_succ]
    unfold killinternlistLoop
    rw [ih (s + 1) (by omega), List.getElem?_eq_getElem hlt]
    simp only
    rw [List.drop_eq_getElem_cons hlt, List.take_succ_cons]

/-- The teardown of a list after a clean run with fewer than `2^31 - 1`
distinct keys (C16 without the defects): `killinternlist` returns, and over
the whole run every item other than `NULL` has been passed to the destructor
exactly as often as it was given to put. -/
theorem cleanList_kill {ops : List ListOp} {l : InternList} (h : CleanListRun ops l)
    (hb : keyCount ops ≤ 2147483646) :
    ∃ calls, killinternlist l = some calls ∧
      ∀ x, x ≠ 0 → calls.count x = (putValues ops).count x := by
  have inv := cleanListRun_inv h
  have h0 := inv.usage_nonneg
  have h1 := inv.usage_le
  have h3 := inv.length_eq
  have hlen : l.datausage.toNat ≤ l.paData.length := by omega
  have hloop := killinternlistLoop_range l.paData l.datausage.toNat 0 (by omega)
  rw [← List.range_eq_range', List.drop_zero] at hloop
  refine ⟨l.pfDestroyCalls ++ l.paData.take l.datausage.toNat, ?_, ?_⟩
  · unfold killinternlist
    rw [hloop]; rfl
  · intro x hx
    have hcount := cleanListRun_count_le h hb
    have hz : (l.paData.drop l.datausage.toNat).count x = 0 := by
      rw [List.count_eq_zero]
      intro hm
      obtain ⟨j, hj⟩ := List.mem_iff_getElem?.mp hm
      rw [List.getElem?_drop] at hj
      have hr : readData l.paData ((l.datausage.toNat + j : Nat) : Int) = some x := by
        unfold readData
        rw [if_neg (by omega), Int.toNat_ofNat]
        exact hj
      exact hx (cleanListRun_zero h hb _ x (by omega) hr)
    have hsplit : l.paData.count x =
        (l.paData.take l.datausage.toNat).count x + (l.paData.drop l.datausage.toNat).count x := by
      rw [← List.count_append, List.take_append_drop]
    rw [List.count_append, ← cleanListRun_count h x hx]
    omega

/-! ## Bindings, bounds and the last bucket in clean runs -/

/-- A put in a clean run of a list with fewer than `2^31 - 1` distinct keys
keeps the bindings of the table (C14 without the defect): every key string
put before is found under the key it had. -/
theorem cleanList_put_binding {ops : List ListOp} {l l' : InternList}
    (h : CleanListRun ops l) (k : CString) (v : Nat) (fs fk : Bucket) (fill : Nat → Nat)
    (hb : keyCount (ListOp.put k v :: ops) ≤ 2147483646)
    (hfs : fs.val = none) (hfk : fk.val = none)
    (hput : putinternlist l k v fs fk fill = some l') (k' : CString)
    (hm : k' ∈ putKeys ops) :
    lookupstring l'.ptKeys k' = lookupstring l.ptKeys k' := by
  have hb0 := le_trans (keyCount_le_cons (ListOp.put k v) ops) hb
  obtain ⟨kd, _, _, hint, _⟩ := putinternlist_some hput
  obtain ⟨log, hrun, hkeys⟩ := cleanListRun_table h
  have hdc := distinctCount_of_keys hkeys
  have hrun' := CleanRun.intern k fs fk kd hfs hfk hrun hint
  have hdc' : distinctCount ((k, kd) :: log) = keyCount (ListOp.put k v :: ops) :=
    distinctCount_of_keys (by simp only [List.map_cons, putKeys, hkeys])
  obtain ⟨hlog, _, _⟩ := cleanRun_lookups hrun (by rw [hdc]; exact hb0)
  obtain ⟨hlog', _, _⟩ := cleanRun_lookups hrun' (by rw [hdc']; exact hb)
  rw [← hkeys, List.mem_map] at hm
  obtain ⟨e, he, hek⟩ := hm
  rw [← hek, (hlog e he).1, (hlog' e (List.mem_cons_of_mem _ he)).1]

/-- In a clean run of a list with fewer than `2^31 - 1` distinct keys (C20
without the defect) the key the table answers for a key string is
`SIINVALID` or indexes a cell of the array, so the slot accesses of
`getinternlist`, `containsinternlist` and `deleteinternlist` are in bounds
and the three functions return. -/
theorem cleanList_access {ops : List ListOp} {l : InternList} (h : CleanListRun ops l)
    (hb : keyCount ops ≤ 2147483646) (k : CString) :
    (∃ kd, lookupstring l.ptKeys k = some kd ∧
      (kd = SIINVALID ∨ (0 ≤ kd - 1 ∧ kd - 1 < l.dataspace))) ∧
    (∃ v, getinternlist l k = some v) ∧ (∃ c, containsinternlist l k = some c) ∧
    (∃ l', deleteinternlist l k = some l') := by
  have inv := cleanListRun_inv h
  have h1 := inv.usage_le
  have h3 := inv.length_eq
  have hcount := cleanListRun_count_le h hb
  obtain ⟨hl, hn, _⟩ := cleanListRun_lookup h hb
  obtain ⟨hg, hc⟩ := cleanList_get h hb k
  by_cases hm : k ∈ putKeys ops
  · obtain ⟨kd, hk1, hk2, hk3⟩ := hl k hm
    refine ⟨⟨kd, hk1, Or.inr ⟨by omega, by omega⟩⟩, ⟨_, hg⟩, ⟨_, hc⟩, ?_⟩
    obtain ⟨u, hu⟩ := readData_some l.paData (kd - 1) (by omega) (by omega)
    exact ⟨_, deleteinternlist_present hk1 (by simp only [SIINVALID]; omega) hu⟩
  · refine ⟨⟨SIINVALID, hn k hm, Or.inl rfl⟩, ⟨_, hg⟩, ⟨_, hc⟩, l, ?_⟩
    exact deleteinternlist_absent (getinternlist_unknown (hn k hm))

/-- In such a run `putinternlist` returns, its slot access being in bounds
after the growth step, unless the array is full with `2^30` cells or more. -/
theorem cleanList_put_returns {ops : List ListOp} {l : InternList} (h : CleanListRun ops l)
    (k : CString) (v : Nat) (fs fk : Bucket) (fill : Nat → Nat)
    (hb : keyCount (ListOp.put k v :: ops) ≤ 2147483646)
    (hfs : fs.val = none) (hfk : fk.val = none)
    (hroom : l.dataspace ≠ l.datausage ∨ l.dataspace < 1073741824) :
    ∃ l', putinternlist l k v fs fk fill = some l' := by
  have hb0 := le_trans (keyCount_le_cons (ListOp.put k v) ops) hb
  have inv := cleanListRun_inv h
  have h0 := inv.usage_nonneg
  have h1 := inv.usage_le
  have hcount := cleanListRun_count_le h hb0
  obtain ⟨occ, g, rest, n, ok, _⟩ := listReachable_inv (listRun_reachable (cleanListRun_listRun h))
  have hret : ∃ r, internstring l.ptKeys k fs fk = some r := by
    rcases internstring_cases ok k fs fk with ⟨_, h'⟩ | ⟨_, _, h'⟩ | ⟨_, _, t', h', _⟩
    · exact ⟨_, h'⟩
    · exact ⟨_, h'⟩
    · exact ⟨_, h'⟩
  obtain ⟨⟨kd, tab⟩, hint⟩ := hret
  have hkd : 1 ≤ kd ∧ kd ≤ (keyCount ops : Int) + 1 := by
    rcases clean_put_key h k v fs fk kd tab hb hfs hfk hint with ⟨_, h2, h3, _⟩ | ⟨_, h2⟩
    · omega
    · omega
  refine putinternlist_returns inv k v fs fk fill kd tab hint (by omega) hroom ?_
  split <;> omega

/-- One `internstring` with fresh cells that are empty (a `NULL` string and
key `SIINVALID`) keeps the chains well-shaped with an empty last bucket in
every ring. -/
theorem internstring_keeps_empty {t t' : InternTab} {occ g rest}
    (ok : TabOK t occ g rest) (hg : ∀ c, g c = (none, SIINVALID)) (s : CString)
    (fs fk : Bucket) (k : Int) (hfs : fs.val = none ∧ fs.key = SIINVALID)
    (hfk : fk.val = none ∧ fk.key = SIINVALID)
    (hstep : internstring t s fs fk = some (k, t')) :
    ∃ occ' g' rest', TabOK t' occ' g' rest' ∧ ∀ c, g' c = (none, SIINVALID) := by
  rcases internstring_cases ok s fs fk with ⟨_, h⟩ | ⟨_, _, h⟩ | ⟨_, _, t1, h, _, ok'⟩
  · rw [h] at hstep; simp only [Option.some.injEq, Prod.mk.injEq] at hstep
    rw [← hstep.2]; exact ⟨occ, g, rest, ok, hg⟩
  · rw [h] at hstep; simp only [Option.some.injEq, Prod.mk.injEq] at hstep
    rw [← hstep.2]; exact ⟨occ, g, rest, tabOK_nextkey ok _, hg⟩
  · rw [h] at hstep; simp only [Option.some.injEq, Prod.mk.injEq] at hstep
    rw [← hstep.2]
    refine ⟨_, _, _, ok', ?_⟩
    intro c
    unfold gIns
    split
    · rw [hfs.1, hfs.2]
    · split
      · rw [hfk.1, hfk.2]
      · exact hg c

/-- Every table built by `internstring` calls whose fresh cells are empty is
well-shaped, and the last bucket of every ring is empty (C19 without the
defect). -/
theorem internAll_trailing_empty (ss : List CString) :
    ∀ (t t' : InternTab) (occ : Nat → List (CString × Int)) (g : Nat → Option CString × Int)
      (rest : Nat → List Nat), TabOK t occ g rest → (∀ c, g c = (none, SIINVALID)) →
      internAll t ss = some t' →
      ∃ occ' g' rest', TabOK t' occ' g' rest' ∧ ∀ c, g' c = (none, SIINVALID) := by
  induction ss with
  | nil =>
    intro t t' occ g rest ok hg h
    simp only [internAll, Option.some.injEq] at h
    rw [← h]; exact ⟨occ, g, rest, ok, hg⟩
  | cons s ss ih =>
    intro t t' occ g rest ok hg h
    unfold internAll at h
    cases hi : internstring t s cleanCell cleanCell with
    | none => simp [hi] at h
    | some r =>
      obtain ⟨k, t1⟩ := r
      simp only [hi] at h
      obtain ⟨occ1, g1, rest1, ok1, hg1⟩ :=
        internstring_keeps_empty ok hg s cleanCell cleanCell k ⟨rfl, rfl⟩ ⟨rfl, rfl⟩ hi
      exact ih t1 t' occ1 g1 rest1 ok1 hg1 h

/-! ## Delete and put again, and a list full by its count of puts -/

/-- Repeated puts of a key the table knows under key 1, with the item 1, on a
list of `2^30` cells that still has room for them: all of them return, the
table keeps the key, slot 0 holds the item, `dataspace` stays and `datausage`
has grown by the number of puts. -/
theorem putAll_same_key (n : Nat) :
    ∀ l : InternList, ListReachable l → l.dataspace = 1073741824 →
      l.datausage + n ≤ 1073741824 →
      lookupstring l.ptKeys [97] = some 1 → readData l.paData (1 - 1) = some 1 →
      ∃ l', putAll l (List.replicate n ([97], 1)) = some l' ∧ ListReachable l' ∧
        l'.dataspace = 1073741824 ∧ l'.datausage = l.datausage + n ∧
        lookupstring l'.ptKeys [97] = some 1 ∧ readData l'.paData (1 - 1) = some 1 := by
  induction n with
  | zero =>
    intro l hr hds _ hl hrd
    exact ⟨l, rfl, hr, hds, by simp, hl, hrd⟩
  | succ n ih =>
    intro l hr hds hdu hl hrd
    have inv := listReachable_listInv hr
    have hne : (1 : Int) ≠ SIINVALID := by decide
    have hroom : l.dataspace ≠ l.datausage := by omega
    obtain ⟨l1, hput⟩ := putinternlist_returns inv [97] 1 cleanCell cleanCell (fun _ => 0) 1
      l.ptKeys (internstring_found cleanCell cleanCell hl hne) (by decide) (Or.inl hroom)
      (by rw [if_neg hroom, hds]; decide)
    obtain ⟨ht, hv, _, _⟩ := putinternlist_known inv hl hne hrd hput
    obtain ⟨_, hdu1, hds1⟩ := putinternlist_inv inv hput
    rw [if_neg hroom] at hds1
    obtain ⟨l', h1, h2, h3, h4, h5, h6⟩ := ih l1
      (ListReachable.put [97] 1 cleanCell cleanCell (fun _ => 0) hr hput)
      (by rw [hds1]; exact hds) (by rw [hdu1]; push_cast at hdu ⊢; omega)
      (by rw [ht]; exact hl) hv
    refine ⟨l', ?_, h2, h3, by rw [h4, hdu1]; push_cast; omega, h5, h6⟩
    rw [List.replicate_succ]
    unfold putAll
    simp only [hput]
    exact h1

/-- The list after `makeinternlist(2^30, destroy)` and `2^30` puts of the key
`"a"` with the item 1: the array is full by the count of `datausage`, though
one slot is in use. -/
theorem full_list :
    ∃ l, (makeinternlist 1073741824).bind
        (fun l0 => putAll l0 (List.replicate 1073741824 ([97], 1))) = some l ∧
      ListReachable l ∧ l.dataspace = 1073741824 ∧ l.datausage = 1073741824 ∧
      lookupstring l.ptKeys [97] = some 1 ∧ readData l.paData (1 - 1) = some 1 := by
  have hm : makeinternlist 1073741824 =
      some { paData := List.replicate (1073741824 : Int).toNat 0
             dataspace := 1073741824
             datausage := 0
             ptKeys := makeinterntab
             pfDestroyCalls := [] } := by
    unfold makeinternlist
    rw [if_neg (by decide)]
  obtain ⟨l0, hl0⟩ : ∃ l0, makeinternlist 1073741824 = some l0 := ⟨_, hm⟩
  have hr0 : ListReachable l0 := ListReachable.make 1073741824 l0 (by decide) (by decide) hl0
  have h0 : l0.dataspace = 1073741824 ∧ l0.datausage = 0 ∧ l0.ptKeys = makeinterntab := by
    rw [hm] at hl0
    rw [← Option.some.inj hl0]
    exact ⟨rfl, rfl, rfl⟩
  obtain ⟨hds0, hdu0, ht0⟩ := h0
  have inv0 := listReachable_listInv hr0
  have hint : ∃ t1, internstring l0.ptKeys [97] cleanCell cleanCell = some (1, t1) := by
    rw [ht0]
    exact ⟨((internstring makeinterntab [97] cleanCell cleanCell).map Prod.snd).getD
      makeinterntab, by decide⟩
  obtain ⟨t1, hint⟩ := hint
  have hroom : l0.dataspace ≠ l0.datausage := by rw [hds0, hdu0]; decide
  obtain ⟨l1, hput⟩ := putinternlist_returns inv0 [97] 1 cleanCell cleanCell (fun _ => 0) 1
    t1 hint (by decide) (Or.inl hroom) (by rw [if_neg hroom, hds0]; decide)
  have hr1 := ListReachable.put [97] 1 cleanCell cleanCell (fun _ => 0) hr0 hput
  obtain ⟨_, hdu1, hds1⟩ := putinternlist_inv inv0 hput
  rw [if_neg hroom] at hds1
  obtain ⟨kd, paData, old, hi', hk', hrd', hpa', _⟩ := putinternlist_some hput
  have hkd : kd = 1 := by
    rw [hint] at hi'
    exact (Prod.mk.inj (Option.some.inj hi')).1.symm
  subst hkd
  have hl1 := (internstring_then_lookup (listReachable_inv hr0) [97] cleanCell cleanCell 1
    hi' hk').1
  have hrd1 : readData l1.paData (1 - 1) = some 1 := by
    rw [hpa']; exact readData_set 1 hrd'
  obtain ⟨l, h1, h2, h3, h4, h5, h6⟩ := putAll_same_key 1073741823 l1 hr1
    (by rw [hds1]; exact hds0) (by rw [hdu1, hdu0]; decide) hl1 hrd1
  refine ⟨l, ?_, h2, h3, by rw [h4, hdu1, hdu0]; decide, h5, h6⟩
  rw [hl0, Option.some_bind,
    show (1073741824 : Nat) = 1073741823 + 1 from rfl, List.replicate_succ]
  unfold putAll
  simp only [hput]
  exact h1

/-- On a list whose `dataspace` and `datausage` are both `2^30`, a put of a
key the table knows has no result: the growth step computes `2^31 + 1`,
which wraps to a negative `int`, and the `realloc` of that size fails the
`assert`. -/
theorem put_none_on_full {l : InternList} (hds : l.dataspace = 1073741824)
    (hdu : l.datausage = 1073741824) (hl : lookupstring l.ptKeys [97] = some 1)
    (v : Nat) (fs fk : Bucket) (fill : Nat → Nat) :
    putinternlist l [97] v fs fk fill = none := by
  unfold putinternlist
  rw [internstring_found fs fk hl (by decide)]
  simp only [hds, hdu]
  have hw : wrap32 (wrap32 2147483648 + 1) = -2147483647 := by decide
  have hg : growData l.paData (-2147483647) fill = none := by
    unfold growData
    rw [if_pos (by decide)]
  simp [hw, hg]

/-- Delete then re-insert on a list with room (the part of C13 that holds).
On every list reachable from `makeinternlist` by put and delete calls and for
every key `k`:
if `getinternlist(list, k)` is an item `v1` other than `NULL`, then
`deleteinternlist(list, k)` returns, having called the destructor once, on
`v1`; afterwards `containsinternlist(list, k)` is 0 and `getinternlist(list,
k)` is `NULL`; a put of `k` that follows and returns makes no destructor call
and leaves `getinternlist(list, k)` at the item put; and that put does return
unless the array is full with `2^30` cells or more.  If `getinternlist(list,
k)` is `NULL` (the key is unknown, or its slot is empty) then
`deleteinternlist(list, k)` returns the list as it was. -/
theorem delete_then_put {l : InternList} (hr : ListReachable l) (k : CString) :
    (∀ v1, getinternlist l k = some v1 → v1 ≠ 0 →
      ∃ l1, deleteinternlist l k = some l1 ∧
        l1.pfDestroyCalls = l.pfDestroyCalls ++ [v1] ∧
        containsinternlist l1 k = some 0 ∧ getinternlist l1 k = some 0 ∧
        (∀ v2 fs fk fill l2, putinternlist l1 k v2 fs fk fill = some l2 →
          l2.pfDestroyCalls = l1.pfDestroyCalls ∧ getinternlist l2 k = some v2) ∧
        (∀ v2 fs fk fill, (l.dataspace ≠ l.datausage ∨ l.dataspace < 1073741824) →
          ∃ l2, putinternlist l1 k v2 fs fk fill = some l2)) ∧
    (getinternlist l k = some 0 → deleteinternlist l k = some l) := by
  have inv := listReachable_listInv hr
  refine ⟨?_, deleteinternlist_absent⟩
  intro v1 hget hv
  obtain ⟨kd, hl, hk, hrd⟩ := getinternlist_some hget hv
  have hd := deleteinternlist_present hl hk hrd
  rw [if_pos hv] at hd
  obtain ⟨l1, hdel⟩ : ∃ l1, deleteinternlist l k = some l1 := ⟨_, hd⟩
  have heq : l1 = { l with paData := l.paData.set (kd - 1).toNat 0
                           pfDestroyCalls := l.pfDestroyCalls ++ [v1] } := by
    rw [hd] at hdel; exact (Option.some.inj hdel).symm
  have hpa : l1.paData = l.paData.set (kd - 1).toNat 0 := by rw [heq]
  have hcalls1 : l1.pfDestroyCalls = l.pfDestroyCalls ++ [v1] := by rw [heq]
  have hl1 : lookupstring l1.ptKeys k = some kd := by
    rw [deleteinternlist_ptKeys hdel]; exact hl
  obtain ⟨inv1, hdu, hds⟩ := deleteinternlist_inv inv hdel
  have hrd1 : readData l1.paData (kd - 1) = some 0 := by
    rw [hpa]; exact readData_set 0 hrd
  obtain ⟨hk0, hk1⟩ := readData_lt hrd
  refine ⟨l1, hdel, hcalls1, ?_, ?_, ?_, ?_⟩
  · exact containsinternlist_of_slot hl1 hk hrd1
  · exact getinternlist_of_slot hl1 hk hrd1
  · intro v2 fs fk fill l2 hput
    obtain ⟨ht2, hv2, _, hcalls⟩ := putinternlist_known inv1 hl1 hk hrd1 hput
    refine ⟨by rw [hcalls]; simp, ?_⟩
    exact getinternlist_of_slot (by rw [ht2]; exact hl1) hk hv2
  · intro v2 fs fk fill hroom
    have h3 := inv.length_eq
    have h4 := inv.usage_nonneg
    have h5 := inv.usage_le
    refine putinternlist_returns inv1 k v2 fs fk fill kd l1.ptKeys
      (internstring_found fs fk hl1 hk) (by omega) (by rw [hdu, hds]; exact hroom) ?_
    rw [hdu, hds]
    split <;> omega

/-- An instance of `delete_then_put`: on the list after `put("x", 5)`,
`get("x")` is 5, and on the fresh list `get("x")` is `NULL`. -/
theorem delete_then_put_witness :
    (ListReachable demoList1 ∧ getinternlist demoList1 [120] = some 5 ∧ (5 : Nat) ≠ 0 ∧
      ∃ l1, deleteinternlist demoList1 [120] = some l1 ∧
        l1.pfDestroyCalls = demoList1.pfDestroyCalls ++ [5] ∧
        containsinternlist l1 [120] = some 0 ∧ getinternlist l1 [120] = some 0 ∧
        (∀ v2 fs fk fill l2, putinternlist l1 [120] v2 fs fk fill = some l2 →
          l2.pfDestroyCalls = l1.pfDestroyCalls ∧ getinternlist l2 [120] = some v2) ∧
        (∀ v2 fs fk fill,
          (demoList1.dataspace ≠ demoList1.datausage ∨ demoList1.dataspace < 1073741824) →
          ∃ l2, putinternlist l1 [120] v2 fs fk fill = some l2)) ∧
    (ListReachable demoList0 ∧ getinternlist demoList0 [120] = some 0 ∧
      deleteinternlist demoList0 [120] = some demoList0) :=
  ⟨⟨ListReachable.put [120] 5 cleanCell cleanCell (fun _ => 0)
      (ListReachable.make 2 demoList0 (by decide) (by decide) (by decide)) (by decide),
    by decide, by decide,
    (delete_then_put (ListReachable.put [120] 5 cleanCell cleanCell (fun _ => 0)
      (ListReachable.make 2 demoList0 (by decide) (by decide) (by decide)) (by decide))
      [120]).1 5 (by decide) (by decide)⟩,
   ⟨ListReachable.make 2 demoList0 (by decide) (by decide) (by decide), by decide,
    (delete_then_put (ListReachable.make 2 demoList0 (by decide) (by decide) (by decide))
      [120]).2 (by decide)⟩⟩

/-! ## The claims -/

/-- C1 (round trip), evaluated on a run the claim covers.  `internstring(t, "a")`
on a fresh table issues key 1 and links a cell behind the head of the strings
chain; `addbucket` never initialises it, here it holds `val → "n"`, `key = 7`.
`internstring(t, "n")` then finds `"n"` in that cell and returns 7 although
only one key was issued, and `lookupkey(t, 7)` is `NULL`, not `"n"`. -/
theorem roundtrip_fails_on_stale_cell :
    (internstring makeinterntab [97] staleCell cleanCell).bind (fun r1 =>
      (internstring r1.2 [110] cleanCell cleanCell).bind fun r2 =>
        (lookupkey r2.2 r2.1).map fun v => (r1.1, r1.2.nextkey, r2.1, v)) =
    some (1, 2, 7, none) := by
  decide

/-- C2 (idempotent interning) fails twice.  First: on a reachable table whose
counter has overflowed, two successive calls for the same never-interned
string both return `SITABFULL`, and the second call changes the table (it
advances `nextkey` again).  Second: with a stale fresh cell `"n"` is given key
7, and after `"T"` has been interned in between the same string is given
key 3. -/
theorem idempotence_fails :
    (∃ log t t1 t2, Run log t ∧
      internstring t [] cleanCell cleanCell = some (SITABFULL, t1) ∧
      internstring t1 [] cleanCell cleanCell = some (SITABFULL, t2) ∧
      t2.nextkey ≠ t1.nextkey) ∧
    (internstring makeinterntab [97] staleCell cleanCell).bind (fun r1 =>
      (internstring r1.2 [110] cleanCell cleanCell).bind fun r2 =>
      (internstring r2.2 [84] cleanCell cleanCell).bind fun r3 =>
      (internstring r3.2 [110] cleanCell cleanCell).map fun r4 =>
        (r1.1, r2.1, r3.1, r4.1)) = some (1, 7, 2, 3) := by
  refine ⟨?_, by decide⟩
  obtain ⟨log, t, occ, g, rest, hrun, ok, hnk, hnot, _⟩ := full_table
  rcases internstring_cases ok [] cleanCell cleanCell with ⟨h1, _⟩ | ⟨_, _, h⟩ | ⟨_, h2, _⟩
  · exact absurd hnot h1
  · have ok1 := tabOK_nextkey ok (wrap32 (t.nextkey + 1))
    rcases internstring_cases ok1 [] cleanCell cleanCell with ⟨h1, _⟩ | ⟨_, _, h'⟩ | ⟨_, h2, _⟩
    · exact absurd hnot h1
    · exact ⟨log, t, _, _, hrun, h, h', wrap32_succ_ne _⟩
    · simp only [hnk] at h2; unfold wrap32 at h2; omega
  · rw [hnk] at h2; omega

/-- C3 (uniqueness) fails twice.  First: on the reachable table that has
issued `2^31 - 1` keys, the keys 1 and 2 were returned for `"\x02"` and
`"\x03"`, yet `lookupkey` is `NULL` for both, the counter having overflowed
below every key.  Second: with a stale fresh cell the keys 1 and 7
are returned for `"a"` and `"n"`, and `lookupkey(t, 7)` is `NULL`. -/
theorem uniqueness_fails :
    (∃ log t, Run log t ∧ (([2], 1) : CString × Int) ∈ log ∧
      (([3], 2) : CString × Int) ∈ log ∧
      lookupkey t 1 = some none ∧ lookupkey t 2 = some none) ∧
    (internstring makeinterntab [97] staleCell cleanCell).bind (fun r1 =>
      (internstring r1.2 [110] cleanCell cleanCell).bind fun r2 =>
      (lookupkey r2.2 r1.1).bind fun v1 =>
      (lookupkey r2.2 r2.1).map fun v2 => (r1.1, r2.1, v1, v2)) =
      some (1, 7, some [97], none) := by
  refine ⟨?_, by decide⟩
  obtain ⟨log, t, occ, g, rest, hrun, ok, hnk, _, hm1, hm2, _⟩ := full_table
  refine ⟨log, t, hrun, hm1, hm2, ?_, ?_⟩
  · rw [lookupkey_spec ok, hnk]; simp
  · rw [lookupkey_spec ok, hnk]; simp

/-- C4 (unknown lookups) fails twice.  First: a run of `internstring` calls
reaches a table on which `"\x08\x01"` was interned, the call returning key 1,
and `lookupstring` returns `SIINVALID` for it: the key counter has gone
around the 32-bit range, key 1 was issued a second time, and the walk stops
at a bucket whose key equals the key of the head.  Second: after
`internstring(t, "a")` on a fresh table, the two cells `addbucket` leaves
uninitialised holding `"n"` with the keys 7 and -2, `lookupstring(t, "n")`
returns 7 for a string never interned and `lookupkey(t, -2)` returns `"n"`
for a key that was never issued. -/
theorem unknown_lookups_fail :
    (∃ log t, Run log t ∧ (([8, 1], 1) : CString × Int) ∈ log ∧
      lookupstring t [8, 1] = some SIINVALID) ∧
    (internstring makeinterntab [97] staleCell ⟨some [110], -2, none, none⟩).map (fun r =>
      (r.1, lookupstring r.2 [110], lookupkey r.2 (-2))) =
    some (1, some 7, some (some [110])) :=
  ⟨wrapped_table, by decide⟩

/-- C5 (sequential keys), evaluated.  On a fresh table the calls for `"a"`,
`"n"`, `"b"`, the first fresh cell being stale, return 1, 7 and 2: the
second distinct string does not receive key 2 and the third does not receive
key 3. -/
theorem sequential_keys_fail_on_stale_cell :
    (internstring makeinterntab [97] staleCell cleanCell).bind (fun r1 =>
      (internstring r1.2 [110] cleanCell cleanCell).bind fun r2 =>
      (internstring r2.2 [98] cleanCell cleanCell).map fun r3 =>
        (r1.1, r2.1, r3.1)) = some (1, 7, 2) := by
  decide

/-- C6 (valid keys are positive) fails twice.  First: a run of
`internstring` calls reaches a table on which the call for a string never
interned returns 0: after `2^31 - 1` keys every failed call advances the
counter, and `2^31` failed calls later it stands at 0.  Second: with a fresh
cell that holds `"n"` and key 0 the call for `"n"` returns 0. -/
theorem zero_key_returned :
    (∃ log t t', Run log t ∧ internstring t [] cleanCell cleanCell = some (0, t')) ∧
    (internstring makeinterntab [97] ⟨some [110], 0, none, none⟩ cleanCell).bind (fun r1 =>
      (internstring r1.2 [110] cleanCell cleanCell).map fun r2 => (r1.1, r2.1)) =
      some (1, 0) := by
  refine ⟨?_, by decide⟩
  obtain ⟨log, t, occ, g, rest, hrun, ok, hnk, hnot, _⟩ := full_table
  obtain ⟨log', hrun'⟩ := full_steps ok hnot hrun hnk 2147483648 (le_refl _)
  have ok' := tabOK_nextkey ok (-2147483648 + ((2147483648 : Nat) : Int))
  rcases internstring_cases ok' [] cleanCell cleanCell with ⟨h1, _⟩ | ⟨_, h2, _⟩ | ⟨_, _, t', h, _⟩
  · exact absurd hnot h1
  · simp at h2
  · refine ⟨log', _, t', hrun', ?_⟩
    rw [h]; simp

/-- C7 (table-full is atomic) fails on every table: when `internstring`
returns `SITABFULL` for a string `lookupstring` does not find, the chains are
untouched but the key counter of the table has been advanced, so the state is
not the state before the call. -/
theorem tabfull_advances_counter (t t' : InternTab) (s : CString) (fs fk : Bucket)
    (hl : lookupstring t s = some SIINVALID)
    (h : internstring t s fs fk = some (SITABFULL, t')) :
    t' = { t with nextkey := wrap32 (t.nextkey + 1) } ∧ t'.nextkey ≠ t.nextkey ∧ t' ≠ t := by
  have key : t' = { t with nextkey := wrap32 (t.nextkey + 1) } := by
    unfold internstring at h
    simp only [hl, ne_eq, not_true_eq_false, if_false] at h
    by_cases h1 : t.nextkey < 0
    · simp only [h1, if_true, Option.some.injEq, Prod.mk.injEq, true_and] at h
      exact h.symm
    · simp only [h1, if_false] at h
      by_cases h2 : t.nextkey = SIINVALID
      · simp [h2] at h
      · simp only [h2, if_false] at h
        exfalso
        split at h
        · split at h
          · split at h
            · simp only [Option.map_eq_some', Prod.mk.injEq] at h
              obtain ⟨_, _, hk, _⟩ := h
              rw [hk] at h1; simp [SITABFULL] at h1
            · simp at h
          · simp at h
        · simp at h
  have hne : t'.nextkey ≠ t.nextkey := by rw [key]; exact wrap32_succ_ne _
  exact ⟨key, hne, fun hh => hne (by rw [hh])⟩

/-- Witness for C7: the call on a table whose counter is `INT_MIN`. -/
theorem tabfull_advances_counter_witness :
    lookupstring fullTab [97] = some SIINVALID ∧
    internstring fullTab [97] cleanCell cleanCell =
      some (SITABFULL, { fullTab with nextkey := -2147483647 }) ∧
    ({ fullTab with nextkey := -2147483647 } : InternTab) =
      { fullTab with nextkey := wrap32 (fullTab.nextkey + 1) } ∧
    ({ fullTab with nextkey := -2147483647 } : InternTab).nextkey ≠ fullTab.nextkey ∧
    ({ fullTab with nextkey := -2147483647 } : InternTab) ≠ fullTab :=
  ⟨by decide, by decide,
    tabfull_advances_counter fullTab { fullTab with nextkey := -2147483647 } [97]
      cleanCell cleanCell (by decide) (by decide)⟩

/-- C8 (existing entries survive table-full) fails: a run of `internstring`
calls reaches a table on which the call for the empty string returns
`SITABFULL`; the string `"\x02"` was interned with key 1 and `lookupstring`
still returns 1 for it, but `lookupkey(t, 1)` returns `NULL`, because the
overflowed counter is below every key. -/
theorem lookupkey_null_after_tabfull :
    ∃ log t t', Run log t ∧ (([2], 1) : CString × Int) ∈ log ∧
      internstring t [] cleanCell cleanCell = some (SITABFULL, t') ∧
      lookupstring t' [2] = some 1 ∧ lookupkey t' 1 = some none := by
  obtain ⟨log, t, occ, g, rest, hrun, ok, hnk, hnot, hm1, _, hf1, _⟩ := full_table
  rcases internstring_cases ok [] cleanCell cleanCell with ⟨h1, _⟩ | ⟨_, _, h⟩ | ⟨_, h2, _⟩
  · exact absurd hnot h1
  · have ok1 := tabOK_nextkey ok (wrap32 (t.nextkey + 1))
    refine ⟨log, t, _, hrun, hm1, h, ?_, ?_⟩
    · rw [lookupstring_spec ok1, hf1]
    · rw [lookupkey_spec ok1]
      simp only [hnk]
      rw [if_pos (by decide)]
  · rw [hnk] at h2; omega

/-- C9 (table iteration), evaluated.  After the fourteen strings `"a"` ..
`"n"` have been interned (keys 1 .. 14, `lookupkey(t, 14)` is `"n"`),
`foreachintern` makes thirteen calls: one per keys chain, for the head cell
only.  Key 14, second in the chain of slot 1, is never visited. -/
theorem foreachintern_skips_chained_key :
    (internAll makeinterntab ((List.range 14).map fun i => [97 + (i : Int)])).bind
      (fun t => (foreachintern t).map fun calls => (calls, lookupkey t 14)) =
    some ([(some [109], 13), (some [97], 1), (some [98], 2), (some [99], 3),
      (some [100], 4), (some [101], 5), (some [102], 6), (some [103], 7),
      (some [104], 8), (some [105], 9), (some [106], 10), (some [107], 11),
      (some [108], 12)], some (some [110])) := by
  decide

/-- C10 counterexample: after `putinternlist(list, "x", NULL)` on a fresh list
`containsinternlist(list, "x")` returns 0, not 1. -/
theorem put_null_not_contained :
    (putinternlist demoList0 [120] 0 cleanCell cleanCell (fun _ => 0)).bind
      (fun l => containsinternlist l [120]) = some 0 := by
  decide

/-- C10 as amended: on every reachable list, whenever `putinternlist(list, k,
v)` returns, `getinternlist(list, k)` returns `v`, and `containsinternlist(list,
k)` returns 1 if `v` is not `NULL` and 0 if it is. -/
theorem put_then_get {l : InternList} (hr : ListReachable l) (k : CString) (v : Nat)
    (fs fk : Bucket) (fill : Nat → Nat) (l' : InternList)
    (hput : putinternlist l k v fs fk fill = some l') :
    getinternlist l' k = some v ∧
      containsinternlist l' k = some (if v ≠ 0 then 1 else 0) := by
  obtain ⟨kData, paData, old, hi, hk, hrd, hpa, _⟩ := putinternlist_some hput
  have hl := (internstring_then_lookup (listReachable_inv hr) k fs fk kData hi hk).1
  have hne : kData ≠ SIINVALID := by simp [SIINVALID]; omega
  have hget := readData_set v hrd
  rw [← hpa] at hget
  constructor
  · unfold getinternlist
    simp [hl, hne, hget]
  · unfold containsinternlist
    simp [hl, hne, hget]

/-- Witness for C10: `putinternlist(list, "x", 5)` on the list
`makeinternlist(2, destroy)` returns. -/
theorem put_then_get_witness :
    ListReachable demoList0 ∧
    putinternlist demoList0 [120] 5 cleanCell cleanCell (fun _ => 0) = some demoList1 ∧
    (getinternlist demoList1 [120] = some 5 ∧
      containsinternlist demoList1 [120] = some (if (5 : Nat) ≠ 0 then 1 else 0)) :=
  ⟨ListReachable.make 2 demoList0 (by decide) (by decide) (by decide), by decide,
    put_then_get (ListReachable.make 2 demoList0 (by decide) (by decide) (by decide))
      [120] 5 cleanCell cleanCell (fun _ => 0) demoList1 (by decide)⟩

/-- C11 (growth preserves contents), evaluated.  On `makeinternlist(10,
destroy)`, `put("a", 1)` where the bucket `addbucket` mallocs for the strings
chain still holds `"n"` and key 7, then `put("n", 2)`: `get("n")` is 2 and
`contains("n")` is 1.  After `put("T", 3)`, a put of another key, `get("n")`
is `NULL` and `contains("n")` is 0, although the item 2 is still in the array
(slot 6) and no destructor call was made. -/
theorem put_loses_other_key :
    ((makeinternlist 10).bind fun l0 =>
      (putinternlist l0 [97] 1 staleCell cleanCell (fun _ => 0)).bind fun l1 =>
      (putinternlist l1 [110] 2 cleanCell cleanCell (fun _ => 0)).bind fun l2 =>
      (putinternlist l2 [84] 3 cleanCell cleanCell (fun _ => 0)).bind fun l3 =>
      (getinternlist l2 [110]).bind fun a =>
      (containsinternlist l2 [110]).bind fun b =>
      (getinternlist l3 [110]).bind fun c =>
      (containsinternlist l3 [110]).map fun d =>
        ((a, b, c, d), l3.paData, l3.pfDestroyCalls)) =
    some ((2, 1, 0, 0), [1, 3, 0, 0, 0, 0, 2, 0, 0, 0], []) := by
  decide

/-- C12 (overwrite destroys the old value), evaluated on the scenario of the
specification: capacity 2, `put("x", 1)`, `put("y", 2)`, `put("z", 3)`.  The
third put grows the array with `realloc`, which does not clear the cells it
adds; they hold 9 here.  `"z"` is new (`lookupstring` returns `SIINVALID`
before the put) and no destructor call has been made so far, yet the put
calls the destructor on 9, the content of the cell it is about to fill. -/
theorem put_new_key_destroys_stale_item :
    ((makeinternlist 2).bind fun l0 =>
      (putinternlist l0 [120] 1 cleanCell cleanCell (fun _ => 9)).bind fun l1 =>
      (putinternlist l1 [121] 2 cleanCell cleanCell (fun _ => 9)).bind fun l2 =>
      (putinternlist l2 [122] 3 cleanCell cleanCell (fun _ => 9)).bind fun l3 =>
      (lookupstring l2.ptKeys [122]).bind fun a =>
      (getinternlist l3 [122]).map fun b =>
        ((a, l2.pfDestroyCalls, l3.pfDestroyCalls), b, l3.paData, l3.dataspace)) =
    some ((SIINVALID, [], [9]), 3, [1, 2, 3, 9, 9], 5) := by
  decide

/-- C13 (delete then re-insert), evaluated.  First run:
`makeinternlist(2^30, destroy)` followed by `2^30` calls `put("a", 1)`, every
allocated cell clean.  All of them return; `datausage` counts each of them, so
it has reached `dataspace` although one slot is in use.  The slot of `"a"`
holds the item 1; `delete("a")` returns, calls the destructor on 1 and leaves
`contains("a")` at 0.  The put of `"a"` that follows takes the growth step,
`dataspace * 2 + 1` overflows `int`, no `realloc` can serve the size and the
`assert` fails: the put has no result, whatever the item and whatever the
allocator hands out.  Second run, capacity 10: `put("a", 101)` where the
bucket `addbucket` mallocs for the strings chain still holds `"n"` and key 7,
then `"b"` .. `"g"` with the items 102 .. 107.  `"n"` was never put, yet
`delete("n")` destroys 107, the item of `"g"`, and `get("g")` becomes
`NULL`. -/
theorem put_after_delete_aborts :
    (∃ l l1, (makeinternlist 1073741824).bind
        (fun l0 => putAll l0 (List.replicate 1073741824 ([97], 1))) = some l ∧
      ListReachable l ∧ l.dataspace = 1073741824 ∧ l.datausage = 1073741824 ∧
      getinternlist l [97] = some 1 ∧ deleteinternlist l [97] = some l1 ∧
      l1.pfDestroyCalls = l.pfDestroyCalls ++ [1] ∧
      containsinternlist l1 [97] = some 0 ∧ getinternlist l1 [97] = some 0 ∧
      ∀ v fs fk fill, putinternlist l1 [97] v fs fk fill = none) ∧
    ((makeinternlist 10).bind fun l0 =>
      (putinternlist l0 [97] 101 staleCell cleanCell (fun _ => 0)).bind fun l1 =>
      (putAll l1 [([98], 102), ([99], 103), ([100], 104), ([101], 105), ([102], 106),
        ([103], 107)]).bind fun l2 =>
      (deleteinternlist l2 [110]).bind fun l3 =>
      (lookupstring l2.ptKeys [110]).bind fun k =>
      (getinternlist l2 [103]).bind fun a =>
      (getinternlist l3 [103]).map fun b =>
        ((k, a, b), l2.pfDestroyCalls, l3.pfDestroyCalls)) =
      some ((7, 107, 0), [], [107]) := by
  refine ⟨?_, by decide⟩
  obtain ⟨l, hrun, hr, hds, hdu, hl, hrd⟩ := full_list
  have hne : (1 : Int) ≠ SIINVALID := by decide
  have hd := deleteinternlist_present hl hne hrd
  rw [if_pos (by decide)] at hd
  obtain ⟨l1, hdel⟩ : ∃ l1, deleteinternlist l [97] = some l1 := ⟨_, hd⟩
  have heq : l1 = { l with paData := l.paData.set ((1 : Int) - 1).toNat 0
                           pfDestroyCalls := l.pfDestroyCalls ++ [1] } := by
    rw [hd] at hdel; exact (Option.some.inj hdel).symm
  have hl1 : lookupstring l1.ptKeys [97] = some 1 := by
    rw [deleteinternlist_ptKeys hdel]; exact hl
  have hrd1 : readData l1.paData (1 - 1) = some 0 := by
    rw [heq]; exact readData_set 0 hrd
  refine ⟨l, l1, hrun, hr, hds, hdu, getinternlist_of_slot hl hne hrd, hdel, by rw [heq],
    containsinternlist_of_slot hl1 hne hrd1, getinternlist_of_slot hl1 hne hrd1, ?_⟩
  intro v fs fk fill
  exact put_none_on_full (by rw [heq]; exact hds) (by rw [heq]; exact hdu) hl1 v fs fk fill

/-- C14 (delete keeps the key binding), evaluated.  On `makeinternlist(10,
destroy)`: `put("a", 1)` where the bucket `addbucket` mallocs for the strings
chain still holds `"n"` and key 7, then `put("n", 2)`, which finds key 7 and
fills slot 6.  `delete("n")` leaves the table as it is.  After `put("T", 3)`
the later `put("n", 4)` does not find `"n"`: the counter goes from 3 to 4,
`"n"` is now bound to key 3 and the item is stored in slot 2, not slot 6. -/
theorem later_put_issues_new_key :
    ((makeinternlist 10).bind fun l0 =>
      (putinternlist l0 [97] 1 staleCell cleanCell (fun _ => 0)).bind fun l1 =>
      (putinternlist l1 [110] 2 cleanCell cleanCell (fun _ => 0)).bind fun l2 =>
      (deleteinternlist l2 [110]).bind fun l3 =>
      (putinternlist l3 [84] 3 cleanCell cleanCell (fun _ => 0)).bind fun l4 =>
      (putinternlist l4 [110] 4 cleanCell cleanCell (fun _ => 0)).bind fun l5 =>
      (lookupstring l2.ptKeys [110]).bind fun a =>
      (lookupstring l5.ptKeys [110]).map fun b =>
        ((a, decide (l3.ptKeys = l2.ptKeys), l4.ptKeys.nextkey, l5.ptKeys.nextkey),
          b, l2.paData, l5.paData)) =
    some ((7, true, 3, 4), 3, [1, 0, 0, 0, 0, 0, 2, 0, 0, 0],
      [1, 3, 4, 0, 0, 0, 0, 0, 0, 0]) := by
  decide

/-- C15 (list iteration), evaluated.  On `makeinternlist(14, destroy)` the
keys `"a"` .. `"n"` are put with the items 100 .. 113 (every malloc'ed bucket
clean, no growth).  `getinternlist(list, "n")` is 113, but `foreachinternlist`
makes thirteen calls and none of them is for `"n"`: `foreachintern` visits
the head bucket of each keys chain only, and key 14 is second in its chain. -/
theorem foreachinternlist_skips_chained_key :
    ((makeinternlist 14).bind fun l0 =>
      (putAll l0 ((List.range 14).map fun (i : Nat) => ([97 + (i : Int)], i + 100))).bind
      fun l => (foreachinternlist l).bind fun calls =>
      (getinternlist l [110]).map fun v => (calls, v)) =
    some ([([109], 112), ([97], 100), ([98], 101), ([99], 102), ([100], 103), ([101], 104),
      ([102], 105), ([103], 106), ([104], 107), ([105], 108), ([106], 109), ([107], 110),
      ([108], 111)], 113) := by
  decide

/-- C16 (destructor exactly once), evaluated on two runs that end with
`killinternlist`; each result is the list of all destructor arguments, in
order.  First run: `put("a", 1)` where the bucket malloc'ed for the strings
chain still holds `"n"` and key 7, then `put("n", 2)`; the item 2 goes to slot
6, the teardown destroys the slots 0 and 1, and 2 is never destroyed.  Second
run, capacity 1: `put("x", 5)`, `put("y", 6)`; the second put grows the array,
the cells `realloc` adds hold 5 (it does not clear them), and 5 is destroyed
twice: by the second put, which finds it in slot 1, and by the teardown. -/
theorem destructor_not_exactly_once :
    ((makeinternlist 10).bind fun l0 =>
      (putinternlist l0 [97] 1 staleCell cleanCell (fun _ => 0)).bind fun l1 =>
      (putinternlist l1 [110] 2 cleanCell cleanCell (fun _ => 0)).bind fun l2 =>
      killinternlist l2) = some [1, 0] ∧
    ((makeinternlist 1).bind fun l0 =>
      (putinternlist l0 [120] 5 cleanCell cleanCell (fun _ => 5)).bind fun l1 =>
      (putinternlist l1 [121] 6 cleanCell cleanCell (fun _ => 5)).bind fun l2 =>
      killinternlist l2) = some [5, 5, 6] := by
  decide

/-- C17 (teardown destroys only non-empty slots), evaluated.  On
`makeinternlist(2, destroy)`, `put("x", 5)` then `delete("x")`: the destructor
has been called on 5, slot 0 holds `NULL` and `contains("x")` is 0, so no key
is contained.  `killinternlist` still makes one destructor call, with `NULL`:
its loop runs over `datausage` = 1 slots and does not test the slot. -/
theorem killinternlist_destroys_empty_slot :
    ((makeinternlist 2).bind fun l0 =>
      (putinternlist l0 [120] 5 cleanCell cleanCell (fun _ => 0)).bind fun l1 =>
      (deleteinternlist l1 [120]).bind fun l2 =>
      (containsinternlist l2 [120]).bind fun c =>
      (killinternlist l2).map fun calls =>
        ((l2.pfDestroyCalls, l2.paData, l2.datausage), c, calls)) =
    some (([5], [0, 0], 1), 0, [5, 0]) := by
  decide

/-- C18 (two-index consistency), evaluated.  After `internstring(t, "a")` on a
fresh table, where the bucket `addbucket` mallocs for the strings chain still
holds `"n"` and key 7, the buckets of the strings chains whose key is not
`SIINVALID` hold the pairs `("a", 1)` and `("n", 7)`, the buckets of the keys
chains hold `("a", 1)` only. -/
theorem strings_and_keys_differ :
    ((internstring makeinterntab [97] staleCell cleanCell).map fun p =>
      occupiedPairs p.2.heap p.2.strings) = some [(some [97], 1), (some [110], 7)] ∧
    ((internstring makeinterntab [97] staleCell cleanCell).map fun p =>
      occupiedPairs p.2.heap p.2.keys) = some [(some [97], 1)] := by
  decide

/-- C19 (chain shape), evaluated.  After `internstring(t, "a")` on a fresh
table, where the bucket `addbucket` mallocs for the strings chain still holds
`"n"` and key 7, the strings chain of `"a"` is the ring of the cells 24 (the
head, holding `"a"`) and 26, and cell 26, whose `next` is the head, is not
empty: it holds `"n"` and key 7, and `lookupstring(t, "n")` returns 7. -/
theorem trailing_bucket_not_empty :
    ((internstring makeinterntab [97] staleCell cleanCell).bind fun p =>
      (lookupstring p.2 [110]).map fun k =>
        (sslot [97], chainCells p.2.heap (sslot [97]), p.2.heap[24]?, p.2.heap[26]?, k)) =
    some (24, [24, 26], some ⟨some [97], 1, some 26, some 26⟩,
      some ⟨some [110], 7, some 24, some 24⟩, 7) := by
  decide

/-- C20 (slot indexing in bounds), evaluated.  On `makeinternlist(2,
destroy)`, `put("a", 1)` where the bucket `addbucket` mallocs for the strings
chain still holds `"n"` and key 7.  The array has two cells, and the table
answers 7 for `"n"`: `getinternlist`, `containsinternlist`, `deleteinternlist`
and `putinternlist` (which does not grow the array: `datausage` is 1) all
index cell 6, which the array does not have, so none of them has a result. -/
theorem slot_access_out_of_bounds :
    ((makeinternlist 2).bind fun l0 =>
      (putinternlist l0 [97] 1 staleCell cleanCell (fun _ => 0)).bind fun l1 =>
      (lookupstring l1.ptKeys [110]).map fun k =>
        (k, l1.dataspace, l1.datausage, l1.paData)) = some (7, 2, 1, [1, 0]) ∧
    ((makeinternlist 2).bind fun l0 =>
      (putinternlist l0 [97] 1 staleCell cleanCell (fun _ => 0)).map fun l1 =>
        ((readData l1.paData (7 - 1)).isSome, (getinternlist l1 [110]).isSome,
          (containsinternlist l1 [110]).isSome, (deleteinternlist l1 [110]).isSome,
          (putinternlist l1 [110] 2 cleanCell cleanCell (fun _ => 0)).isSome)) =
      some (false, false, false, false, false) := by
  decide

end Intern
